import Mathlib

/-!
# rmux: a shallow embedding of the pattern trie and its matcher

The development follows `mux.go` and `context.go`.

Modelling conventions.

* A Go `string` is a `List Char` (`Str`).  The only characters the code
  inspects are `/` and `:`; both are single-byte, so every prefix, suffix and
  split operation acts on the character list as it acts on the byte string.
* An `http.Handler` is an identity (`Handler := Nat`); a nil handler is `none`.
* A Go `map[string]*node` is an association list with unique keys: `mapGet`
  is the lookup `m[k]`, `mapSet` the assignment `m[k] = v` (in place for a
  present key, appended for a new one).  A nil map is `none`.
* A `*node` is a tree value.  The in-place mutation performed through a
  pointer is rendered by rebuilding the parent with the updated child.
* A run-time fault (a Go panic) is an `Except.error`.
-/

namespace Rmux

/-- A Go string, as the list of its characters. -/
abbrev Str := List Char

/-- The identity of an `http.Handler`. -/
abbrev Handler := Nat

/-- The run-time faults of the Go code, and the exhaustion of the recursion
budget of `addAux` (which `add` never reaches). -/
inductive Fault where
  | indexOutOfRange
  | nilMapWrite
  | nilDeref
  | outOfFuel
  deriving DecidableEq, Repr

deriving instance DecidableEq for Except

/-- Constant `nodeKindMethod` (`iota` = 0). -/
def nodeKindMethod : Nat := 0
/-- Constant `nodeKindStatic`. -/
def nodeKindStatic : Nat := 1
/-- Constant `nodeKindComplete`. -/
def nodeKindComplete : Nat := 2
/-- Constant `nodeKindNonStatic`. -/
def nodeKindNonStatic : Nat := 3

/-- The `node` struct of `mux.go`.  Field `end` is spelled `end_`. -/
structure node where
  res : Str
  end_ : Bool
  kind : Nat
  handler : Option Handler
  static : Option (List (Str × node))
  nonstatic : Option node

/-- Lookup `m[key]` in a Go map. -/
def mapGet {α : Type} : List (Str × α) → Str → Option α
  | [], _ => none
  | (k, v) :: m, key => if k = key then some v else mapGet m key

/-- Assignment `m[key] = v` in a Go map. -/
def mapSet {α : Type} : List (Str × α) → Str → α → List (Str × α)
  | [], key, v => [(key, v)]
  | (k, x) :: m, key, v => if k = key then (key, v) :: m else (k, x) :: mapSet m key v

/-- The `arguments` struct of `context.go`; `keys` is nil (`none`) until the
matcher allocates it. -/
structure arguments where
  keys : Option (List Str)
  vals : List Str
  len : Nat
  deriving DecidableEq, Repr

/-- The `ServeMux` struct, restricted to the registry `methods`.  The model
is of a mux made with `ServeMuxOpts{}`: the default not-found handler, the
background context, and no `Interceptor` (`sm.inter == nil`). -/
structure ServeMux where
  methods : List (Str × node)

/-- The registry returned by `NewServeMux`: no method root. -/
def NewServeMux : ServeMux := { methods := [] }

/-- Go `strings.HasPrefix(p, string(c))` for a one-character prefix. -/
def startsWith (p : Str) (c : Char) : Bool :=
  match p with
  | [] => false
  | x :: _ => x == c

/-- Go `strings.HasSuffix(p, string(c))` for a one-character suffix. -/
def endsWith (p : Str) (c : Char) : Bool :=
  match p.getLast? with
  | none => false
  | some x => x == c

/-- Go `strings.Split(s, string(sep))` for a one-character separator: the
pieces between the occurrences of `sep`; one more piece than occurrences. -/
def stringsSplit (sep : Char) : Str → List Str
  | [] => [[]]
  | c :: cs =>
    if c = sep then [] :: stringsSplit sep cs
    else
      match stringsSplit sep cs with
      | [] => [[c]]
      | t :: ts => (c :: t) :: ts

/-- Go `strings.TrimLeft(s, string(c))`: drop every leading `c`. -/
def trimLeft (c : Char) : Str → Str
  | [] => []
  | x :: xs => if x = c then trimLeft c xs else x :: xs

/-- The method `ServeMux.split`. -/
def split (p : Str) : arguments :=
  if p = [] then { keys := none, vals := [], len := 0 }
  else
    let p1 := if startsWith p '/' then p.drop 1 else p
    let p2 := if endsWith p1 '/' then p1.take (p1.length - 1) else p1
    let vals := stringsSplit '/' p2
    { keys := none, vals := vals, len := vals.length }

/-- The function `isStatic`. -/
def isStatic (p : Str) : Bool := !(startsWith p ':')

/-- The function `newNode`. -/
def newNode (res : Str) (kind : Nat) : node :=
  { res := trimLeft ':' res, end_ := false, kind := kind, handler := none,
    static := some [], nonstatic := none }

/-- The method `node.add`, with a recursion budget `fuel`.  The receiver is
never nil at a call site, so the `n == nil` branch is not modelled.  The Go
function mutates the trie below the receiver and returns the last node it
touched (a value no caller reads); the model returns the receiver as
mutated.  `idx == len(path)-1` is read where `len(path) > 0`, so it is
`idx + 1 = len(path)`. -/
def addAux : Nat → node → List Str → Option Handler → Nat → Except Fault node
  | 0, _, _, _, _ => .error .outOfFuel
  | fuel + 1, n, path, h, idx =>
    if path.length = 0 ∧ idx = 0 then
      match n.static with
      | none => .error .nilMapWrite
      | some m =>
        .ok { n with static := some (mapSet m []
          { res := [], end_ := true, kind := nodeKindStatic, handler := h,
            static := none, nonstatic := none }) }
    else if path.length = 0 ∨ idx ≥ path.length then .ok n
    else
      match path.get? idx with
      | none => .error .indexOutOfRange
      | some res =>
        if isStatic res then
          let m := match n.static with
            | none => []
            | some m => m
          let nn := match mapGet m res with
            | some c => c
            | none => newNode res nodeKindStatic
          let nn := if idx + 1 = path.length then { nn with handler := h, end_ := true } else nn
          match addAux fuel nn path h (idx + 1) with
          | .error e => .error e
          | .ok nn => .ok { n with static := some (mapSet m res nn) }
        else
          let ns := match n.nonstatic with
            | none => newNode res nodeKindNonStatic
            | some c => c
          let ns := if idx + 1 = path.length then { ns with handler := h, end_ := true } else ns
          match addAux fuel ns path h (idx + 1) with
          | .error e => .error e
          | .ok ns => .ok { n with nonstatic := some ns }

/-- The method `node.add`: one call per index `idx .. len(path)`. -/
def add (n : node) (path : List Str) (h : Option Handler) (idx : Nat) : Except Fault node :=
  addAux (path.length + 1) n path h idx

/-- The method `ServeMux.Handle`. -/
def Handle (sm : ServeMux) (p : Str) (h : Option Handler) : Except Fault ServeMux :=
  match (split p).vals with
  | [] => .error .indexOutOfRange
  | m :: path =>
    let methods := match mapGet sm.methods m with
      | some _ => sm.methods
      | none => mapSet sm.methods m (newNode m nodeKindMethod)
    match mapGet methods m with
    | none => .error .nilDeref
    | some root =>
      match add root path h 0 with
      | .error e => .error e
      | .ok root => .ok { methods := mapSet methods m root }

/-- The first block of the loop body of `ServeMux.search`, as far as the
variable `nn` goes: `nn, ok = n.static[res]` when `n.static != nil`.  The Go
pair `(nn, ok)` is the single `Option node`: every assignment of the loop
keeps `ok` true exactly when `nn` is non-nil.  Both variables outlive an
iteration, so a node whose `static` map is nil leaves the values of the
previous iteration in place. -/
def staticChild (n : node) (res : Str) (nn : Option node) : Option node :=
  match n.static with
  | none => nn
  | some m => mapGet m res

/-- The `return` statements of the first block of the loop body: taken when
the literal child under the token is terminal and the token is the last one
(`args.len-1 == idx`, that is `len = idx + 1`). -/
def staticReturn (len idx : Nat) (n : node) (res : Str) : Option (Option Handler × Bool) :=
  match n.static with
  | none => none
  | some m =>
    match mapGet m res with
    | none => none
    | some c =>
      if c.end_ ∧ len = idx + 1 then
        (if c.res = res then some (c.handler, true) else some (none, false))
      else none

/-- The loop of `ServeMux.search` over the tokens still to read.  `len` is
`args.len`, `idx` the index of the first token of the list, `nn` the loop
variable of that name (with `ok`, see `staticChild`).  The result is the
handler, the success flag and `args.keys`. -/
def searchLoop (len : Nat) :
    List Str → Nat → node → Option node → Option (List Str) →
      Except Fault (Option Handler × Bool × Option (List Str))
  | [], _, _, _, keys => .ok (none, false, keys)
  | res :: rest, idx, n, nn, keys =>
    match staticReturn len idx n res with
    | some (h, ok) => .ok (h, ok, keys)
    | none =>
      match n.nonstatic with
      | some p =>
        let ks := match keys with
          | none => List.replicate len []
          | some ks => ks
        if idx < ks.length then
          if p.end_ ∧ len = idx + 1 then .ok (p.handler, true, some (ks.set idx p.res))
          else searchLoop len rest (idx + 1) p (some p) (some (ks.set idx p.res))
        else .error .indexOutOfRange
      | none =>
        match staticChild n res nn with
        | none => .ok (none, false, keys)
        | some x => searchLoop len rest (idx + 1) x (some x) keys

/-- The method `ServeMux.search`: the handler, the success flag, and the
arguments as the loop leaves them. -/
def search (n : node) (args : arguments) : Except Fault (Option Handler × Bool × arguments) :=
  if args.len = 0 then .ok (none, false, args)
  else
    match searchLoop args.len args.vals 0 n none args.keys with
    | .error e => .error e
    | .ok (h, ok, keys) => .ok (h, ok, { args with keys := keys })

/-- What `ServeMux.ServeHTTP` does with a request: the not-found handler is
invoked, or handler `h` is invoked on a request whose context stores `ctx`
(`none` when the context holds no arguments). -/
inductive Response where
  | notFound
  | served (h : Option Handler) (ctx : Option arguments)
  deriving DecidableEq, Repr

/-- The call `h.ServeHTTP(rw, r)` that ends `ServeMux.ServeHTTP` when no
`Interceptor` is set: a call on a nil handler is a nil dereference. -/
def invoke (h : Option Handler) (ctx : Option arguments) : Except Fault Response :=
  match h with
  | none => .error .nilDeref
  | some _ => .ok (.served h ctx)

/-- The method `ServeMux.ServeHTTP` on a request with method `method` and URL
path `path`: the not-found handler when the method has no root or `search`
fails, else the call of the handler found, nil or not. -/
def ServeHTTP (sm : ServeMux) (method path : Str) : Except Fault Response :=
  let args := split path
  match mapGet sm.methods method with
  | some root =>
    match search root args with
    | .error e => .error e
    | .ok (h, ok, args) =>
      if !ok then .ok .notFound
      else if args.len > 0 then invoke h (some args)
      else invoke h none
  | none => .ok .notFound

/-- The loop of `fromContext`: `res[k] = append(res[k], v.vals[i])` for the
keys from index `i` on. -/
def fromContextLoop (vals : List Str) :
    List Str → Nat → List (Str × List Str) → Except Fault (List (Str × List Str))
  | [], _, res => .ok res
  | k :: ks, i, res =>
    match vals.get? i with
    | none => .error .indexOutOfRange
    | some v =>
      let cur := match mapGet res k with
        | none => []
        | some l => l
      fromContextLoop vals ks (i + 1) (mapSet res k (cur ++ [v]))

/-- The function `fromContext` on the value stored in the request context
(`none`: nothing stored).  The result is nil (`none`) or a `url.Values`. -/
def fromContext (ctx : Option arguments) : Except Fault (Option (List (Str × List Str))) :=
  match ctx with
  | none => .ok none
  | some v =>
    let keys := match v.keys with
      | none => []
      | some ks => ks
    match fromContextLoop v.vals keys 0 [] with
    | .error e => .error e
    | .ok res => .ok (some res)

/-- The registry after a sequence of `Handle` calls on `sm`. -/
def handleAll : ServeMux → List (Str × Option Handler) → Except Fault ServeMux
  | sm, [] => .ok sm
  | sm, (p, h) :: ops =>
    match Handle sm p h with
    | .error e => .error e
    | .ok sm => handleAll sm ops

/-- The registry built from `NewServeMux` by a sequence of `Handle` calls. -/
def build (ops : List (Str × Option Handler)) : Except Fault ServeMux :=
  handleAll NewServeMux ops

/-! ## Definitions of the properties

The walks of the trie, the trie a registration leaves as a function of the
pattern segments, the invariant of a built registry, and the conditions under
which a registered pattern answers its own paths. -/

/-- Remove one leading `/` if present. -/
def stripLeading (p : Str) : Str :=
  if p.head? = some '/' then p.tail else p

/-- Remove one trailing `/` if present. -/
def stripTrailing (p : Str) : Str :=
  if p.getLast? = some '/' then p.dropLast else p

/-- The spec's stripping rule: remove one leading `/` if present, then one
trailing `/` if present. -/
def stripSlashes (p : Str) : Str :=
  stripTrailing (stripLeading p)

/-- The node that `add` puts under the key of the root pattern. -/
def rootLeaf (h : Option Handler) : node :=
  { res := [], end_ := true, kind := nodeKindStatic, handler := h,
    static := none, nonstatic := none }

/-- The terminal mark that `add` puts on the node of the last segment. -/
def markEnd (last : Bool) (h : Option Handler) (c : node) : node :=
  if last then { c with handler := h, end_ := true } else c

/-- The literal children of a node; a nil map has none. -/
def staticMap (n : node) : List (Str × node) :=
  match n.static with
  | none => []
  | some m => m

/-- The literal child of `n` under key `k`. -/
def litChild (n : node) (k : Str) : Option node := mapGet (staticMap n) k

/-- The literal child `add` continues in: the one present, or a new node. -/
def litChildOrNew (n : node) (k : Str) : node :=
  match litChild n k with
  | some c => c
  | none => newNode k nodeKindStatic

/-- The parameterized child `add` continues in: the one present, or a new
node. -/
def parChildOrNew (n : node) (seg : Str) : node :=
  match n.nonstatic with
  | none => newNode seg nodeKindNonStatic
  | some c => c

/-- The trie below `n` after `add` has walked the segments still to walk
(`path[idx:]`), by recursion on those segments.  `addAux_eq_insertFrom`
proves that `addAux` computes it. -/
def insertFrom (h : Option Handler) : List Str → node → node
  | [], n => n
  | res :: rest, n =>
    if isStatic res then
      { n with static := some (mapSet (staticMap n) res
          (insertFrom h rest (markEnd rest.isEmpty h (litChildOrNew n res)))) }
    else
      { n with nonstatic := some (insertFrom h rest (markEnd rest.isEmpty h (parChildOrNew n res))) }

/-- The trie of one method after `add(path, h, 0)` on its root: the root
case of `add` for an empty path, `insertFrom` otherwise.  `add_eq_register`
proves that `add` computes it on a root whose map is not nil. -/
def register (h : Option Handler) (path : List Str) (n : node) : node :=
  match path with
  | [] =>
    { n with static := some (mapSet (staticMap n) [] (rootLeaf h)) }
  | _ :: _ => insertFrom h path n

/-- One edge of the trie: the literal child under key `k`, or the
parameterized child. -/
inductive Step where
  | lit (k : Str)
  | par
  deriving DecidableEq, Repr

/-- The edge `add` follows for a pattern segment. -/
def stepOf (seg : Str) : Step :=
  if isStatic seg then .lit seg else .par

/-- The node reached from `n` along a sequence of edges. -/
def descend : node → List Step → Option node
  | n, [] => some n
  | n, .lit k :: π =>
    match litChild n k with
    | none => none
    | some c => descend c π
  | n, .par :: π =>
    match n.nonstatic with
    | none => none
    | some c => descend c π

/-- Segments walked by `add`, then the terminal mark. -/
def insertMark (h : Option Handler) (segs : List Str) (c : node) : node :=
  insertFrom h segs (markEnd segs.isEmpty h c)

/-- What a walk of the trie finds after `insertMark`, in terms of the trie
before: a node that was there (same name; same terminal mark and handler
unless the walk is the inserted one), or a node the insertion created. -/
def InsertedView (h : Option Handler) (segs : List Str) (c : node) (π : List Step)
    (d' : node) : Prop :=
  (π = segs.map stepOf → d'.end_ = true ∧ d'.handler = h) ∧
  ((∃ d, descend c π = some d ∧ d'.res = d.res ∧
        (π ≠ segs.map stepOf → d'.end_ = d.end_ ∧ d'.handler = d.handler)) ∨
   (descend c π = none ∧ π ≠ [] ∧ π <+: segs.map stepOf ∧
      (∃ seg, segs.get? (π.length - 1) = some seg ∧ d'.res = trimLeft ':' seg) ∧
      (π ≠ segs.map stepOf → d'.end_ = false)))

/-- The edges under which `Handle` stores a pattern with path segments
`segs`: one per segment, and the literal edge of the empty key for the root
pattern. -/
def stepsOf (segs : List Str) : List Step :=
  match segs with
  | [] => [.lit []]
  | _ :: _ => segs.map stepOf

/-- What a walk from a method root finds after `register`, in terms of the
trie before. -/
def RegisteredView (h : Option Handler) (segs : List Str) (n : node) (π : List Step)
    (d' : node) : Prop :=
  (π = stepsOf segs → d'.end_ = true ∧ d'.handler = h) ∧
  ((∃ d, descend n π = some d ∧ d'.res = d.res ∧
        (π ≠ stepsOf segs → d'.end_ = d.end_ ∧ d'.handler = d.handler)) ∨
   (π ≠ [] ∧ π <+: stepsOf segs ∧
      ((segs = [] ∧ d'.res = []) ∨
        (∃ seg, segs.get? (π.length - 1) = some seg ∧ d'.res = trimLeft ':' seg)) ∧
      (π ≠ stepsOf segs → d'.end_ = false)))

/-- The root `Handle` calls `add` on: the method's root, or a new one. -/
def methodRoot (sm : ServeMux) (m : Str) : node :=
  match mapGet sm.methods m with
  | some r => r
  | none => newNode m nodeKindMethod

/-- Every node of the trie under `root` is accounted for by a registration
of method `M` in `ops`: a terminal node by a pattern that ends there, with
its handler; any node by a pattern that passes through it and names it. -/
structure TrieInv (M : Str) (ops : List (Str × Option Handler)) (root : node) : Prop where
  static_ne : root.static ≠ none
  ends : ∀ π d, descend root π = some d → d.end_ = true →
    ∃ q ∈ ops, ∃ segs, (split q.1).vals = M :: segs ∧ stepsOf segs = π ∧ d.handler = q.2
  nodes : ∀ π d, descend root π = some d → π ≠ [] →
    ∃ q ∈ ops, ∃ segs, (split q.1).vals = M :: segs ∧ π <+: stepsOf segs ∧
      ((segs = [] ∧ d.res = []) ∨
        (∃ seg, segs.get? (π.length - 1) = some seg ∧ d.res = trimLeft ':' seg))

/-- The invariant of a registry built by the registrations `ops`. -/
def RegistryInv (ops : List (Str × Option Handler)) (sm : ServeMux) : Prop :=
  ∀ M root, mapGet sm.methods M = some root →
    TrieInv M ops root ∧ ∃ q ∈ ops, (split q.1).vals.head? = some M

/-- A walk of the trie fits a token list: as many edges as tokens, each
literal edge carrying the token at its position. -/
def Fits : List Step → List Str → Prop
  | [], [] => True
  | s :: π, t :: ts => (s = .par ∨ s = .lit t) ∧ Fits π ts
  | _, _ => False

/-- The keys slice after the matcher has walked the segments `segs` from
index `idx`: a parameter segment writes its name at its index (allocating the
slice at the first one), a literal segment writes nothing. -/
def bindKeys (len : Nat) : Nat → List Str → Option (List Str) → Option (List Str)
  | _, [], keys => keys
  | idx, s :: ss, keys =>
    if isStatic s then bindKeys len (idx + 1) ss keys
    else
      bindKeys len (idx + 1) ss (some ((match keys with
        | none => List.replicate len []
        | some ks => ks).set idx (trimLeft ':' s)))

/-- The keys slice after the matcher has walked the trie under `x` along the
segments `segs` from index `idx`: at a parameter segment it writes the name
the parameterized child bears. -/
def routeKeys (len : Nat) : Nat → node → List Str → Option (List Str) → Option (List Str)
  | _, _, [], keys => keys
  | idx, x, s :: ss, keys =>
    if isStatic s then
      match litChild x s with
      | none => keys
      | some c => routeKeys len (idx + 1) c ss keys
    else
      match x.nonstatic with
      | none => keys
      | some p =>
        routeKeys len (idx + 1) p ss (some ((match keys with
          | none => List.replicate len []
          | some ks => ks).set idx p.res))

/-- The trie under `x` routes the tokens `toks` along the segments `segs` to
the node `d`: every literal segment has its child, which bears its key, and,
before the last position, no parameterized sibling; every parameter segment
has the parameterized child; at a final parameter the token is not the key of
a terminal literal child. -/
def Routed : node → List Str → List Str → node → Prop
  | _, [], _, _ => False
  | _, _ :: _, [], _ => False
  | x, s :: ss, t :: ts, d =>
    match ss with
    | [] =>
      ts = [] ∧
      (if isStatic s then t = s ∧ litChild x s = some d ∧ d.res = s
       else x.nonstatic = some d ∧ ∀ c, litChild x t = some c → c.end_ = false)
    | _ :: _ =>
      if isStatic s then
        t = s ∧ x.nonstatic = none ∧ ∃ c, litChild x s = some c ∧ Routed c ss ts d
      else ∃ p, x.nonstatic = some p ∧ Routed p ss ts d

/-- The method token of a pattern: `args.vals[0]` in `Handle`. -/
def patMethod (p : Str) : Option Str := (split p).vals.head?

/-- The path segments of a pattern: `args.vals[1:]` in `Handle`. -/
def patSegments (p : Str) : List Str := (split p).vals.tail

/-- Registering the segments `segsQ` after a pattern stored along `σ` undoes
that pattern: it lands on the same node, or it is the root pattern and `σ`
starts at the empty key, whose child `add` replaces. -/
def overwrites (segsQ : List Str) (σ : List Step) : Bool :=
  match segsQ with
  | [] => σ.head? == some (.lit [])
  | _ :: _ => stepsOf segsQ == σ

/-- A pattern stored along `τ` shadows one stored along `σ`: after the same
edges, `τ` has a parameter where `σ` has a literal that is not its last
edge. -/
def shadows : List Step → List Step → Bool
  | t :: τ, s :: σ =>
    match σ with
    | [] => false
    | _ :: _ => if t = s then shadows τ σ else t == .par
  | _, _ => false

/-- The walk the tokens `toks` take when the last one is read as a literal,
for a pattern stored along `σ` that ends in a parameter. -/
def literalReading (σ : List Step) (toks : List Str) : Option (List Step) :=
  match σ.getLast?, toks.getLast? with
  | some .par, some v => some (σ.dropLast ++ [.lit v])
  | _, _ => none

/-- Two patterns give the same name to every parameter they share: one at
the same position, after the same edges. -/
def namesAgree : List Str → List Str → Bool
  | a :: as, b :: bs =>
    if stepOf a = stepOf b then
      (isStatic a || trimLeft ':' a == trimLeft ':' b) && namesAgree as bs
    else true
  | _, _ => true

/-- No node on the way has a parameterized child beside a literal edge of `σ`
that is not the last one. -/
def NoParBeside (x : node) (σ : List Step) : Prop :=
  ∀ ρ k x', (ρ ++ [.lit k]) <+: σ → ρ ++ [.lit k] ≠ σ → descend x ρ = some x' →
    x'.nonstatic = none

/-- When `σ` ends in a parameter, the last token is not the key of a
terminal literal child beside it. -/
def NoLitBeside (x : node) (σ : List Step) (toks : List Str) : Prop :=
  σ.getLast? = some .par → ∀ v c, toks.getLast? = some v →
    descend x (σ.dropLast ++ [.lit v]) = some c → c.end_ = false

/-- Every literal child below `x` bears its key. -/
def KeysBorne (x : node) : Prop :=
  ∀ ρ k c, descend x (ρ ++ [.lit k]) = some c → c.res = k

/-- The segments whose edges store a pattern: its own, or the one empty
segment for the root pattern. -/
def keySegs (segs : List Str) : List Str :=
  match segs with
  | [] => [[]]
  | _ :: _ => segs

/-- In registry `sm`, the walk `σ` from the root of method `M` ends on a
terminal node that holds handler `h`. -/
def Live (sm : ServeMux) (M : Str) (σ : List Step) (h : Option Handler) : Prop :=
  ∃ root d, mapGet sm.methods M = some root ∧ descend root σ = some d ∧
    d.end_ = true ∧ d.handler = h

/-- The tokens of `toks` found at the positions of the parameter `name` in
the pattern segments `segs`, in left-to-right order. -/
def paramValues (name : Str) : List Str → List Str → List Str
  | s :: ss, t :: ts =>
    if isStatic s = false ∧ trimLeft ':' s = name then t :: paramValues name ss ts
    else paramValues name ss ts
  | _, _ => []

/-- The name the matcher records for a segment: the parameter's name, and
the empty string for a literal. -/
def keyName (s : Str) : Str := if isStatic s then [] else trimLeft ':' s

/-- The values `fromContext` appends under key `k`: `vals[i]` for the
positions `i` of `k` in `keys`. -/
def pick (k : Str) : List Str → List Str → List Str
  | key :: ks, v :: vs => if key = k then v :: pick k ks vs else pick k ks vs
  | _, _ => []

/-- The lookup `values[k]` in a `url.Values`: nil (no value) for an absent
key. -/
def valuesOf (vals : List (Str × List Str)) (k : Str) : List Str :=
  match mapGet vals k with
  | none => []
  | some l => l

/-- Below `x`, every parameterized child on the way of `segs` bears the
name of its segment. -/
def NamesBorne (x : node) (segs : List Str) : Prop :=
  ∀ ρ c seg, (ρ ++ [.par]) <+: segs.map stepOf → descend x (ρ ++ [.par]) = some c →
    segs.get? ρ.length = some seg → c.res = trimLeft ':' seg

instance Fits.instDecidable : (π : List Step) → (toks : List Str) → Decidable (Fits π toks)
  | [], [] => isTrue trivial
  | [], _ :: _ => isFalse (fun h => h)
  | _ :: _, [] => isFalse (fun h => h)
  | s :: π, t :: ts =>
    match Fits.instDecidable π ts with
    | isTrue hr =>
      if hs : s = .par ∨ s = .lit t then isTrue ⟨hs, hr⟩ else isFalse (fun h => hs h.1)
    | isFalse hr => isFalse (fun h => hr h.2)

/-- Below `n`, a node that is not terminal holds no handler. -/
def HandlerAtEnd (n : node) : Prop :=
  ∀ π d, descend n π = some d → d.end_ = false → d.handler = none

/-- What the matcher reads of the node at the end of a walk: its terminal
flag and its handler. -/
def label (n : node) (π : List Step) : Option (Bool × Option Handler) :=
  match descend n π with
  | none => none
  | some d => some (d.end_, d.handler)

/-- The label of a node that is there, or of a new node. -/
def labelOrNew (l : Option (Bool × Option Handler)) : Bool × Option Handler :=
  match l with
  | none => (false, none)
  | some x => x

/-- The labels of a method's trie after a registration with segments `segs`
and handler `h`, in terms of the labels `ℓ` before. -/
def labelAfter (h : Option Handler) (segs : List Str)
    (ℓ : List Step → Option (Bool × Option Handler)) (π : List Step) :
    Option (Bool × Option Handler) :=
  match segs with
  | [] =>
    if π = [.lit []] then some (true, h)
    else if π.head? = some (.lit []) then none
    else ℓ π
  | _ :: _ =>
    if π = stepsOf segs then some (true, h)
    else if π <+: stepsOf segs then some (labelOrNew (ℓ π))
    else ℓ π

/-- Two labels agree: both walks are absent, or both nodes carry the same
terminal mark and, when terminal, handlers related by `R`. -/
def LabRel (R : Option Handler → Option Handler → Prop) :
    Option (Bool × Option Handler) → Option (Bool × Option Handler) → Prop
  | none, none => True
  | some a, some b => a.1 = b.1 ∧ (a.1 = true → R a.2 b.2)
  | _, _ => False

/-- Two tries have the same shape and terminal marks, with handlers related
by `R` on the terminal nodes. -/
def Twin (R : Option Handler → Option Handler → Prop) (n1 n2 : node) : Prop :=
  ∀ π, LabRel R (label n1 π) (label n2 π)

/-- A node without children. -/
def Childless (n : node) : Prop :=
  (∀ k, litChild n k = none) ∧ n.nonstatic = none

/-- Two results of the matcher agree: the same fault, or the same success
flag with handlers related by `R` on success and nil on failure. -/
def ResRel (R : Option Handler → Option Handler → Prop) :
    Except Fault (Option Handler × Bool × Option (List Str)) →
      Except Fault (Option Handler × Bool × Option (List Str)) → Prop
  | .error e1, .error e2 => e1 = e2
  | .ok r1, .ok r2 =>
    r1.2.1 = r2.2.1 ∧ (r1.2.1 = true → R r1.1 r2.1) ∧ (r1.2.1 = false → r1.1 = none ∧ r2.1 = none)
  | _, _ => False

/-- What a dispatch answers, the stored context left aside: a fault, not
found (`none`), or the handler invoked. -/
def outcome (r : Except Fault Response) : Except Fault (Option (Option Handler)) :=
  match r with
  | .error e => .error e
  | .ok .notFound => .ok none
  | .ok (.served h _) => .ok (some h)

/-! ## Lemmas and theorems -/

theorem mapGet_mapSet_same {α : Type} (m : List (Str × α)) (k : Str) (v : α) :
    mapGet (mapSet m k v) k = some v := by
  induction m with
  | nil => simp [mapSet, mapGet]
  | cons e m ih =>
    obtain ⟨k', x⟩ := e
    by_cases hk : k' = k
    · simp [mapSet, mapGet, hk]
    · simp [mapSet, mapGet, hk, ih]

theorem mapGet_mapSet_other {α : Type} (m : List (Str × α)) (k k' : Str) (v : α) (hne : k ≠ k') :
    mapGet (mapSet m k v) k' = mapGet m k' := by
  induction m with
  | nil => simp [mapSet, mapGet, hne]
  | cons e m ih =>
    obtain ⟨k0, x⟩ := e
    by_cases hk : k0 = k
    · subst hk
      simp [mapSet, mapGet, hne]
    · by_cases hk' : k0 = k'
      · subst hk'
        simp [mapSet, mapGet, hk]
      · simp [mapSet, mapGet, hk, hk', ih]

theorem stringsSplit_ne_nil (sep : Char) (s : Str) : stringsSplit sep s ≠ [] := by
  induction s with
  | nil => simp [stringsSplit]
  | cons c cs ih =>
    unfold stringsSplit
    split
    · simp
    · split <;> simp

theorem stringsSplit_no_sep (sep : Char) (s : Str) : ∀ t ∈ stringsSplit sep s, sep ∉ t := by
  induction s with
  | nil => simp [stringsSplit]
  | cons c cs ih =>
    unfold stringsSplit
    split
    · intro t ht
      simp only [List.mem_cons] at ht
      rcases ht with rfl | ht
      · simp
      · exact ih t ht
    · rename_i hc
      split
      · intro t ht
        simp only [List.mem_singleton] at ht
        subst ht
        simp [Ne.symm hc]
      · rename_i t0 ts heq
        intro t ht
        simp only [List.mem_cons] at ht
        rcases ht with rfl | ht
        · have := ih t0 (by rw [heq]; simp)
          simp [Ne.symm hc, this]
        · exact ih t (by rw [heq]; simp [ht])

theorem stringsSplit_join (sep : Char) (s : Str) :
    List.intercalate [sep] (stringsSplit sep s) = s := by
  induction s with
  | nil => simp [stringsSplit, List.intercalate]
  | cons c cs ih =>
    unfold stringsSplit
    split
    · rename_i hc
      subst hc
      have hne := stringsSplit_ne_nil c cs
      cases hsp : stringsSplit c cs with
      | nil => exact absurd hsp hne
      | cons t ts =>
        rw [hsp] at ih
        simp only [List.intercalate, List.intersperse, List.flatten] at ih ⊢
        simp [ih]
    · split
      · rename_i heq
        exact absurd heq (stringsSplit_ne_nil sep cs)
      · rename_i t0 ts heq
        rw [heq] at ih
        cases ts with
        | nil =>
          simp only [List.intercalate, List.intersperse, List.flatten] at ih ⊢
          simpa using ih
        | cons t1 ts =>
          simp only [List.intercalate, List.intersperse, List.flatten] at ih ⊢
          simpa using ih

theorem startsWith_eq (p : Str) (c : Char) : startsWith p c = decide (p.head? = some c) := by
  cases p with
  | nil => simp [startsWith]
  | cons x r =>
    simp only [startsWith, List.head?, Option.some.injEq]
    rfl

theorem endsWith_eq (p : Str) (c : Char) : endsWith p c = decide (p.getLast? = some c) := by
  unfold endsWith
  cases h : p.getLast? with
  | none => simp
  | some x =>
    simp only [Option.some.injEq]
    rfl

theorem split_of_ne_nil (p : Str) (hp : p ≠ []) :
    split p = { keys := none, vals := stringsSplit '/' (stripSlashes p),
                len := (stringsSplit '/' (stripSlashes p)).length } := by
  have h : (let p1 := if startsWith p '/' then p.drop 1 else p
            if endsWith p1 '/' then p1.take (p1.length - 1) else p1) = stripSlashes p := by
    simp only [stripSlashes, stripLeading, stripTrailing, startsWith_eq, endsWith_eq, decide_eq_true_eq, List.drop_one,
      List.dropLast_eq_take]
  unfold split
  simp only [hp, if_false]
  simp only [] at h
  rw [h]

theorem stripSlashes_append_slash (p : Str) (hp : p ≠ []) (hl : p.getLast? ≠ some '/') :
    stripSlashes (p ++ ['/']) = stripSlashes p := by
  have hlead : stripLeading (p ++ ['/']) = stripLeading p ++ ['/'] := by
    cases p with
    | nil => exact absurd rfl hp
    | cons x r =>
      by_cases hx : x = '/'
      · subst hx
        simp [stripLeading]
      · simp [stripLeading, hx]
  have hne : stripLeading p ≠ [] := by
    cases p with
    | nil => exact absurd rfl hp
    | cons x r =>
      by_cases hx : x = '/'
      · subst hx
        cases r with
        | nil => simp at hl
        | cons y r' => simp [stripLeading]
      · simp [stripLeading, hx]
  have hlast : (stripLeading p).getLast? ≠ some '/' := by
    cases p with
    | nil => exact absurd rfl hp
    | cons x r =>
      by_cases hx : x = '/'
      · subst hx
        cases r with
        | nil => simp at hl
        | cons y r' =>
          simpa [stripLeading, List.getLast?_cons_cons] using hl
      · simpa [stripLeading, hx] using hl
  unfold stripSlashes
  rw [hlead]
  unfold stripTrailing
  rw [List.getLast?_concat, if_pos rfl, List.dropLast_concat, if_neg hlast]

theorem addAux_eq_insertFrom (h : Option Handler) (path : List Str) (hp : path ≠ []) :
    ∀ (fuel idx : Nat) (n : node), idx ≤ path.length → path.length - idx < fuel →
      addAux fuel n path h idx = .ok (insertFrom h (path.drop idx) n) := by
  intro fuel
  induction fuel with
  | zero => intro idx n _ hf; omega
  | succ fuel ih =>
    intro idx n hle hf
    have hlen : path.length ≠ 0 := by
      intro h0
      exact hp (List.length_eq_zero.1 h0)
    unfold addAux
    rw [if_neg (by omega)]
    by_cases hge : idx ≥ path.length
    · rw [if_pos (Or.inr hge), List.drop_of_length_le hge]
      rfl
    · rw [if_neg (by omega)]
      have hlt : idx < path.length := by omega
      have hget : path.get? idx = some (path.get ⟨idx, hlt⟩) := List.get?_eq_get hlt
      have hdrop : path.drop idx = path.get ⟨idx, hlt⟩ :: path.drop (idx + 1) := by
        rw [List.drop_eq_getElem_cons hlt]
        rfl
      have hlast : (idx + 1 = path.length) ↔ (path.drop (idx + 1)).isEmpty = true := by
        rw [List.isEmpty_iff, List.drop_eq_nil_iff]
        omega
      rw [hget, hdrop]
      simp only [insertFrom, litChildOrNew, parChildOrNew, litChild, staticMap]
      by_cases hs : isStatic (path.get ⟨idx, hlt⟩) = true
      · simp only [hs, if_true]
        have hmark : ∀ c : node,
            (if idx + 1 = path.length then { c with handler := h, end_ := true } else c) =
              markEnd (path.drop (idx + 1)).isEmpty h c := by
          intro c
          unfold markEnd
          by_cases he : idx + 1 = path.length
          · rw [if_pos he, if_pos (hlast.1 he)]
          · rw [if_neg he, if_neg (fun hh => he (hlast.2 hh))]
        rw [hmark, ih (idx + 1) _ (by omega) (by omega)]
      · have hs' : isStatic (path.get ⟨idx, hlt⟩) = false := by simpa using hs
        simp only [hs', Bool.false_eq_true, if_false]
        have hmark : ∀ c : node,
            (if idx + 1 = path.length then { c with handler := h, end_ := true } else c) =
              markEnd (path.drop (idx + 1)).isEmpty h c := by
          intro c
          unfold markEnd
          by_cases he : idx + 1 = path.length
          · rw [if_pos he, if_pos (hlast.1 he)]
          · rw [if_neg he, if_neg (fun hh => he (hlast.2 hh))]
        rw [hmark, ih (idx + 1) _ (by omega) (by omega)]

theorem add_eq_register (h : Option Handler) (path : List Str) (n : node)
    (hn : n.static ≠ none) : add n path h 0 = .ok (register h path n) := by
  cases path with
  | nil =>
    unfold add addAux
    simp only [List.length_nil, and_self, if_true]
    cases hst : n.static with
    | none => exact absurd hst hn
    | some m => simp [register, rootLeaf, staticMap, hst]
  | cons s rest =>
    unfold add
    rw [addAux_eq_insertFrom h (s :: rest) (by simp) _ 0 n (by simp) (by simp)]
    rfl

theorem descend_congr (n n' : node) (hs : n.static = n'.static) (hn : n.nonstatic = n'.nonstatic)
    (π : List Step) (hπ : π ≠ []) : descend n π = descend n' π := by
  cases π with
  | nil => exact absurd rfl hπ
  | cons s π =>
    cases s with
    | lit k => simp only [descend, litChild, staticMap, hs]
    | par => simp only [descend, hn]

theorem descend_newNode (res : Str) (kind : Nat) (π : List Step) (hπ : π ≠ []) :
    descend (newNode res kind) π = none := by
  cases π with
  | nil => exact absurd rfl hπ
  | cons s π =>
    cases s with
    | lit k => simp [descend, litChild, staticMap, newNode, mapGet]
    | par => simp [descend, newNode]

theorem trimLeft_of_isStatic (s : Str) (hs : isStatic s = true) : trimLeft ':' s = s := by
  cases s with
  | nil => rfl
  | cons x r =>
    have hx : x ≠ ':' := by
      intro hx
      subst hx
      simp [isStatic, startsWith] at hs
    simp [trimLeft, hx]

theorem insertMark_nil (h : Option Handler) (c : node) :
    insertMark h [] c = { c with handler := h, end_ := true } := by
  simp [insertMark, insertFrom, markEnd]

theorem insertMark_cons_static (h : Option Handler) (s : Str) (rest : List Str) (c : node)
    (hs : isStatic s = true) :
    insertMark h (s :: rest) c =
      { c with static := some (mapSet (staticMap c) s
          (insertMark h rest (litChildOrNew c s))) } := by
  simp [insertMark, insertFrom, markEnd, hs]

theorem insertMark_cons_param (h : Option Handler) (s : Str) (rest : List Str) (c : node)
    (hs : isStatic s = false) :
    insertMark h (s :: rest) c =
      { c with nonstatic := some (insertMark h rest (parChildOrNew c s)) } := by
  simp [insertMark, insertFrom, markEnd, hs]

theorem insertMark_res (h : Option Handler) (segs : List Str) (c : node) :
    (insertMark h segs c).res = c.res ∧ (insertMark h segs c).kind = c.kind := by
  cases segs with
  | nil => simp [insertMark_nil]
  | cons s rest =>
    by_cases hs : isStatic s = true
    · rw [insertMark_cons_static h s rest c hs]
      exact ⟨rfl, rfl⟩
    · rw [insertMark_cons_param h s rest c (by simpa using hs)]
      exact ⟨rfl, rfl⟩

theorem insertMark_end (h : Option Handler) (segs : List Str) (c : node) :
    (segs = [] → (insertMark h segs c).end_ = true ∧ (insertMark h segs c).handler = h) ∧
    (segs ≠ [] → (insertMark h segs c).end_ = c.end_ ∧ (insertMark h segs c).handler = c.handler) := by
  cases segs with
  | nil => simp [insertMark_nil]
  | cons s rest =>
    by_cases hs : isStatic s = true
    · rw [insertMark_cons_static h s rest c hs]
      simp
    · rw [insertMark_cons_param h s rest c (by simpa using hs)]
      simp

theorem descend_insertMark_lit_same (h : Option Handler) (s : Str) (rest : List Str) (c : node)
    (hs : isStatic s = true) (π : List Step) :
    descend (insertMark h (s :: rest) c) (.lit s :: π) =
      descend (insertMark h rest (litChildOrNew c s)) π := by
  rw [insertMark_cons_static h s rest c hs]
  simp [descend, litChild, staticMap, mapGet_mapSet_same]

theorem descend_insertMark_lit_other (h : Option Handler) (s : Str) (rest : List Str) (c : node)
    (k : Str) (hk : s ≠ k) (π : List Step) :
    descend (insertMark h (s :: rest) c) (.lit k :: π) = descend c (.lit k :: π) := by
  by_cases hs : isStatic s = true
  · rw [insertMark_cons_static h s rest c hs]
    simp [descend, litChild, staticMap, mapGet_mapSet_other _ _ _ _ hk]
  · rw [insertMark_cons_param h s rest c (by simpa using hs)]
    simp [descend, litChild, staticMap]

theorem descend_insertMark_lit_param (h : Option Handler) (s : Str) (rest : List Str) (c : node)
    (hs : isStatic s = false) (k : Str) (π : List Step) :
    descend (insertMark h (s :: rest) c) (.lit k :: π) = descend c (.lit k :: π) := by
  rw [insertMark_cons_param h s rest c hs]
  simp [descend, litChild, staticMap]

theorem descend_insertMark_par_static (h : Option Handler) (s : Str) (rest : List Str) (c : node)
    (hs : isStatic s = true) (π : List Step) :
    descend (insertMark h (s :: rest) c) (.par :: π) = descend c (.par :: π) := by
  rw [insertMark_cons_static h s rest c hs]
  simp [descend]

theorem descend_insertMark_par_same (h : Option Handler) (s : Str) (rest : List Str) (c : node)
    (hs : isStatic s = false) (π : List Step) :
    descend (insertMark h (s :: rest) c) (.par :: π) =
      descend (insertMark h rest (parChildOrNew c s)) π := by
  rw [insertMark_cons_param h s rest c hs]
  simp [descend]

theorem descend_lit_some (c x : node) (k : Str) (hx : litChild c k = some x) (π : List Step) :
    descend c (.lit k :: π) = descend x π := by
  simp [descend, hx]

theorem descend_lit_none (c : node) (k : Str) (hx : litChild c k = none) (π : List Step) :
    descend c (.lit k :: π) = none := by
  simp [descend, hx]

theorem descend_par_some (c x : node) (hx : c.nonstatic = some x) (π : List Step) :
    descend c (.par :: π) = descend x π := by
  simp [descend, hx]

theorem descend_par_none (c : node) (hx : c.nonstatic = none) (π : List Step) :
    descend c (.par :: π) = none := by
  simp [descend, hx]

theorem insertedView_unchanged (h : Option Handler) (segs : List Str) (c : node) (π : List Step)
    (d' : node) (hd : descend c π = some d') (hne : π ≠ segs.map stepOf) :
    InsertedView h segs c π d' :=
  ⟨fun hh => absurd hh hne, Or.inl ⟨d', hd, rfl, fun _ => ⟨rfl, rfl⟩⟩⟩

/-- Lifting the view of the child's subtree to the parent, along edge `t`. -/
theorem insertedView_lift (h : Option Handler) (s : Str) (rest : List Str) (c c0 : node)
    (t : Step) (ht : stepOf s = t) (π : List Step) (d' : node)
    (hsome : ∀ τ, τ ≠ [] → descend c0 τ = none → descend c (t :: τ) = none)
    (hold : ∀ τ d, descend c0 τ = some d →
      (descend c (t :: τ) = some d) ∨
        (descend c (t :: τ) = none ∧ τ = [] ∧ d.res = trimLeft ':' s ∧ d.end_ = false))
    (hv : InsertedView h rest c0 π d') :
    InsertedView h (s :: rest) c (t :: π) d' := by
  obtain ⟨hA, hB⟩ := hv
  have hmap : (s :: rest).map stepOf = t :: rest.map stepOf := by simp [ht]
  have hiff : (t :: π = (s :: rest).map stepOf) ↔ π = rest.map stepOf := by
    rw [hmap]
    simp
  refine ⟨fun hh => hA (hiff.1 hh), ?_⟩
  rcases hB with ⟨d, hd, hres, hrest⟩ | ⟨hnone, hne, hpre, ⟨seg, hseg, hsres⟩, hend⟩
  · rcases hold π d hd with hd' | ⟨hd', hnil, hdres, hdend⟩
    · exact Or.inl ⟨d, hd', hres, fun hh => hrest (fun h2 => hh (hiff.2 h2))⟩
    · subst hnil
      refine Or.inr ⟨hd', by simp, ?_, ⟨s, by simp, by rw [hres, hdres]⟩, fun hh => ?_⟩
      · rw [hmap]
        exact List.prefix_iff_eq_append.2 (by simp)
      · rw [(hrest (fun h2 => hh (hiff.2 h2))).1, hdend]
  · refine Or.inr ⟨hsome π hne hnone, by simp, ?_, ⟨seg, ?_, hsres⟩,
      fun hh => hend (fun h2 => hh (hiff.2 h2))⟩
    · rw [hmap]
      exact (List.cons_prefix_cons).2 ⟨rfl, hpre⟩
    · have hlen : 0 < π.length := List.length_pos.2 hne
      have : (t :: π).length - 1 = (π.length - 1) + 1 := by
        simp only [List.length_cons]
        omega
      rw [this]
      simpa using hseg

theorem descend_insertMark (h : Option Handler) :
    ∀ (segs : List Str) (c : node) (π : List Step) (d' : node),
      descend (insertMark h segs c) π = some d' → InsertedView h segs c π d' := by
  intro segs
  induction segs with
  | nil =>
    intro c π d' hd
    rw [insertMark_nil] at hd
    cases π with
    | nil =>
      simp only [descend, Option.some.injEq] at hd
      subst hd
      exact ⟨fun _ => ⟨rfl, rfl⟩, Or.inl ⟨c, rfl, rfl, fun hne => absurd rfl hne⟩⟩
    | cons s π =>
      rw [descend_congr { c with handler := h, end_ := true } c rfl rfl (s :: π) (by simp)] at hd
      exact insertedView_unchanged h [] c _ d' hd (by simp)
  | cons s rest ih =>
    intro c π d' hd
    cases π with
    | nil =>
      simp only [descend, Option.some.injEq] at hd
      subst hd
      refine ⟨fun hh => by simp at hh, Or.inl ⟨c, rfl, (insertMark_res h _ c).1, fun _ => ?_⟩⟩
      exact (insertMark_end h (s :: rest) c).2 (by simp)
    | cons t π =>
      by_cases hs : isStatic s = true
      · have hstep : stepOf s = .lit s := by simp [stepOf, hs]
        cases t with
        | par =>
          rw [descend_insertMark_par_static h s rest c hs] at hd
          exact insertedView_unchanged h _ c _ d' hd (by simp [hstep])
        | lit k =>
          by_cases hk : s = k
          · subst hk
            rw [descend_insertMark_lit_same h s rest c hs] at hd
            refine insertedView_lift h s rest c (litChildOrNew c s) (.lit s) hstep π d' ?_ ?_
              (ih _ π d' hd)
            · intro τ hτ hnone
              cases hx : litChild c s with
              | none => exact descend_lit_none c s hx τ
              | some x =>
                rw [descend_lit_some c x s hx τ]
                simpa [litChildOrNew, hx] using hnone
            · intro τ d hd0
              cases hx : litChild c s with
              | none =>
                right
                simp only [litChildOrNew, hx] at hd0
                have hnil : τ = [] := by
                  by_contra hne
                  rw [descend_newNode _ _ τ hne] at hd0
                  exact Option.noConfusion hd0
                subst hnil
                simp only [descend, Option.some.injEq] at hd0
                subst hd0
                exact ⟨descend_lit_none c s hx [], rfl, rfl, rfl⟩
              | some x =>
                left
                rw [descend_lit_some c x s hx τ]
                simpa [litChildOrNew, hx] using hd0
          · rw [descend_insertMark_lit_other h s rest c k hk] at hd
            refine insertedView_unchanged h _ c _ d' hd ?_
            intro hh
            simp only [List.map_cons, hstep, List.cons.injEq, Step.lit.injEq] at hh
            exact hk hh.1.symm
      · have hs' : isStatic s = false := by simpa using hs
        have hstep : stepOf s = .par := by simp [stepOf, hs']
        cases t with
        | lit k =>
          rw [descend_insertMark_lit_param h s rest c hs'] at hd
          exact insertedView_unchanged h _ c _ d' hd (by simp [hstep])
        | par =>
          rw [descend_insertMark_par_same h s rest c hs'] at hd
          refine insertedView_lift h s rest c (parChildOrNew c s) .par hstep π d' ?_ ?_
            (ih _ π d' hd)
          · intro τ hτ hnone
            cases hx : c.nonstatic with
            | none => exact descend_par_none c hx τ
            | some x =>
              rw [descend_par_some c x hx τ]
              simpa [parChildOrNew, hx] using hnone
          · intro τ d hd0
            cases hx : c.nonstatic with
            | none =>
              right
              simp only [parChildOrNew, hx] at hd0
              have hnil : τ = [] := by
                by_contra hne
                rw [descend_newNode _ _ τ hne] at hd0
                exact Option.noConfusion hd0
              subst hnil
              simp only [descend, Option.some.injEq] at hd0
              subst hd0
              exact ⟨descend_par_none c hx [], rfl, rfl, rfl⟩
            | some x =>
              left
              rw [descend_par_some c x hx τ]
              simpa [parChildOrNew, hx] using hd0

theorem litChildOrNew_of_some (c x : node) (k : Str) (hx : litChild c k = some x) :
    litChildOrNew c k = x := by
  simp [litChildOrNew, hx]

theorem parChildOrNew_of_some (c x : node) (s : Str) (hx : c.nonstatic = some x) :
    parChildOrNew c s = x := by
  simp [parChildOrNew, hx]

theorem descend_insertMark_target (h : Option Handler) :
    ∀ (segs : List Str) (c : node), ∃ d', descend (insertMark h segs c) (segs.map stepOf) = some d' := by
  intro segs
  induction segs with
  | nil => intro c; exact ⟨_, rfl⟩
  | cons s rest ih =>
    intro c
    by_cases hs : isStatic s = true
    · have hstep : stepOf s = .lit s := by simp [stepOf, hs]
      obtain ⟨d', hd'⟩ := ih (litChildOrNew c s)
      refine ⟨d', ?_⟩
      rw [List.map_cons, hstep, descend_insertMark_lit_same h s rest c hs]
      exact hd'
    · have hs' : isStatic s = false := by simpa using hs
      have hstep : stepOf s = .par := by simp [stepOf, hs']
      obtain ⟨d', hd'⟩ := ih (parChildOrNew c s)
      refine ⟨d', ?_⟩
      rw [List.map_cons, hstep, descend_insertMark_par_same h s rest c hs']
      exact hd'

theorem descend_insertMark_keeps (h : Option Handler) :
    ∀ (segs : List Str) (c : node) (π : List Step) (d : node),
      descend c π = some d → ∃ d', descend (insertMark h segs c) π = some d' := by
  intro segs
  induction segs with
  | nil =>
    intro c π d hd
    rw [insertMark_nil]
    cases π with
    | nil => exact ⟨_, rfl⟩
    | cons s π =>
      rw [descend_congr { c with handler := h, end_ := true } c rfl rfl (s :: π) (by simp)]
      exact ⟨d, hd⟩
  | cons s rest ih =>
    intro c π d hd
    cases π with
    | nil => exact ⟨_, rfl⟩
    | cons t π =>
      by_cases hs : isStatic s = true
      · cases t with
        | par =>
          rw [descend_insertMark_par_static h s rest c hs]
          exact ⟨d, hd⟩
        | lit k =>
          by_cases hk : s = k
          · subst hk
            rw [descend_insertMark_lit_same h s rest c hs]
            cases hx : litChild c s with
            | none =>
              rw [descend_lit_none c s hx π] at hd
              exact Option.noConfusion hd
            | some x =>
              rw [descend_lit_some c x s hx π] at hd
              rw [litChildOrNew_of_some c x s hx]
              exact ih x π d hd
          · rw [descend_insertMark_lit_other h s rest c k hk]
            exact ⟨d, hd⟩
      · have hs' : isStatic s = false := by simpa using hs
        cases t with
        | lit k =>
          rw [descend_insertMark_lit_param h s rest c hs']
          exact ⟨d, hd⟩
        | par =>
          rw [descend_insertMark_par_same h s rest c hs']
          cases hx : c.nonstatic with
          | none =>
            rw [descend_par_none c hx π] at hd
            exact Option.noConfusion hd
          | some x =>
            rw [descend_par_some c x hx π] at hd
            rw [parChildOrNew_of_some c x s hx]
            exact ih x π d hd

theorem register_cons (h : Option Handler) (s : Str) (rest : List Str) (n : node) :
    register h (s :: rest) n = insertMark h (s :: rest) n := by
  simp [register, insertMark, markEnd]

theorem descend_rootLeaf (h : Option Handler) (π : List Step) (hπ : π ≠ []) :
    descend (rootLeaf h) π = none := by
  cases π with
  | nil => exact absurd rfl hπ
  | cons s π =>
    cases s with
    | lit k => simp [descend, litChild, staticMap, rootLeaf, mapGet]
    | par => simp [descend, rootLeaf]

theorem descend_register_nil_root (h : Option Handler) (n : node) (π : List Step) :
    descend (register h [] n) (.lit [] :: π) = descend (rootLeaf h) π := by
  simp [register, descend, litChild, staticMap, mapGet_mapSet_same]

theorem descend_register_nil_other (h : Option Handler) (n : node) (π : List Step)
    (hπ : π ≠ []) (hh : π.head? ≠ some (.lit [])) :
    descend (register h [] n) π = descend n π := by
  cases π with
  | nil => exact absurd rfl hπ
  | cons t π =>
    cases t with
    | par => simp [register, descend]
    | lit k =>
      have hk : ([] : Str) ≠ k := by
        intro hk
        subst hk
        simp at hh
      simp [register, descend, litChild, staticMap, mapGet_mapSet_other _ _ _ _ hk]

theorem descend_register (h : Option Handler) (segs : List Str) (n : node) (π : List Step)
    (d' : node) (hd : descend (register h segs n) π = some d') :
    RegisteredView h segs n π d' := by
  cases segs with
  | cons s rest =>
    rw [register_cons] at hd
    obtain ⟨hA, hB⟩ := descend_insertMark h (s :: rest) n π d' hd
    refine ⟨hA, ?_⟩
    rcases hB with hB | ⟨_, hne, hpre, hseg, hend⟩
    · exact Or.inl hB
    · exact Or.inr ⟨hne, hpre, Or.inr hseg, hend⟩
  | nil =>
    cases π with
    | nil =>
      simp only [descend, Option.some.injEq] at hd
      subst hd
      exact ⟨fun hh => by simp [stepsOf] at hh,
        Or.inl ⟨n, rfl, rfl, fun _ => ⟨rfl, rfl⟩⟩⟩
    | cons t π =>
      by_cases ht : t = .lit []
      · subst ht
        rw [descend_register_nil_root] at hd
        have hnil : π = [] := by
          by_contra hne
          rw [descend_rootLeaf h π hne] at hd
          exact Option.noConfusion hd
        subst hnil
        simp only [descend, Option.some.injEq] at hd
        subst hd
        exact ⟨fun _ => ⟨rfl, rfl⟩, Or.inr ⟨by simp, by simp [stepsOf], Or.inl ⟨rfl, rfl⟩,
          fun hh => absurd rfl hh⟩⟩
      · rw [descend_register_nil_other h n (t :: π) (by simp) (by simpa using ht)] at hd
        refine ⟨fun hh => ?_, Or.inl ⟨d', hd, rfl, fun _ => ⟨rfl, rfl⟩⟩⟩
        simp only [stepsOf, List.cons.injEq] at hh
        exact absurd hh.1 ht

theorem TrieInv.mono {M : Str} {ops ops' : List (Str × Option Handler)} {root : node}
    (hi : TrieInv M ops root) (hsub : ∀ q, q ∈ ops → q ∈ ops') : TrieInv M ops' root := by
  refine ⟨hi.static_ne, ?_, ?_⟩
  · intro π d hd he
    obtain ⟨q, hq, rest⟩ := hi.ends π d hd he
    exact ⟨q, hsub q hq, rest⟩
  · intro π d hd hne
    obtain ⟨q, hq, rest⟩ := hi.nodes π d hd hne
    exact ⟨q, hsub q hq, rest⟩

theorem trieInv_newNode (M : Str) (ops : List (Str × Option Handler)) :
    TrieInv M ops (newNode M nodeKindMethod) := by
  refine ⟨by simp [newNode], ?_, ?_⟩
  · intro π d hd he
    cases π with
    | nil =>
      simp only [descend, Option.some.injEq] at hd
      subst hd
      simp [newNode] at he
    | cons t π =>
      rw [descend_newNode _ _ _ (by simp)] at hd
      exact Option.noConfusion hd
  · intro π d hd hne
    rw [descend_newNode _ _ _ hne] at hd
    exact Option.noConfusion hd

theorem register_static_ne (h : Option Handler) (segs : List Str) (n : node)
    (hn : n.static ≠ none) : (register h segs n).static ≠ none := by
  cases segs with
  | nil => simp [register]
  | cons s rest =>
    rw [register_cons]
    by_cases hs : isStatic s = true
    · rw [insertMark_cons_static h s rest n hs]
      simp
    · rw [insertMark_cons_param h s rest n (by simpa using hs)]
      exact hn

theorem trieInv_register {M : Str} {ops : List (Str × Option Handler)} {root : node}
    (hi : TrieInv M ops root) (p : Str) (h : Option Handler) (segs : List Str)
    (hp : (split p).vals = M :: segs) :
    TrieInv M (ops ++ [(p, h)]) (register h segs root) := by
  have hmem : (p, h) ∈ ops ++ [(p, h)] := by simp
  have hsub : ∀ q, q ∈ ops → q ∈ ops ++ [(p, h)] := fun q hq => by simp [hq]
  refine ⟨register_static_ne h segs root hi.static_ne, ?_, ?_⟩
  · intro π d' hd he
    obtain ⟨hA, hB⟩ := descend_register h segs root π d' hd
    by_cases hπ : π = stepsOf segs
    · exact ⟨(p, h), hmem, segs, hp, hπ.symm, (hA hπ).2⟩
    · rcases hB with ⟨d, hd0, _, hsame⟩ | ⟨_, _, _, hend⟩
      · obtain ⟨he', hh'⟩ := hsame hπ
        obtain ⟨q, hq, segs', h1, h2, h3⟩ := hi.ends π d hd0 (by rw [← he']; exact he)
        exact ⟨q, hsub q hq, segs', h1, h2, by rw [hh']; exact h3⟩
      · rw [hend hπ] at he
        exact Bool.noConfusion he
  · intro π d' hd hne
    obtain ⟨_, hB⟩ := descend_register h segs root π d' hd
    rcases hB with ⟨d, hd0, hres, _⟩ | ⟨_, hpre, hname, _⟩
    · obtain ⟨q, hq, segs', h1, h2, h3⟩ := hi.nodes π d hd0 hne
      refine ⟨q, hsub q hq, segs', h1, h2, ?_⟩
      rw [hres]
      exact h3
    · exact ⟨(p, h), hmem, segs, hp, hpre, hname⟩

theorem Handle_lookup (sm sm' : ServeMux) (p : Str) (h : Option Handler)
    (hroots : ∀ M r, mapGet sm.methods M = some r → r.static ≠ none)
    (hH : Handle sm p h = .ok sm') :
    ∃ m segs, (split p).vals = m :: segs ∧
      mapGet sm'.methods m = some (register h segs (methodRoot sm m)) ∧
      ∀ M, m ≠ M → mapGet sm'.methods M = mapGet sm.methods M := by
  unfold Handle at hH
  cases hv : (split p).vals with
  | nil =>
    rw [hv] at hH
    exact Except.noConfusion hH
  | cons m segs =>
    rw [hv] at hH
    refine ⟨m, segs, rfl, ?_⟩
    cases hm : mapGet sm.methods m with
    | some r =>
      have hr : methodRoot sm m = r := by simp [methodRoot, hm]
      simp only [hm] at hH
      rw [add_eq_register h segs r (hroots m r hm)] at hH
      simp only [Except.ok.injEq] at hH
      subst hH
      rw [hr]
      exact ⟨mapGet_mapSet_same _ _ _, fun M hM => mapGet_mapSet_other _ _ _ _ hM⟩
    | none =>
      have hr : methodRoot sm m = newNode m nodeKindMethod := by simp [methodRoot, hm]
      simp only [hm, mapGet_mapSet_same] at hH
      rw [add_eq_register h segs _ (by simp [newNode])] at hH
      simp only [Except.ok.injEq] at hH
      subst hH
      rw [hr]
      refine ⟨mapGet_mapSet_same _ _ _, fun M hM => ?_⟩
      rw [mapGet_mapSet_other _ _ _ _ hM, mapGet_mapSet_other _ _ _ _ hM]

theorem registryInv_Handle {ops : List (Str × Option Handler)} {sm sm' : ServeMux}
    (hi : RegistryInv ops sm) (p : Str) (h : Option Handler)
    (hH : Handle sm p h = .ok sm') : RegistryInv (ops ++ [(p, h)]) sm' := by
  obtain ⟨m, segs, hv, hm, hother⟩ :=
    Handle_lookup sm sm' p h (fun M r hr => (hi M r hr).1.static_ne) hH
  intro M root hroot
  by_cases hM : m = M
  · subst hM
    rw [hm] at hroot
    simp only [Option.some.injEq] at hroot
    subst hroot
    have h0 : TrieInv m ops (methodRoot sm m) := by
      unfold methodRoot
      cases hx : mapGet sm.methods m with
      | none => exact trieInv_newNode m ops
      | some r => exact (hi m r hx).1
    exact ⟨trieInv_register h0 p h segs hv, (p, h), by simp, by simp [hv]⟩
  · rw [hother M hM] at hroot
    obtain ⟨h1, q, hq, h2⟩ := hi M root hroot
    exact ⟨h1.mono (fun q hq => by simp [hq]), q, by simp [hq], h2⟩

theorem registryInv_handleAll :
    ∀ (ops ops0 : List (Str × Option Handler)) (sm0 sm : ServeMux),
      RegistryInv ops0 sm0 → handleAll sm0 ops = .ok sm → RegistryInv (ops0 ++ ops) sm := by
  intro ops
  induction ops with
  | nil =>
    intro ops0 sm0 sm hi hh
    simp only [handleAll, Except.ok.injEq] at hh
    subst hh
    simpa using hi
  | cons q ops ih =>
    intro ops0 sm0 sm hi hh
    obtain ⟨p, h⟩ := q
    simp only [handleAll] at hh
    cases hH : Handle sm0 p h with
    | error e =>
      rw [hH] at hh
      exact Except.noConfusion hh
    | ok sm1 =>
      rw [hH] at hh
      have := ih (ops0 ++ [(p, h)]) sm1 sm (registryInv_Handle hi p h hH) hh
      simpa using this

theorem registryInv_build (ops : List (Str × Option Handler)) (sm : ServeMux)
    (hb : build ops = .ok sm) : RegistryInv ops sm := by
  have h0 : RegistryInv [] NewServeMux := by
    intro M root hroot
    simp [NewServeMux, mapGet] at hroot
  simpa using registryInv_handleAll ops [] NewServeMux sm h0 hb

theorem staticReturn_some (len idx : Nat) (n : node) (res : Str) (h : Option Handler)
    (hr : staticReturn len idx n res = some (h, true)) :
    ∃ c, litChild n res = some c ∧ c.end_ = true ∧ c.handler = h ∧ len = idx + 1 := by
  unfold staticReturn at hr
  cases hst : n.static with
  | none => simp [hst] at hr
  | some m =>
    simp only [hst] at hr
    cases hc : mapGet m res with
    | none => simp [hc] at hr
    | some c =>
      simp only [hc] at hr
      by_cases hcond : c.end_ = true ∧ len = idx + 1
      · rw [if_pos hcond] at hr
        by_cases hres : c.res = res
        · rw [if_pos hres] at hr
          simp only [Option.some.injEq, Prod.mk.injEq, and_true] at hr
          exact ⟨c, by simp [litChild, staticMap, hst, hc], hcond.1, hr, hcond.2⟩
        · rw [if_neg hres] at hr
          simp at hr
      · rw [if_neg hcond] at hr
        exact Option.noConfusion hr

theorem staticChild_some (n x : node) (res : Str) (nn : Option node)
    (hx : staticChild n res nn = some x) :
    litChild n res = some x ∨ (n.static = none ∧ nn = some x) := by
  unfold staticChild at hx
  cases hst : n.static with
  | none =>
    simp only [hst] at hx
    exact Or.inr ⟨rfl, hx⟩
  | some m =>
    simp only [hst] at hx
    exact Or.inl (by simp [litChild, staticMap, hst, hx])

theorem descend_childless (n : node) (hs : n.static = none) (hn : n.nonstatic = none)
    (π : List Step) (d : node) (hd : descend n π = some d) : π = [] := by
  cases π with
  | nil => rfl
  | cons t π =>
    cases t with
    | lit k => simp [descend, litChild, staticMap, hs, mapGet] at hd
    | par => simp [descend, hn] at hd

theorem searchLoop_cons (len : Nat) (res : Str) (rest : List Str) (idx : Nat) (n : node)
    (nn : Option node) (keys : Option (List Str)) :
    searchLoop len (res :: rest) idx n nn keys =
      match staticReturn len idx n res with
      | some (h, ok) => .ok (h, ok, keys)
      | none =>
        match n.nonstatic with
        | some p =>
          if idx < (match keys with
              | none => List.replicate len []
              | some ks => ks).length then
            if p.end_ ∧ len = idx + 1 then
              .ok (p.handler, true, some ((match keys with
                | none => List.replicate len []
                | some ks => ks).set idx p.res))
            else searchLoop len rest (idx + 1) p (some p) (some ((match keys with
                | none => List.replicate len []
                | some ks => ks).set idx p.res))
          else .error .indexOutOfRange
        | none =>
          match staticChild n res nn with
          | none => .ok (none, false, keys)
          | some x => searchLoop len rest (idx + 1) x (some x) keys := by
  rfl

theorem searchLoop_sound (len : Nat) :
    ∀ (toks : List Str) (idx : Nat) (n : node) (nn : Option node) (keys : Option (List Str))
      (h : Option Handler) (ks : Option (List Str)),
      len = idx + toks.length → (nn = none ∨ nn = some n) →
      searchLoop len toks idx n nn keys = .ok (h, true, ks) →
      ∃ π d, descend n π = some d ∧ d.end_ = true ∧ d.handler = h ∧ Fits π toks := by
  intro toks
  induction toks with
  | nil =>
    intro idx n nn keys h ks _ _ hs
    simp [searchLoop] at hs
  | cons res rest ih =>
    intro idx n nn keys h ks hlen hnn hs
    have hlast : len = idx + 1 → rest = [] := by
      intro h1
      simp only [List.length_cons] at hlen
      exact List.length_eq_zero.1 (by omega)
    have hlen' : len = (idx + 1) + rest.length := by
      simp only [List.length_cons] at hlen
      omega
    rw [searchLoop_cons] at hs
    cases hr : staticReturn len idx n res with
    | some r =>
      obtain ⟨h', ok⟩ := r
      simp only [hr, Except.ok.injEq, Prod.mk.injEq] at hs
      obtain ⟨rfl, rfl, _⟩ := hs
      obtain ⟨c, hc, he, hh, hl⟩ := staticReturn_some len idx n res h' hr
      have := hlast hl
      subst this
      refine ⟨[.lit res], c, ?_, he, hh, ?_⟩
      · rw [descend_lit_some n c res hc]
        rfl
      · simp [Fits]
    | none =>
      simp only [hr] at hs
      cases hp : n.nonstatic with
      | some p =>
        simp only [hp] at hs
        split at hs
        · split at hs
          · rename_i hcond
            simp only [Except.ok.injEq, Prod.mk.injEq] at hs
            have := hlast hcond.2
            subst this
            refine ⟨[.par], p, ?_, hcond.1, hs.1, ?_⟩
            · rw [descend_par_some n p hp]
              rfl
            · simp [Fits]
          · obtain ⟨π, d, hd, he, hh, hf⟩ := ih (idx + 1) p (some p) _ h ks hlen' (Or.inr rfl) hs
            refine ⟨.par :: π, d, ?_, he, hh, ?_⟩
            · rw [descend_par_some n p hp]
              exact hd
            · exact ⟨Or.inl rfl, hf⟩
        · exact Except.noConfusion hs
      | none =>
        simp only [hp] at hs
        cases hx : staticChild n res nn with
        | none => simp [hx] at hs
        | some x =>
          simp only [hx] at hs
          obtain ⟨π, d, hd, he, hh, hf⟩ := ih (idx + 1) x (some x) keys h ks hlen' (Or.inr rfl) hs
          rcases staticChild_some n x res nn hx with hc | ⟨hst, hnn'⟩
          · refine ⟨.lit res :: π, d, ?_, he, hh, ?_⟩
            · rw [descend_lit_some n x res hc]
              exact hd
            · exact ⟨Or.inr rfl, hf⟩
          · have hxn : x = n := by
              rcases hnn with h0 | h0
              · rw [h0] at hnn'
                exact Option.noConfusion hnn'
              · rw [h0] at hnn'
                exact (Option.some.inj hnn').symm
            subst hxn
            have hπ := descend_childless x hst hp π d hd
            subst hπ
            cases rest with
            | nil => simp [searchLoop] at hs
            | cons r rs => simp [Fits] at hf

theorem Routed_length : ∀ (segs toks : List Str) (x d : node),
    Routed x segs toks d → toks.length = segs.length := by
  intro segs
  induction segs with
  | nil => intro toks x d h; exact absurd h (by simp [Routed])
  | cons s ss ih =>
    intro toks x d h
    cases toks with
    | nil => exact absurd h (by simp [Routed])
    | cons t ts =>
      cases ss with
      | nil =>
        simp only [Routed] at h
        simp [h.1]
      | cons s2 ss2 =>
        simp only [Routed] at h
        by_cases hs : isStatic s = true
        · simp only [hs, if_true] at h
          obtain ⟨_, _, c, _, hr⟩ := h
          simp [ih ts c d hr]
        · simp only [hs, if_false] at h
          obtain ⟨p, _, hr⟩ := h
          simp [ih ts p d hr]

theorem staticReturn_not_last (len idx : Nat) (n : node) (res : Str) (hl : len ≠ idx + 1) :
    staticReturn len idx n res = none := by
  unfold staticReturn
  cases n.static with
  | none => rfl
  | some m =>
    simp only
    cases hm : mapGet m res with
    | none => rfl
    | some c => simp [hl]

theorem litChild_some_static (n c : node) (k : Str) (hc : litChild n k = some c) :
    ∃ m, n.static = some m ∧ mapGet m k = some c := by
  unfold litChild staticMap at hc
  cases hst : n.static with
  | none => simp [hst, mapGet] at hc
  | some m =>
    simp only [hst] at hc
    exact ⟨m, rfl, hc⟩

theorem litChild_eq_of_static (n : node) (m : List (Str × node)) (k : Str)
    (hst : n.static = some m) : litChild n k = mapGet m k := by
  simp [litChild, staticMap, hst]

theorem searchLoop_routed (len : Nat) :
    ∀ (segs toks : List Str) (x d : node) (idx : Nat) (nn : Option node)
      (keys : Option (List Str)),
      Routed x segs toks d → d.end_ = true → len = idx + toks.length →
      (∀ ks, keys = some ks → ks.length = len) →
      searchLoop len toks idx x nn keys =
        .ok (d.handler, true, routeKeys len idx x segs keys) := by
  intro segs
  induction segs with
  | nil => intro toks x d idx nn keys h; exact absurd h (by simp [Routed])
  | cons s ss ih =>
    intro toks x d idx nn keys hr hend hlen hkeys
    cases toks with
    | nil => exact absurd hr (by simp [Routed])
    | cons t ts =>
      have hklen : idx < (match keys with
          | none => List.replicate len []
          | some ks => ks).length := by
        simp only [List.length_cons] at hlen
        cases keys with
        | none => simp; omega
        | some ks =>
          simp only
          rw [hkeys ks rfl]
          omega
      have hkeys' : ∀ r ks, some ((match keys with
          | none => List.replicate len []
          | some ks => ks).set idx r) = some ks → ks.length = len := by
        intro r ks hks
        simp only [Option.some.injEq] at hks
        subst hks
        cases keys with
        | none => simp
        | some ks0 => simp [hkeys ks0 rfl]
      rw [searchLoop_cons]
      cases ss with
      | nil =>
        simp only [Routed] at hr
        obtain ⟨hts, hr⟩ := hr
        subst hts
        have hl : len = idx + 1 := by simpa using hlen
        by_cases hs : isStatic s = true
        · simp only [hs, if_true] at hr
          obtain ⟨hts, hc, hres⟩ := hr
          subst hts
          obtain ⟨m, hst, hm⟩ := litChild_some_static x d t hc
          have : staticReturn len idx x t = some (d.handler, true) := by
            simp [staticReturn, hst, hm, hend, hl, hres]
          simp [this, routeKeys, hs, hc]
        · simp only [hs, if_false] at hr
          obtain ⟨hp, hno⟩ := hr
          have hsr : staticReturn len idx x t = none := by
            unfold staticReturn
            cases hst : x.static with
            | none => rfl
            | some m =>
              simp only
              cases hm : mapGet m t with
              | none => rfl
              | some c =>
                have := hno c (by rw [litChild_eq_of_static x m t hst]; exact hm)
                simp [this]
          simp only [hsr, hp]
          rw [if_pos hklen, if_pos ⟨hend, hl⟩]
          simp [routeKeys, hs, hp]
      | cons s2 ss2 =>
        simp only [Routed] at hr
        have hlen2 := hlen
        simp only [List.length_cons] at hlen2
        by_cases hs : isStatic s = true
        · simp only [hs, if_true] at hr
          obtain ⟨hts, hnone, c, hc, hrc⟩ := hr
          subst hts
          have htl := Routed_length _ _ _ _ hrc
          simp only [List.length_cons] at htl
          have hl : len ≠ idx + 1 := by omega
          obtain ⟨m, hst, hm⟩ := litChild_some_static x c t hc
          have hsc : staticChild x t nn = some c := by simp [staticChild, hst, hm]
          simp only [staticReturn_not_last len idx x t hl, hnone, hsc]
          rw [ih ts c d (idx + 1) (some c) keys hrc hend (by omega) hkeys]
          simp [routeKeys, hs, hc]
        · simp only [hs, if_false] at hr
          obtain ⟨p, hp, hrp⟩ := hr
          have htl := Routed_length _ _ _ _ hrp
          simp only [List.length_cons] at htl
          have hl : len ≠ idx + 1 := by omega
          simp only [staticReturn_not_last len idx x t hl, hp]
          rw [if_pos hklen, if_neg (fun hh => hl hh.2)]
          rw [ih ts p d (idx + 1) (some p) _ hrp hend (by omega) (hkeys' p.res)]
          simp [routeKeys, hs, hp]

theorem stepOf_eq_lit (seg k : Str) (h : stepOf seg = .lit k) :
    isStatic seg = true ∧ seg = k := by
  unfold stepOf at h
  by_cases hs : isStatic seg = true
  · rw [if_pos hs] at h
    exact ⟨hs, Step.lit.inj h⟩
  · rw [if_neg hs] at h
    exact Step.noConfusion h

theorem stepOf_eq_par (seg : Str) (h : stepOf seg = .par) : isStatic seg = false := by
  unfold stepOf at h
  by_cases hs : isStatic seg = true
  · rw [if_pos hs] at h
    exact Step.noConfusion h
  · simpa using hs

theorem stepsOf_cons (s : Str) (ss : List Str) : stepsOf (s :: ss) = (s :: ss).map stepOf := rfl

theorem stepsOf_ne_nil (segs : List Str) : stepsOf segs ≠ [] := by
  cases segs with
  | nil => simp [stepsOf]
  | cons s ss => simp [stepsOf]

theorem prefix_last_get {α : Type} (ρ : List α) (a : α) (l : List α) (hp : (ρ ++ [a]) <+: l) :
    l.get? ρ.length = some a := by
  obtain ⟨t, ht⟩ := hp
  subst ht
  induction ρ with
  | nil => simp
  | cons r ρ ih => simpa using ih

/-- A node below a parameter edge bears the name of a registered pattern
that has a parameter there; a node below a literal edge bears its key. -/
theorem trieInv_last_edge {M : Str} {ops : List (Str × Option Handler)} {root : node}
    (hi : TrieInv M ops root) (ρ : List Step) (e : Step) (d : node)
    (hd : descend root (ρ ++ [e]) = some d) :
    ∃ q ∈ ops, ∃ segs, (split q.1).vals = M :: segs ∧ (ρ ++ [e]) <+: stepsOf segs ∧
      ((segs = [] ∧ ρ = [] ∧ e = .lit [] ∧ d.res = []) ∨
        (∃ seg, segs.get? ρ.length = some seg ∧ stepOf seg = e ∧ d.res = trimLeft ':' seg)) := by
  obtain ⟨q, hq, segs, hv, hpre, hname⟩ := hi.nodes (ρ ++ [e]) d hd (by simp)
  refine ⟨q, hq, segs, hv, hpre, ?_⟩
  have hget := prefix_last_get ρ e _ hpre
  rcases hname with ⟨hnil, hres⟩ | ⟨seg, hseg, hres⟩
  · subst hnil
    left
    simp only [stepsOf] at hget
    cases ρ with
    | nil =>
      simp only [List.length_nil, List.get?_cons_zero, Option.some.injEq] at hget
      exact ⟨rfl, rfl, hget.symm, hres⟩
    | cons r ρ => simp at hget
  · right
    have hlen : (ρ ++ [e]).length - 1 = ρ.length := by simp
    rw [hlen] at hseg
    refine ⟨seg, hseg, ?_, hres⟩
    cases segs with
    | nil => simp at hseg
    | cons s ss =>
      rw [stepsOf_cons, List.get?_eq_getElem?, List.getElem?_map] at hget
      rw [List.get?_eq_getElem?] at hseg
      rw [hseg] at hget
      simpa using hget

theorem trieInv_key {M : Str} {ops : List (Str × Option Handler)} {root : node}
    (hi : TrieInv M ops root) (ρ : List Step) (k : Str) (d : node)
    (hd : descend root (ρ ++ [.lit k]) = some d) : d.res = k := by
  obtain ⟨q, _, segs, _, _, hname⟩ := trieInv_last_edge hi ρ (.lit k) d hd
  rcases hname with ⟨_, _, he, hres⟩ | ⟨seg, _, hstep, hres⟩
  · rw [hres]
    exact (Step.lit.inj he).symm
  · obtain ⟨hs, hk⟩ := stepOf_eq_lit seg k hstep
    rw [hres, trimLeft_of_isStatic seg hs, hk]

theorem descend_append (n : node) : ∀ (ρ τ : List Step) (x : node),
    descend n ρ = some x → descend n (ρ ++ τ) = descend x τ := by
  intro ρ
  induction ρ generalizing n with
  | nil =>
    intro τ x hx
    simp only [descend, Option.some.injEq] at hx
    subst hx
    rfl
  | cons e ρ ih =>
    intro τ x hx
    cases e with
    | lit k =>
      cases hc : litChild n k with
      | none =>
        rw [descend_lit_none n k hc] at hx
        exact Option.noConfusion hx
      | some c =>
        rw [descend_lit_some n c k hc] at hx
        rw [List.cons_append, descend_lit_some n c k hc]
        exact ih c τ x hx
    | par =>
      cases hc : n.nonstatic with
      | none =>
        rw [descend_par_none n hc] at hx
        exact Option.noConfusion hx
      | some c =>
        rw [descend_par_some n c hc] at hx
        rw [List.cons_append, descend_par_some n c hc]
        exact ih c τ x hx

/-- The registry `Handle` leaves, when the root it works on has a map. -/
theorem Handle_eq (sm : ServeMux) (p : Str) (h : Option Handler) (m : Str) (segs : List Str)
    (hv : (split p).vals = m :: segs) (hroot : (methodRoot sm m).static ≠ none) :
    ∃ sm', Handle sm p h = .ok sm' ∧
      mapGet sm'.methods m = some (register h segs (methodRoot sm m)) ∧
      ∀ M, m ≠ M → mapGet sm'.methods M = mapGet sm.methods M := by
  unfold Handle
  rw [hv]
  cases hm : mapGet sm.methods m with
  | some r =>
    have hr : methodRoot sm m = r := by simp [methodRoot, hm]
    rw [hr] at hroot ⊢
    simp only [hm]
    rw [add_eq_register h segs r hroot]
    exact ⟨_, rfl, mapGet_mapSet_same _ _ _, fun M hM => mapGet_mapSet_other _ _ _ _ hM⟩
  | none =>
    have hr : methodRoot sm m = newNode m nodeKindMethod := by simp [methodRoot, hm]
    rw [hr] at hroot ⊢
    simp only [hm, mapGet_mapSet_same]
    rw [add_eq_register h segs _ hroot]
    refine ⟨_, rfl, mapGet_mapSet_same _ _ _, fun M hM => ?_⟩
    simp only
    rw [mapGet_mapSet_other _ _ _ _ hM, mapGet_mapSet_other _ _ _ _ hM]

theorem methodRoot_static_ne {ops : List (Str × Option Handler)} {sm : ServeMux}
    (hi : RegistryInv ops sm) (m : Str) : (methodRoot sm m).static ≠ none := by
  unfold methodRoot
  cases hm : mapGet sm.methods m with
  | none => simp [newNode]
  | some r => exact (hi m r hm).1.static_ne

theorem stringsSplit_of_not_mem (sep : Char) (s : Str) (hs : sep ∉ s) :
    stringsSplit sep s = [s] := by
  induction s with
  | nil => rfl
  | cons c cs ih =>
    have hc : c ≠ sep := by
      intro h
      exact hs (by simp [h])
    have hcs : sep ∉ cs := fun h => hs (by simp [h])
    simp [stringsSplit, hc, ih hcs]

theorem stripSlashes_of_not_mem (s : Str) (hs : '/' ∉ s) : stripSlashes s = s := by
  have h1 : s.head? ≠ some '/' := by
    intro h
    exact hs (List.mem_of_mem_head? h)
  have h2 : s.getLast? ≠ some '/' := by
    intro h
    exact hs (List.mem_of_mem_getLast? h)
  simp [stripSlashes, stripLeading, stripTrailing, h1, h2]

theorem split_token (M : Str) (hM : M ≠ []) (hs : '/' ∉ M) :
    split M = { keys := none, vals := [M], len := 1 } := by
  rw [split_of_ne_nil M hM, stripSlashes_of_not_mem M hs, stringsSplit_of_not_mem '/' M hs]
  rfl

theorem split_token_slash (M : Str) (hM : M ≠ []) (hs : '/' ∉ M) :
    split (M ++ ['/']) = { keys := none, vals := [M], len := 1 } := by
  have hl : M.getLast? ≠ some '/' := fun h => hs (List.mem_of_mem_getLast? h)
  rw [split_of_ne_nil (M ++ ['/']) (by simp), stripSlashes_append_slash M hM hl,
    stripSlashes_of_not_mem M hs, stringsSplit_of_not_mem '/' M hs]
  rfl

theorem split_blank (p : Str) (hp : p ≠ []) (hs : stripSlashes p = []) :
    split p = { keys := none, vals := [[]], len := 1 } := by
  rw [split_of_ne_nil p hp, hs]
  rfl

theorem search_root_leaf (h : Option Handler) (n : node) :
    search (register h [] n) { keys := none, vals := [[]], len := 1 } =
      .ok (h, true, { keys := none, vals := [[]], len := 1 }) := by
  have hsr : staticReturn 1 0 (register h [] n) [] = some (h, true) := by
    simp [staticReturn, register, mapGet_mapSet_same, rootLeaf]
  simp [search, searchLoop_cons, hsr]

theorem ServeHTTP_root_leaf (sm : ServeMux) (M : Str) (h : Option Handler) (n : node)
    (hroot : mapGet sm.methods M = some (register h [] n)) (p : Str)
    (hp : split p = { keys := none, vals := [[]], len := 1 }) :
    ServeHTTP sm M p = invoke h (some { keys := none, vals := [[]], len := 1 }) := by
  unfold ServeHTTP
  simp only [hroot, hp, search_root_leaf]
  simp

theorem fits_map_stepOf : ∀ (segs toks : List Str), Fits (segs.map stepOf) toks →
    segs.length = toks.length ∧
      ∀ i s t, segs.get? i = some s → toks.get? i = some t → isStatic s = true → s = t := by
  intro segs
  induction segs with
  | nil =>
    intro toks hf
    cases toks with
    | nil => simp
    | cons t ts => simp [Fits] at hf
  | cons s ss ih =>
    intro toks hf
    cases toks with
    | nil => simp [Fits] at hf
    | cons t ts =>
      simp only [List.map_cons, Fits] at hf
      obtain ⟨hst, hrest⟩ := hf
      obtain ⟨hlen, hall⟩ := ih ts hrest
      refine ⟨by simp [hlen], ?_⟩
      intro i a b ha hb hstat
      cases i with
      | zero =>
        simp only [List.get?_cons_zero, Option.some.injEq] at ha hb
        rw [← ha] at hstat ⊢
        rw [← hb]
        rcases hst with hst | hst
        · have := stepOf_eq_par s hst
          rw [this] at hstat
          exact Bool.noConfusion hstat
        · exact (stepOf_eq_lit s t hst).2
      | succ i =>
        simp only [List.get?_cons_succ] at ha hb
        exact hall i a b ha hb hstat

theorem descend_cons (x c : node) (e : Step) (hc : descend x [e] = some c) (π : List Step) :
    descend x (e :: π) = descend c π :=
  descend_append x [e] π c hc

theorem descend_single_lit (x c : node) (k : Str) (h : descend x [.lit k] = some c) :
    litChild x k = some c := by
  cases hx : litChild x k with
  | none =>
    rw [descend_lit_none x k hx] at h
    exact Option.noConfusion h
  | some y =>
    rw [descend_lit_some x y k hx] at h
    simpa [descend] using h

theorem descend_single_par (x c : node) (h : descend x [.par] = some c) :
    x.nonstatic = some c := by
  cases hx : x.nonstatic with
  | none =>
    rw [descend_par_none x hx] at h
    exact Option.noConfusion h
  | some y =>
    rw [descend_par_some x y hx] at h
    simpa [descend] using h

theorem descend_cons_some (x d : node) (e : Step) (π : List Step)
    (h : descend x (e :: π) = some d) : ∃ c, descend x [e] = some c ∧ descend c π = some d := by
  cases e with
  | lit k =>
    cases hx : litChild x k with
    | none =>
      rw [descend_lit_none x k hx] at h
      exact Option.noConfusion h
    | some y =>
      rw [descend_lit_some x y k hx] at h
      exact ⟨y, by rw [descend_lit_some x y k hx]; rfl, h⟩
  | par =>
    cases hx : x.nonstatic with
    | none =>
      rw [descend_par_none x hx] at h
      exact Option.noConfusion h
    | some y =>
      rw [descend_par_some x y hx] at h
      exact ⟨y, by rw [descend_par_some x y hx]; rfl, h⟩

theorem noParBeside_shift {x c : node} {e : Step} {σ : List Step}
    (h : NoParBeside x (e :: σ)) (hc : descend x [e] = some c) : NoParBeside c σ := by
  intro ρ k x' hpre hne hx'
  refine h (e :: ρ) k x' ?_ ?_ ?_
  · exact (List.cons_prefix_cons).2 ⟨rfl, hpre⟩
  · intro hh
    exact hne (List.cons.inj hh).2
  · rw [descend_cons x c e hc]
    exact hx'

theorem noLitBeside_shift {x c : node} {e e2 : Step} {σ : List Step} {t t2 : Str}
    {ts : List Str} (h : NoLitBeside x (e :: e2 :: σ) (t :: t2 :: ts))
    (hc : descend x [e] = some c) : NoLitBeside c (e2 :: σ) (t2 :: ts) := by
  intro hlast v d hv hd
  refine h ?_ v d ?_ ?_
  · rw [List.getLast?_cons_cons]
    exact hlast
  · rw [List.getLast?_cons_cons]
    exact hv
  · rw [List.dropLast_cons₂, List.cons_append, descend_cons x c e hc]
    exact hd

theorem keysBorne_shift {x c : node} {e : Step} (h : KeysBorne x)
    (hc : descend x [e] = some c) : KeysBorne c := by
  intro ρ k d hd
  refine h (e :: ρ) k d ?_
  rw [List.cons_append, descend_cons x c e hc]
  exact hd

theorem routed_of_clear :
    ∀ (segs toks : List Str) (x d : node),
      descend x (segs.map stepOf) = some d → segs ≠ [] → Fits (segs.map stepOf) toks →
      NoParBeside x (segs.map stepOf) → NoLitBeside x (segs.map stepOf) toks → KeysBorne x →
      Routed x segs toks d := by
  intro segs
  induction segs with
  | nil => intro toks x d _ hne; exact absurd rfl hne
  | cons s ss ih =>
    intro toks x d hd _ hfit hnp hnl hk
    cases toks with
    | nil => simp [Fits] at hfit
    | cons t ts =>
      simp only [List.map_cons, Fits] at hfit
      obtain ⟨hst, hfits⟩ := hfit
      rw [List.map_cons] at hd hnp hnl
      obtain ⟨c, hc, hcd⟩ := descend_cons_some x d _ _ hd
      cases ss with
      | nil =>
        have hts : ts = [] := by
          cases ts with
          | nil => rfl
          | cons t2 ts2 => simp [Fits] at hfits
        subst hts
        simp only [List.map_nil, descend, Option.some.injEq] at hcd
        subst hcd
        simp only [Routed, true_and]
        by_cases hs : isStatic s = true
        · have hstep : stepOf s = .lit s := by simp [stepOf, hs]
          rw [hstep] at hst hc
          have hts : t = s := by
            rcases hst with h1 | h1
            · exact Step.noConfusion h1
            · exact (Step.lit.inj h1).symm
          simp only [hs, if_true]
          exact ⟨hts, descend_single_lit x c s hc, hk [] s c hc⟩
        · have hs' : isStatic s = false := by simpa using hs
          have hstep : stepOf s = .par := by simp [stepOf, hs']
          rw [hstep] at hc hnl
          simp only [hs', Bool.false_eq_true, if_false]
          refine ⟨descend_single_par x c hc, ?_⟩
          intro c2 hc2
          refine hnl rfl t c2 rfl ?_
          simp only [List.map_nil, List.dropLast_single, List.nil_append]
          rw [descend_lit_some x c2 t hc2]
          rfl
      | cons s2 ss2 =>
        cases ts with
        | nil => simp [Fits] at hfits
        | cons t2 ts2 =>
          have hrec : Routed c (s2 :: ss2) (t2 :: ts2) d :=
            ih (t2 :: ts2) c d hcd (by simp) hfits (noParBeside_shift hnp hc)
              (by
                rw [List.map_cons] at hnl ⊢
                exact noLitBeside_shift hnl hc)
              (keysBorne_shift hk hc)
          simp only [Routed]
          by_cases hs : isStatic s = true
          · have hstep : stepOf s = .lit s := by simp [stepOf, hs]
            rw [hstep] at hst hc hnp
            have hts : t = s := by
              rcases hst with h1 | h1
              · exact Step.noConfusion h1
              · exact (Step.lit.inj h1).symm
            simp only [hs, if_true]
            refine ⟨hts, ?_, c, descend_single_lit x c s hc, hrec⟩
            exact hnp [] s x (by simp) (by simp) rfl
          · have hs' : isStatic s = false := by simpa using hs
            have hstep : stepOf s = .par := by simp [stepOf, hs']
            rw [hstep] at hc
            simp only [hs', Bool.false_eq_true, if_false]
            exact ⟨c, descend_single_par x c hc, hrec⟩

theorem stepsOf_eq_keySegs (segs : List Str) : stepsOf segs = (keySegs segs).map stepOf := by
  cases segs with
  | nil => simp [stepsOf, keySegs, stepOf, isStatic, startsWith]
  | cons s ss => rfl

theorem keySegs_ne_nil (segs : List Str) : keySegs segs ≠ [] := by
  cases segs with
  | nil => simp [keySegs]
  | cons s ss => simp [keySegs]

theorem patMethod_of_vals (p M : Str) (segs : List Str) (hv : (split p).vals = M :: segs) :
    patMethod p = some M ∧ patSegments p = segs := by
  simp [patMethod, patSegments, hv]

theorem vals_of_patMethod (p M : Str) (hm : patMethod p = some M) :
    (split p).vals = M :: patSegments p := by
  unfold patMethod at hm
  unfold patSegments
  cases hv : (split p).vals with
  | nil => simp [hv] at hm
  | cons a as =>
    simp only [hv, List.head?_cons, Option.some.injEq] at hm
    simp [hm]

theorem descend_register_target (h : Option Handler) (segs : List Str) (n : node) :
    ∃ d, descend (register h segs n) (stepsOf segs) = some d ∧ d.end_ = true ∧ d.handler = h := by
  have hex : ∃ d, descend (register h segs n) (stepsOf segs) = some d := by
    cases segs with
    | nil =>
      refine ⟨rootLeaf h, ?_⟩
      simp only [stepsOf]
      rw [descend_register_nil_root]
      rfl
    | cons s ss =>
      rw [register_cons, stepsOf_cons]
      exact descend_insertMark_target h (s :: ss) n
  obtain ⟨d, hd⟩ := hex
  exact ⟨d, hd, (descend_register h segs n _ d hd).1 rfl⟩

theorem descend_register_kept (hq : Option Handler) (segsq : List Str) (n : node)
    (σ : List Step) (d : node) (hσ : σ ≠ []) (hd : descend n σ = some d)
    (hno : overwrites segsq σ = false) :
    ∃ d', descend (register hq segsq n) σ = some d' ∧ d'.end_ = d.end_ ∧
      d'.handler = d.handler := by
  cases segsq with
  | nil =>
    have hh : σ.head? ≠ some (.lit []) := by
      simpa [overwrites] using hno
    rw [descend_register_nil_other hq n σ hσ hh]
    exact ⟨d, hd, rfl, rfl⟩
  | cons s ss =>
    have hne : σ ≠ (s :: ss).map stepOf := by
      intro hh
      have : stepsOf (s :: ss) = σ := by rw [stepsOf_cons, hh]
      simp [overwrites, this] at hno
    rw [register_cons]
    obtain ⟨d', hd'⟩ := descend_insertMark_keeps hq (s :: ss) n σ d hd
    obtain ⟨_, hB⟩ := descend_insertMark hq (s :: ss) n σ d' hd'
    rcases hB with ⟨d0, hd0, _, hsame⟩ | ⟨hnone, _⟩
    · rw [hd] at hd0
      have : d = d0 := Option.some.inj hd0
      subst this
      exact ⟨d', hd', (hsame hne).1, (hsame hne).2⟩
    · rw [hd] at hnone
      exact Option.noConfusion hnone

theorem live_after_Handle {ops : List (Str × Option Handler)} {sm sm' : ServeMux}
    (hi : RegistryInv ops sm) (p : Str) (h : Option Handler) (M : Str) (segs : List Str)
    (hv : (split p).vals = M :: segs) (hH : Handle sm p h = .ok sm') :
    Live sm' M (stepsOf segs) h := by
  obtain ⟨m, segs', hv', hm, _⟩ :=
    Handle_lookup sm sm' p h (fun M r hr => (hi M r hr).1.static_ne) hH
  rw [hv] at hv'
  simp only [List.cons.injEq] at hv'
  obtain ⟨rfl, rfl⟩ := hv'
  obtain ⟨d, hd, he, hh⟩ := descend_register_target h segs (methodRoot sm M)
  exact ⟨_, d, hm, hd, he, hh⟩

theorem live_kept {ops : List (Str × Option Handler)} {sm sm' : ServeMux}
    (hi : RegistryInv ops sm) (q : Str) (hq : Option Handler) (M : Str) (σ : List Step)
    (h : Option Handler) (hσ : σ ≠ [])
    (hno : patMethod q = some M → overwrites (patSegments q) σ = false)
    (hH : Handle sm q hq = .ok sm') (hl : Live sm M σ h) : Live sm' M σ h := by
  obtain ⟨root, d, hroot, hd, he, hh⟩ := hl
  obtain ⟨m, segsq, hv, hm, hother⟩ :=
    Handle_lookup sm sm' q hq (fun M r hr => (hi M r hr).1.static_ne) hH
  by_cases hmM : m = M
  · subst hmM
    obtain ⟨hpm, hps⟩ := patMethod_of_vals q m segsq hv
    have hno' := hno hpm
    rw [hps] at hno'
    have hr : methodRoot sm m = root := by simp [methodRoot, hroot]
    rw [hr] at hm
    obtain ⟨d', hd', he', hh'⟩ := descend_register_kept hq segsq root σ d hσ hd hno'
    exact ⟨_, d', hm, hd', by rw [he', he], by rw [hh', hh]⟩
  · exact ⟨root, d, by rw [hother M hmM]; exact hroot, hd, he, hh⟩

theorem live_handleAll (M : Str) (σ : List Step) (h : Option Handler) (hσ : σ ≠ []) :
    ∀ (post ops0 : List (Str × Option Handler)) (sm0 sm : ServeMux),
      RegistryInv ops0 sm0 → handleAll sm0 post = .ok sm →
      (∀ q ∈ post, patMethod q.1 = some M → overwrites (patSegments q.1) σ = false) →
      Live sm0 M σ h → Live sm M σ h := by
  intro post
  induction post with
  | nil =>
    intro ops0 sm0 sm _ hh _ hl
    simp only [handleAll, Except.ok.injEq] at hh
    subst hh
    exact hl
  | cons q post ih =>
    intro ops0 sm0 sm hi hh hno hl
    obtain ⟨p, hp⟩ := q
    simp only [handleAll] at hh
    cases hH : Handle sm0 p hp with
    | error e =>
      rw [hH] at hh
      exact Except.noConfusion hh
    | ok sm1 =>
      rw [hH] at hh
      exact ih (ops0 ++ [(p, hp)]) sm1 sm (registryInv_Handle hi p hp hH) hh
        (fun q hq => hno q (by simp [hq]))
        (live_kept hi p hp M σ h hσ (hno (p, hp) (by simp)) hH hl)

theorem handleAll_append :
    ∀ (a b : List (Str × Option Handler)) (sm0 sm : ServeMux),
      handleAll sm0 (a ++ b) = .ok sm →
      ∃ sm1, handleAll sm0 a = .ok sm1 ∧ handleAll sm1 b = .ok sm := by
  intro a
  induction a with
  | nil =>
    intro b sm0 sm hh
    exact ⟨sm0, rfl, hh⟩
  | cons q a ih =>
    intro b sm0 sm hh
    obtain ⟨p, hp⟩ := q
    simp only [List.cons_append, handleAll] at hh ⊢
    cases hH : Handle sm0 p hp with
    | error e =>
      rw [hH] at hh
      exact Except.noConfusion hh
    | ok sm1 =>
      rw [hH] at hh
      exact ih b sm1 sm hh

theorem live_build (pre post : List (Str × Option Handler)) (p : Str) (h : Option Handler)
    (sm : ServeMux) (hb : build (pre ++ (p, h) :: post) = .ok sm) (M : Str) (segs : List Str)
    (hp : (split p).vals = M :: segs)
    (hlater : ∀ q ∈ post, patMethod q.1 = some M →
      overwrites (patSegments q.1) (stepsOf segs) = false) :
    Live sm M (stepsOf segs) h := by
  obtain ⟨sm1, h1, h2⟩ := handleAll_append pre ((p, h) :: post) NewServeMux sm hb
  have hi1 : RegistryInv pre sm1 := registryInv_build pre sm1 h1
  simp only [handleAll] at h2
  cases hH : Handle sm1 p h with
  | error e =>
    rw [hH] at h2
    exact Except.noConfusion h2
  | ok sm2 =>
    rw [hH] at h2
    exact live_handleAll M (stepsOf segs) h (stepsOf_ne_nil segs) post (pre ++ [(p, h)]) sm2 sm
      (registryInv_Handle hi1 p h hH) h2 hlater (live_after_Handle hi1 p h M segs hp hH)

theorem shadows_cons_same (r : Step) (τ σ : List Step) :
    shadows (r :: τ) (r :: σ) = shadows τ σ := by
  cases σ with
  | nil =>
    cases τ with
    | nil => simp [shadows]
    | cons t τ => simp [shadows]
  | cons e σ => simp [shadows]

theorem shadows_of_common_walk : ∀ (ρ τ σ : List Step) (k : Str),
    (ρ ++ [.par]) <+: τ → (ρ ++ [.lit k]) <+: σ → ρ ++ [.lit k] ≠ σ → shadows τ σ = true := by
  intro ρ
  induction ρ with
  | nil =>
    intro τ σ k h1 h2 hne
    obtain ⟨t1, rfl⟩ := h1
    obtain ⟨t2, rfl⟩ := h2
    cases t2 with
    | nil => exact absurd rfl hne
    | cons e t2 => simp [shadows]
  | cons r ρ ih =>
    intro τ σ k h1 h2 hne
    obtain ⟨t1, rfl⟩ := h1
    obtain ⟨t2, rfl⟩ := h2
    have hrec : shadows (ρ ++ [.par] ++ t1) (ρ ++ [.lit k] ++ t2) = true :=
      ih _ _ k ⟨t1, rfl⟩ ⟨t2, rfl⟩ (by
        intro hh
        apply hne
        have := congrArg (fun l => r :: l) hh
        simpa using this)
    rw [List.cons_append, List.cons_append, List.cons_append, List.cons_append,
      shadows_cons_same]
    exact hrec

theorem noParBeside_of_shadows {M : Str} {ops : List (Str × Option Handler)} {root : node}
    (hinv : TrieInv M ops root) (σ : List Step)
    (hsh : ∀ q ∈ ops, patMethod q.1 = some M →
      shadows (stepsOf (patSegments q.1)) σ = false) : NoParBeside root σ := by
  intro ρ k x' hpre hne hx'
  cases hns : x'.nonstatic with
  | none => rfl
  | some c =>
    exfalso
    have hd : descend root (ρ ++ [.par]) = some c := by
      rw [descend_append root ρ _ x' hx', descend_par_some x' c hns]
      rfl
    obtain ⟨q, hq, segsq, hv, hpre', _⟩ := hinv.nodes _ c hd (by simp)
    obtain ⟨hpm, hps⟩ := patMethod_of_vals q.1 M segsq hv
    have := hsh q hq hpm
    rw [hps, shadows_of_common_walk ρ _ σ k hpre' hpre hne] at this
    exact Bool.noConfusion this

theorem noLitBeside_of_reading {M : Str} {ops : List (Str × Option Handler)} {root : node}
    (hinv : TrieInv M ops root) (σ : List Step) (toks : List Str)
    (hlit : ∀ q ∈ ops, patMethod q.1 = some M →
      some (stepsOf (patSegments q.1)) ≠ literalReading σ toks) : NoLitBeside root σ toks := by
  intro hlast v c hv hd
  cases he : c.end_ with
  | false => rfl
  | true =>
    exfalso
    obtain ⟨q, hq, segsq, hvq, hsteps, _⟩ := hinv.ends _ c hd he
    obtain ⟨hpm, hps⟩ := patMethod_of_vals q.1 M segsq hvq
    apply hlit q hq hpm
    rw [hps, hsteps]
    simp [literalReading, hlast, hv]

theorem keysBorne_of_inv {M : Str} {ops : List (Str × Option Handler)} {root : node}
    (hinv : TrieInv M ops root) : KeysBorne root :=
  fun ρ k c hd => trieInv_key hinv ρ k c hd

theorem split_vals_len (path : Str) : (split path).len = (split path).vals.length ∧
    (split path).keys = none := by
  by_cases hp : path = []
  · subst hp
    exact ⟨rfl, rfl⟩
  · rw [split_of_ne_nil path hp]
    exact ⟨rfl, rfl⟩

theorem invoke_of_ne_none (h : Option Handler) (ctx : Option arguments) (hh : h ≠ none) :
    invoke h ctx = .ok (.served h ctx) := by
  cases h with
  | none => exact absurd rfl hh
  | some a => rfl

/-- The dispatch of a path that the matcher routes along the segments `ks`
to a terminal node. -/
theorem ServeHTTP_of_routed (sm : ServeMux) (M path : Str) (root d : node) (ks : List Str)
    (hroot : mapGet sm.methods M = some root) (hks : ks ≠ [])
    (hrouted : Routed root ks (split path).vals d) (he : d.end_ = true) :
    ServeHTTP sm M path = invoke d.handler (some
      { keys := routeKeys (split path).len 0 root ks none,
        vals := (split path).vals, len := (split path).len }) := by
  obtain ⟨hlen, hkeys⟩ := split_vals_len path
  have hlen0 : (split path).len ≠ 0 := by
    rw [hlen]
    have := Routed_length _ _ _ _ hrouted
    have h2 := List.length_pos.2 hks
    omega
  have hsl := searchLoop_routed (split path).len ks (split path).vals root d 0 none
    none hrouted he (by rw [hlen]; simp) (fun ks hks => Option.noConfusion hks)
  unfold ServeHTTP
  simp only [hroot]
  unfold search
  rw [if_neg hlen0, hkeys, hsl]
  simp only [Bool.not_true, Bool.false_eq_true, if_false]
  rw [if_pos (Nat.pos_of_ne_zero hlen0)]

/-- The dispatch of a path along a live, unshadowed pattern. -/
theorem dispatch_routed (pre post : List (Str × Option Handler)) (p : Str)
    (h : Option Handler) (sm : ServeMux) (hb : build (pre ++ (p, h) :: post) = .ok sm)
    (M : Str) (segs : List Str) (hp : (split p).vals = M :: segs) (path : Str)
    (hfit : Fits (stepsOf segs) (split path).vals)
    (hlater : ∀ q ∈ post, patMethod q.1 = some M →
      overwrites (patSegments q.1) (stepsOf segs) = false)
    (hshadow : ∀ q ∈ pre ++ (p, h) :: post, patMethod q.1 = some M →
      shadows (stepsOf (patSegments q.1)) (stepsOf segs) = false)
    (hlit : ∀ q ∈ pre ++ (p, h) :: post, patMethod q.1 = some M →
      some (stepsOf (patSegments q.1)) ≠ literalReading (stepsOf segs) (split path).vals) :
    ∃ root d, mapGet sm.methods M = some root ∧
      descend root (stepsOf segs) = some d ∧ TrieInv M (pre ++ (p, h) :: post) root ∧
      ServeHTTP sm M path = invoke h (some
        { keys := routeKeys (split path).len 0 root (keySegs segs) none,
          vals := (split path).vals, len := (split path).len }) := by
  obtain ⟨root, d, hroot, hd, he, hh⟩ := live_build pre post p h sm hb M segs hp hlater
  have hinv := (registryInv_build _ sm hb M root hroot).1
  have hσ := stepsOf_eq_keySegs segs
  have hrouted : Routed root (keySegs segs) (split path).vals d := by
    refine routed_of_clear _ _ root d (by rw [← hσ]; exact hd) (keySegs_ne_nil segs)
      (by rw [← hσ]; exact hfit) ?_ ?_ (keysBorne_of_inv hinv)
    · rw [← hσ]
      exact noParBeside_of_shadows hinv _ hshadow
    · rw [← hσ]
      exact noLitBeside_of_reading hinv _ _ hlit
  refine ⟨root, d, hroot, hd, hinv, ?_⟩
  rw [ServeHTTP_of_routed sm M path root d (keySegs segs) hroot (keySegs_ne_nil segs) hrouted he,
    hh]

theorem namesBorne_shift {x c : node} {s : Str} {ss : List Str}
    (h : NamesBorne x (s :: ss)) (hc : descend x [stepOf s] = some c) : NamesBorne c ss := by
  intro ρ d seg hpre hd hseg
  refine h (stepOf s :: ρ) d seg ?_ ?_ ?_
  · rw [List.map_cons, List.cons_append]
    exact (List.cons_prefix_cons).2 ⟨rfl, hpre⟩
  · rw [List.cons_append, descend_cons x c _ hc]
    exact hd
  · simpa using hseg

theorem routeKeys_eq_bindKeys (len : Nat) :
    ∀ (segs : List Str) (x d : node) (idx : Nat) (keys : Option (List Str)),
      descend x (segs.map stepOf) = some d → NamesBorne x segs →
      routeKeys len idx x segs keys = bindKeys len idx segs keys := by
  intro segs
  induction segs with
  | nil => intro x d idx keys _ _; rfl
  | cons s ss ih =>
    intro x d idx keys hd hn
    rw [List.map_cons] at hd
    obtain ⟨c, hc, hcd⟩ := descend_cons_some x d _ _ hd
    by_cases hs : isStatic s = true
    · have hstep : stepOf s = .lit s := by simp [stepOf, hs]
      have hc' := hc
      rw [hstep] at hc'
      simp only [routeKeys, bindKeys, hs, if_true, descend_single_lit x c s hc']
      exact ih c d (idx + 1) keys hcd (namesBorne_shift hn hc)
    · have hs' : isStatic s = false := by simpa using hs
      have hstep : stepOf s = .par := by simp [stepOf, hs']
      have hc' := hc
      rw [hstep] at hc'
      have hres : c.res = trimLeft ':' s :=
        hn [] c s (by simp [hstep]) hc' (by simp)
      simp only [routeKeys, bindKeys, hs', Bool.false_eq_true, if_false,
        descend_single_par x c hc', hres]
      exact ih c d (idx + 1) _ hcd (namesBorne_shift hn hc)

theorem namesAgree_of_common_walk : ∀ (ρ : List Step) (segsq segs : List Str) (a b : Str),
    (ρ ++ [.par]) <+: segsq.map stepOf → (ρ ++ [.par]) <+: segs.map stepOf →
    namesAgree segsq segs = true → segsq.get? ρ.length = some a → segs.get? ρ.length = some b →
    trimLeft ':' a = trimLeft ':' b := by
  intro ρ
  induction ρ with
  | nil =>
    intro segsq segs a b h1 h2 hna ha hb
    cases segsq with
    | nil => simp at ha
    | cons a0 as =>
      cases segs with
      | nil => simp at hb
      | cons b0 bs =>
        simp only [List.length_nil, List.get?_cons_zero, Option.some.injEq] at ha hb
        subst ha
        subst hb
        simp only [List.nil_append, List.map_cons, List.cons_prefix_cons] at h1 h2
        have hsa := stepOf_eq_par a0 h1.1.symm
        simp only [namesAgree, ← h1.1, ← h2.1, if_true, hsa, Bool.false_or,
          Bool.and_eq_true, beq_iff_eq] at hna
        exact hna.1
  | cons r ρ ih =>
    intro segsq segs a b h1 h2 hna ha hb
    cases segsq with
    | nil => simp at ha
    | cons a0 as =>
      cases segs with
      | nil => simp at hb
      | cons b0 bs =>
        simp only [List.length_cons, List.get?_cons_succ] at ha hb
        simp only [List.cons_append, List.map_cons, List.cons_prefix_cons] at h1 h2
        simp only [namesAgree, ← h1.1, ← h2.1, if_true, Bool.and_eq_true] at hna
        exact ih as bs a b h1.2 h2.2 hna.2 ha hb

theorem namesBorne_of_agree {M : Str} {ops : List (Str × Option Handler)} {root : node}
    (hinv : TrieInv M ops root) (segs : List Str)
    (hna : ∀ q ∈ ops, patMethod q.1 = some M → namesAgree (patSegments q.1) segs = true) :
    NamesBorne root (keySegs segs) := by
  intro ρ c seg hpre hd hseg
  obtain ⟨q, hq, segsq, hv, hpre', hname⟩ := trieInv_last_edge hinv ρ .par c hd
  obtain ⟨hpm, hps⟩ := patMethod_of_vals q.1 M segsq hv
  have hag := hna q hq hpm
  rw [hps] at hag
  rcases hname with ⟨_, _, he, _⟩ | ⟨segq, hsegq, _, hres⟩
  · exact Step.noConfusion he
  · cases segs with
    | nil =>
      exfalso
      simp only [keySegs, List.map_cons, List.map_nil] at hpre
      have := prefix_last_get ρ .par _ hpre
      cases ρ with
      | nil =>
        simp [stepOf, isStatic, startsWith] at this
      | cons r ρ => simp at this
    | cons s ss =>
      cases segsq with
      | nil => simp at hsegq
      | cons sq ssq =>
        rw [hres]
        exact namesAgree_of_common_walk ρ (sq :: ssq) (s :: ss) segq seg hpre' hpre hag hsegq hseg

theorem set_append_length {α : Type} (pre : List α) (a b : α) (rest : List α) :
    (pre ++ a :: rest).set pre.length b = pre ++ b :: rest := by
  induction pre with
  | nil => rfl
  | cons x pre ih => simp [ih]

theorem bindKeys_some (len : Nat) : ∀ (segs : List Str) (idx : Nat) (pre : List Str)
    (n : Nat), pre.length = idx →
    bindKeys len idx segs (some (pre ++ List.replicate (segs.length + n) [])) =
      some (pre ++ segs.map keyName ++ List.replicate n []) := by
  intro segs
  induction segs with
  | nil =>
    intro idx pre n _
    simp [bindKeys]
  | cons s ss ih =>
    intro idx pre n hpre
    have hrep : List.replicate ((s :: ss).length + n) ([] : Str) =
        [] :: List.replicate (ss.length + n) [] := by
      simp only [List.length_cons]
      rw [show ss.length + 1 + n = (ss.length + n) + 1 by omega, List.replicate_succ]
    rw [hrep]
    by_cases hs : isStatic s = true
    · simp only [bindKeys, hs, if_true]
      have := ih (idx + 1) (pre ++ [[]]) n (by simp [hpre])
      simp only [List.append_assoc, List.singleton_append] at this
      rw [this]
      simp [keyName, hs]
    · have hs' : isStatic s = false := by simpa using hs
      simp only [bindKeys, hs', Bool.false_eq_true, if_false]
      rw [← hpre, set_append_length]
      have := ih (pre.length + 1) (pre ++ [trimLeft ':' s]) n (by simp)
      simp only [List.append_assoc, List.singleton_append] at this
      rw [this]
      simp [keyName, hs']

theorem bindKeys_none : ∀ (segs : List Str) (idx n : Nat),
    bindKeys (idx + segs.length + n) idx segs none =
      if segs.all isStatic then none
      else some (List.replicate idx [] ++ segs.map keyName ++ List.replicate n []) := by
  intro segs
  induction segs with
  | nil => intro idx n; simp [bindKeys]
  | cons s ss ih =>
    intro idx n
    by_cases hs : isStatic s = true
    · simp only [bindKeys, hs, if_true, List.all_cons, Bool.true_and]
      have := ih (idx + 1) n
      rw [show idx + 1 + ss.length + n = idx + (s :: ss).length + n by
        simp only [List.length_cons]; omega] at this
      rw [this]
      by_cases hall : ss.all isStatic = true
      · simp [hall]
      · simp only [hall, Bool.false_eq_true, if_false, Option.some.injEq]
        simp only [List.map_cons, keyName, hs, if_true]
        rw [List.replicate_succ']
        simp
    · have hs' : isStatic s = false := by simpa using hs
      simp only [bindKeys, hs', Bool.false_eq_true, if_false, List.all_cons, Bool.false_and]
      have hrep : List.replicate (idx + (s :: ss).length + n) ([] : Str) =
          List.replicate idx [] ++ [] :: List.replicate (ss.length + n) [] := by
        simp only [List.length_cons]
        rw [show idx + (ss.length + 1) + n = idx + ((ss.length + n) + 1) by omega,
          List.replicate_add, List.replicate_succ]
      rw [hrep]
      have hl : (List.replicate idx ([] : Str)).length = idx := by simp
      have hset := set_append_length (List.replicate idx ([] : Str)) [] (trimLeft ':' s)
        (List.replicate (ss.length + n) [])
      rw [hl] at hset
      rw [hset]
      have := bindKeys_some (idx + (s :: ss).length + n) ss (idx + 1)
        (List.replicate idx [] ++ [trimLeft ':' s]) n (by simp)
      simp only [List.append_assoc, List.singleton_append] at this
      rw [this]
      simp [keyName, hs']

theorem valuesOf_mapSet (res : List (Str × List Str)) (key k : Str) (l : List Str) :
    valuesOf (mapSet res key l) k = if key = k then l else valuesOf res k := by
  unfold valuesOf
  by_cases hk : key = k
  · subst hk
    simp [mapGet_mapSet_same]
  · simp [mapGet_mapSet_other _ _ _ _ hk, hk]

theorem fromContextLoop_values (vals : List Str) :
    ∀ (keys : List Str) (i : Nat) (res : List (Str × List Str)),
      i + keys.length ≤ vals.length →
      ∃ out, fromContextLoop vals keys i res = .ok out ∧
        ∀ k, valuesOf out k = valuesOf res k ++ pick k keys (vals.drop i) := by
  intro keys
  induction keys with
  | nil =>
    intro i res _
    exact ⟨res, rfl, fun k => by simp [pick]⟩
  | cons key ks ih =>
    intro i res hlen
    simp only [List.length_cons] at hlen
    have hi : i < vals.length := by omega
    have hget : vals.get? i = some (vals.get ⟨i, hi⟩) := List.get?_eq_get hi
    have hdrop : vals.drop i = vals.get ⟨i, hi⟩ :: vals.drop (i + 1) := by
      rw [List.drop_eq_getElem_cons hi]
      rfl
    obtain ⟨out, hout, hvals⟩ := ih (i + 1)
      (mapSet res key (valuesOf res key ++ [vals.get ⟨i, hi⟩])) (by omega)
    refine ⟨out, ?_, ?_⟩
    · simp only [fromContextLoop, hget]
      exact hout
    · intro k
      rw [hvals k, valuesOf_mapSet, hdrop]
      by_cases hk : key = k
      · subst hk
        simp [pick]
      · simp [pick, hk]

theorem pick_keyName (name : Str) (hname : name ≠ []) :
    ∀ (segs toks : List Str), pick name (segs.map keyName) toks = paramValues name segs toks := by
  intro segs
  induction segs with
  | nil => intro toks; simp [pick, paramValues]
  | cons s ss ih =>
    intro toks
    cases toks with
    | nil => simp [pick, paramValues]
    | cons t ts =>
      by_cases hs : isStatic s = true
      · have hk : keyName s ≠ name := by
          simp only [keyName, hs, if_true]
          exact fun h => hname h.symm
        simp [pick, paramValues, hk, hs, ih ts]
      · have hs' : isStatic s = false := by simpa using hs
        simp only [List.map_cons, pick, paramValues, keyName, hs', Bool.false_eq_true, if_false,
          true_and, ih ts]

theorem paramValues_all_static (name : Str) :
    ∀ (segs toks : List Str), segs.all isStatic = true → paramValues name segs toks = [] := by
  intro segs
  induction segs with
  | nil => intro toks _; simp [paramValues]
  | cons s ss ih =>
    intro toks hall
    simp only [List.all_cons, Bool.and_eq_true] at hall
    cases toks with
    | nil => simp [paramValues]
    | cons t ts => simp [paramValues, hall.1, ih ts hall.2]

theorem paramValues_keySegs (name : Str) (segs toks : List Str) :
    paramValues name (keySegs segs) toks = paramValues name segs toks := by
  cases segs with
  | cons s ss => rfl
  | nil =>
    cases toks with
    | nil => simp [paramValues, keySegs]
    | cons t ts => simp [paramValues, keySegs, isStatic, startsWith]

/-- The carrier `fromContext` builds from the keys the matcher binds along
the segments `segs`. -/
theorem fromContext_bindKeys (segs toks : List Str) (hlen : toks.length = segs.length) :
    ∃ out, fromContext (some (arguments.mk (bindKeys toks.length 0 segs none) toks
        toks.length)) = .ok (some out) ∧
      ∀ name, name ≠ [] → valuesOf out name = paramValues name segs toks := by
  have hb := bindKeys_none segs 0 0
  simp only [Nat.zero_add, Nat.add_zero, List.replicate_zero, List.nil_append,
    List.append_nil] at hb
  rw [hlen, hb]
  unfold fromContext
  by_cases hall : segs.all isStatic = true
  · refine ⟨[], by simp [hall, fromContextLoop], ?_⟩
    intro name _
    rw [paramValues_all_static name segs toks hall]
    rfl
  · simp only [hall, Bool.false_eq_true, if_false]
    obtain ⟨out, hout, hvals⟩ := fromContextLoop_values toks (segs.map keyName) 0 []
      (by simp [hlen])
    refine ⟨out, by rw [hout], ?_⟩
    intro name hname
    rw [hvals name, List.drop_zero, pick_keyName name hname]
    rfl

theorem Fits_length : ∀ (π : List Step) (toks : List Str), Fits π toks → toks.length = π.length := by
  intro π
  induction π with
  | nil =>
    intro toks h
    cases toks with
    | nil => rfl
    | cons t ts => simp [Fits] at h
  | cons s π ih =>
    intro toks h
    cases toks with
    | nil => simp [Fits] at h
    | cons t ts =>
      simp only [Fits] at h
      simp [ih ts h.2]

theorem Handle_other_lookup (sm sm' : ServeMux) (p : Str) (h : Option Handler)
    (hH : Handle sm p h = .ok sm') (M : Str) (hM : (split p).vals.head? ≠ some M) :
    mapGet sm'.methods M = mapGet sm.methods M := by
  unfold Handle at hH
  cases hv : (split p).vals with
  | nil =>
    rw [hv] at hH
    exact Except.noConfusion hH
  | cons m segs =>
    have hne : m ≠ M := by
      intro hh
      apply hM
      rw [hv, hh]
      rfl
    rw [hv] at hH
    simp only at hH
    cases hm : mapGet sm.methods m with
    | some r =>
      simp only [hm] at hH
      cases ha : add r segs h 0 with
      | error e =>
        rw [ha] at hH
        exact Except.noConfusion hH
      | ok r' =>
        rw [ha] at hH
        simp only [Except.ok.injEq] at hH
        subst hH
        exact mapGet_mapSet_other _ _ _ _ hne
    | none =>
      simp only [hm, mapGet_mapSet_same] at hH
      cases ha : add (newNode m nodeKindMethod) segs h 0 with
      | error e =>
        rw [ha] at hH
        exact Except.noConfusion hH
      | ok r' =>
        rw [ha] at hH
        simp only [Except.ok.injEq] at hH
        subst hH
        simp only
        rw [mapGet_mapSet_other _ _ _ _ hne, mapGet_mapSet_other _ _ _ _ hne]

theorem staticReturn_eq_litChild (len idx : Nat) (n : node) (res : Str) :
    staticReturn len idx n res =
      match litChild n res with
      | none => none
      | some c =>
        if c.end_ ∧ len = idx + 1 then
          (if c.res = res then some (c.handler, true) else some (none, false))
        else none := by
  unfold staticReturn litChild staticMap
  cases n.static with
  | none => simp [mapGet]
  | some m => rfl

theorem pick_eq_zip (k : Str) : ∀ (keys vals : List Str),
    pick k keys vals = ((keys.zip vals).filter (fun (kv : Str × Str) => kv.1 = k)).map Prod.snd := by
  intro keys
  induction keys with
  | nil => intro vals; simp [pick]
  | cons key ks ih =>
    intro vals
    cases vals with
    | nil => simp [pick]
    | cons v vs =>
      by_cases hk : key = k
      · simp [pick, hk, ih vs, List.filter_cons]
      · simp [pick, hk, ih vs, List.filter_cons]

theorem pick_take (k : Str) : ∀ (keys vals : List Str),
    pick k keys vals = pick k keys (vals.take keys.length) := by
  intro keys
  induction keys with
  | nil => intro vals; simp [pick]
  | cons key ks ih =>
    intro vals
    cases vals with
    | nil => simp [pick]
    | cons v vs =>
      simp only [List.length_cons, List.take_succ_cons, pick]
      rw [← ih vs]

theorem build_induct (P : List (Str × Option Handler) → ServeMux → Prop)
    (h0 : P [] NewServeMux)
    (hstep : ∀ ops sm p h sm', P ops sm → RegistryInv ops sm → Handle sm p h = .ok sm' →
      P (ops ++ [(p, h)]) sm') :
    ∀ ops sm, build ops = .ok sm → P ops sm := by
  have key : ∀ (ops ops0 : List (Str × Option Handler)) (sm0 sm : ServeMux),
      P ops0 sm0 → RegistryInv ops0 sm0 → handleAll sm0 ops = .ok sm → P (ops0 ++ ops) sm := by
    intro ops
    induction ops with
    | nil =>
      intro ops0 sm0 sm hP _ hh
      simp only [handleAll, Except.ok.injEq] at hh
      subst hh
      simpa using hP
    | cons q ops ih =>
      intro ops0 sm0 sm hP hi hh
      obtain ⟨p, h⟩ := q
      simp only [handleAll] at hh
      cases hH : Handle sm0 p h with
      | error e =>
        rw [hH] at hh
        exact Except.noConfusion hh
      | ok sm1 =>
        rw [hH] at hh
        have := ih (ops0 ++ [(p, h)]) sm1 sm (hstep ops0 sm0 p h sm1 hP hi hH)
          (registryInv_Handle hi p h hH) hh
        simpa using this
  intro ops sm hb
  have h00 : RegistryInv [] NewServeMux := by
    intro M root hroot
    simp [NewServeMux, mapGet] at hroot
  simpa using key ops [] NewServeMux sm h0 h00 hb

theorem handlerAtEnd_child {x c : node} {e : Step} (h : HandlerAtEnd x)
    (hc : descend x [e] = some c) : HandlerAtEnd c := by
  intro π d hd he
  exact h (e :: π) d (by rw [descend_cons x c e hc]; exact hd) he

theorem handlerAtEnd_newNode (res : Str) (kind : Nat) : HandlerAtEnd (newNode res kind) := by
  intro π d hd _
  cases π with
  | nil =>
    simp only [descend, Option.some.injEq] at hd
    subst hd
    rfl
  | cons e π =>
    rw [descend_newNode _ _ _ (by simp)] at hd
    exact Option.noConfusion hd

theorem handlerAtEnd_litChildOrNew (c : node) (s : Str) (h : HandlerAtEnd c) :
    HandlerAtEnd (litChildOrNew c s) := by
  cases hx : litChild c s with
  | none =>
    simp only [litChildOrNew, hx]
    exact handlerAtEnd_newNode _ _
  | some x =>
    simp only [litChildOrNew, hx]
    exact handlerAtEnd_child h (by rw [descend_lit_some c x s hx]; rfl)

theorem handlerAtEnd_parChildOrNew (c : node) (s : Str) (h : HandlerAtEnd c) :
    HandlerAtEnd (parChildOrNew c s) := by
  cases hx : c.nonstatic with
  | none =>
    simp only [parChildOrNew, hx]
    exact handlerAtEnd_newNode _ _
  | some x =>
    simp only [parChildOrNew, hx]
    exact handlerAtEnd_child h (by rw [descend_par_some c x hx]; rfl)

theorem handlerAtEnd_insertMark (h : Option Handler) :
    ∀ (segs : List Str) (c : node), HandlerAtEnd c → HandlerAtEnd (insertMark h segs c) := by
  intro segs
  induction segs with
  | nil =>
    intro c hc π d hd he
    rw [insertMark_nil] at hd
    cases π with
    | nil =>
      simp only [descend, Option.some.injEq] at hd
      subst hd
      exact Bool.noConfusion he
    | cons e π =>
      rw [descend_congr { c with handler := h, end_ := true } c rfl rfl (e :: π) (by simp)] at hd
      exact hc _ d hd he
  | cons s rest ih =>
    intro c hc π d hd he
    cases π with
    | nil =>
      simp only [descend, Option.some.injEq] at hd
      subst hd
      obtain ⟨he', hh'⟩ := (insertMark_end h (s :: rest) c).2 (by simp)
      rw [hh']
      exact hc [] c rfl (by rw [← he']; exact he)
    | cons e π =>
      by_cases hs : isStatic s = true
      · cases e with
        | par =>
          rw [descend_insertMark_par_static h s rest c hs] at hd
          exact hc _ d hd he
        | lit k =>
          by_cases hk : s = k
          · subst hk
            rw [descend_insertMark_lit_same h s rest c hs] at hd
            exact ih _ (handlerAtEnd_litChildOrNew c s hc) π d hd he
          · rw [descend_insertMark_lit_other h s rest c k hk] at hd
            exact hc _ d hd he
      · have hs' : isStatic s = false := by simpa using hs
        cases e with
        | lit k =>
          rw [descend_insertMark_lit_param h s rest c hs'] at hd
          exact hc _ d hd he
        | par =>
          rw [descend_insertMark_par_same h s rest c hs'] at hd
          exact ih _ (handlerAtEnd_parChildOrNew c s hc) π d hd he

theorem handlerAtEnd_register (h : Option Handler) (segs : List Str) (n : node)
    (hn : HandlerAtEnd n) : HandlerAtEnd (register h segs n) := by
  cases segs with
  | cons s rest =>
    rw [register_cons]
    exact handlerAtEnd_insertMark h (s :: rest) n hn
  | nil =>
    intro π d hd he
    cases π with
    | nil =>
      simp only [descend, Option.some.injEq] at hd
      subst hd
      exact hn [] n rfl he
    | cons t π =>
      by_cases ht : t = .lit []
      · subst ht
        rw [descend_register_nil_root] at hd
        have hnil : π = [] := by
          by_contra hne
          rw [descend_rootLeaf h π hne] at hd
          exact Option.noConfusion hd
        subst hnil
        simp only [descend, Option.some.injEq] at hd
        subst hd
        exact Bool.noConfusion he
      · rw [descend_register_nil_other h n (t :: π) (by simp) (by simpa using ht)] at hd
        exact hn _ d hd he

theorem handlerAtEnd_build (ops : List (Str × Option Handler)) (sm : ServeMux)
    (hb : build ops = .ok sm) :
    ∀ M root, mapGet sm.methods M = some root → HandlerAtEnd root := by
  refine build_induct (fun _ sm => ∀ M root, mapGet sm.methods M = some root →
    HandlerAtEnd root) ?_ ?_ ops sm hb
  · intro M root hroot
    simp [NewServeMux, mapGet] at hroot
  · intro ops sm p h sm' hP hi hH M root hroot
    obtain ⟨m, segs, _, hm, hother⟩ :=
      Handle_lookup sm sm' p h (fun M r hr => (hi M r hr).1.static_ne) hH
    by_cases hM : m = M
    · subst hM
      rw [hm] at hroot
      rw [← Option.some.inj hroot]
      apply handlerAtEnd_register
      unfold methodRoot
      cases hx : mapGet sm.methods m with
      | none => exact handlerAtEnd_newNode _ _
      | some r => exact hP m r hx
    · rw [hother M hM] at hroot
      exact hP M root hroot

theorem add_never_out_of_fuel (n : node) (path : List Str) (h : Option Handler) (idx : Nat) :
    add n path h idx ≠ .error .outOfFuel := by
  unfold add
  by_cases hp : path = []
  · subst hp
    unfold addAux
    by_cases hi : idx = 0
    · subst hi
      simp only [List.length_nil, and_self, if_true]
      cases n.static with
      | none => simp
      | some m => simp
    · simp [hi]
  · by_cases hle : idx ≤ path.length
    · rw [addAux_eq_insertFrom h path hp (path.length + 1) idx n hle (by omega)]
      simp
    · unfold addAux
      have hlen : path.length ≠ 0 := fun h0 => hp (List.length_eq_zero.1 h0)
      rw [if_neg (by omega), if_pos (Or.inr (by omega))]
      simp

theorem label_nil (n : node) : label n [] = some (n.end_, n.handler) := rfl

theorem label_cons (x c : node) (e : Step) (hc : descend x [e] = some c) (π : List Step) :
    label x (e :: π) = label c π := by
  unfold label
  rw [descend_cons x c e hc]

theorem label_cons_none (x : node) (e : Step) (hc : descend x [e] = none) (π : List Step) :
    label x (e :: π) = none := by
  unfold label
  have : descend x (e :: π) = none := by
    cases hd : descend x (e :: π) with
    | none => rfl
    | some d =>
      obtain ⟨c, hc', _⟩ := descend_cons_some x d e π hd
      rw [hc] at hc'
      exact Option.noConfusion hc'
  rw [this]

theorem label_newNode (res : Str) (kind : Nat) (π : List Step) :
    label (newNode res kind) π = if π = [] then some (false, none) else none := by
  by_cases hπ : π = []
  · subst hπ
    rfl
  · unfold label
    rw [descend_newNode res kind π hπ, if_neg hπ]

theorem label_of_descend_eq (n n' : node) (π : List Step) (h : descend n π = descend n' π) :
    label n π = label n' π := by
  unfold label
  rw [h]

theorem descend_single_litChildOrNew (c : node) (s : Str) :
    (∃ x, descend c [.lit s] = some x ∧ litChildOrNew c s = x) ∨
      (descend c [.lit s] = none ∧ litChildOrNew c s = newNode s nodeKindStatic) := by
  cases hx : litChild c s with
  | none =>
    right
    exact ⟨descend_lit_none c s hx [], by simp [litChildOrNew, hx]⟩
  | some x =>
    left
    exact ⟨x, by rw [descend_lit_some c x s hx]; rfl, by simp [litChildOrNew, hx]⟩

theorem descend_single_parChildOrNew (c : node) (s : Str) :
    (∃ x, descend c [.par] = some x ∧ parChildOrNew c s = x) ∨
      (descend c [.par] = none ∧ parChildOrNew c s = newNode s nodeKindNonStatic) := by
  cases hx : c.nonstatic with
  | none =>
    right
    exact ⟨descend_par_none c hx [], by simp [parChildOrNew, hx]⟩
  | some x =>
    left
    exact ⟨x, by rw [descend_par_some c x hx]; rfl, by simp [parChildOrNew, hx]⟩

/-- The step of `label_insertMark` along the edge of the first segment. -/
theorem label_insertMark_step (h : Option Handler) (rest : List Str) (c c0 : node) (e : Step)
    (π : List Step)
    (hc0 : (∃ x, descend c [e] = some x ∧ c0 = x) ∨
      (descend c [e] = none ∧ ∃ res kind, c0 = newNode res kind))
    (ih : (π = rest.map stepOf → label (insertMark h rest c0) π = some (true, h)) ∧
      (π ≠ rest.map stepOf → π <+: rest.map stepOf →
        label (insertMark h rest c0) π = some (labelOrNew (label c0 π))) ∧
      (¬ π <+: rest.map stepOf → label (insertMark h rest c0) π = label c0 π)) :
    (e :: π = e :: rest.map stepOf → label (insertMark h rest c0) π = some (true, h)) ∧
    (e :: π ≠ e :: rest.map stepOf → (e :: π) <+: (e :: rest.map stepOf) →
      label (insertMark h rest c0) π = some (labelOrNew (label c (e :: π)))) ∧
    (¬ (e :: π) <+: (e :: rest.map stepOf) →
      label (insertMark h rest c0) π = label c (e :: π)) := by
  obtain ⟨ih1, ih2, ih3⟩ := ih
  refine ⟨fun hh => ih1 (List.cons.inj hh).2, ?_, ?_⟩
  · intro hne hpre
    have hne' : π ≠ rest.map stepOf := fun hh => hne (by rw [hh])
    have hpre' : π <+: rest.map stepOf := ((List.cons_prefix_cons).1 hpre).2
    rw [ih2 hne' hpre']
    rcases hc0 with ⟨x, hx, rfl⟩ | ⟨hnone, res, kind, rfl⟩
    · rw [label_cons c c0 e hx]
    · rw [label_cons_none c e hnone, label_newNode]
      by_cases hπ : π = []
      · simp [hπ, labelOrNew]
      · simp [hπ, labelOrNew]
  · intro hnp
    have hnp' : ¬ π <+: rest.map stepOf := fun hh => hnp ((List.cons_prefix_cons).2 ⟨rfl, hh⟩)
    rw [ih3 hnp']
    rcases hc0 with ⟨x, hx, rfl⟩ | ⟨hnone, res, kind, rfl⟩
    · rw [label_cons c c0 e hx]
    · rw [label_cons_none c e hnone, label_newNode]
      have hπ : π ≠ [] := by
        intro hh
        apply hnp'
        rw [hh]
        exact List.nil_prefix
      simp [hπ]

theorem label_insertMark (h : Option Handler) :
    ∀ (segs : List Str) (c : node) (π : List Step),
      (π = segs.map stepOf → label (insertMark h segs c) π = some (true, h)) ∧
      (π ≠ segs.map stepOf → π <+: segs.map stepOf →
        label (insertMark h segs c) π = some (labelOrNew (label c π))) ∧
      (¬ π <+: segs.map stepOf → label (insertMark h segs c) π = label c π) := by
  intro segs
  induction segs with
  | nil =>
    intro c π
    rw [insertMark_nil]
    refine ⟨?_, ?_, ?_⟩
    · intro hπ
      rw [hπ]
      rfl
    · intro hne hpre
      exact absurd (List.prefix_nil.1 hpre) hne
    · intro hnp
      have hπ : π ≠ [] := by
        intro hh
        apply hnp
        rw [hh]
        exact List.nil_prefix
      exact label_of_descend_eq _ _ π
        (descend_congr { c with handler := h, end_ := true } c rfl rfl π hπ)
  | cons s rest ih =>
    intro c π
    cases π with
    | nil =>
      refine ⟨fun hh => by simp at hh, ?_, fun hnp => absurd List.nil_prefix hnp⟩
      intro _ _
      rw [label_nil, label_nil]
      obtain ⟨he, hh⟩ := (insertMark_end h (s :: rest) c).2 (by simp)
      rw [he, hh]
      rfl
    | cons e π =>
      have hunch : descend (insertMark h (s :: rest) c) (e :: π) = descend c (e :: π) →
          e ≠ stepOf s →
          (e :: π = (s :: rest).map stepOf →
            label (insertMark h (s :: rest) c) (e :: π) = some (true, h)) ∧
          (e :: π ≠ (s :: rest).map stepOf → (e :: π) <+: (s :: rest).map stepOf →
            label (insertMark h (s :: rest) c) (e :: π) = some (labelOrNew (label c (e :: π)))) ∧
          (¬ (e :: π) <+: (s :: rest).map stepOf →
            label (insertMark h (s :: rest) c) (e :: π) = label c (e :: π)) := by
        intro hd hne
        refine ⟨?_, ?_, fun _ => label_of_descend_eq _ _ _ hd⟩
        · intro hh
          rw [List.map_cons] at hh
          exact absurd (List.cons.inj hh).1 hne
        · intro _ hpre
          rw [List.map_cons] at hpre
          exact absurd ((List.cons_prefix_cons).1 hpre).1 hne
      by_cases hs : isStatic s = true
      · have hstep : stepOf s = .lit s := by simp [stepOf, hs]
        cases e with
        | par =>
          exact hunch (descend_insertMark_par_static h s rest c hs π)
            (by rw [hstep]; exact fun hh => Step.noConfusion hh)
        | lit k =>
          by_cases hk : s = k
          · subst hk
            have hl : label (insertMark h (s :: rest) c) (.lit s :: π) =
                label (insertMark h rest (litChildOrNew c s)) π := by
              unfold label
              rw [descend_insertMark_lit_same h s rest c hs]
            have hc0 : (∃ x, descend c [.lit s] = some x ∧ litChildOrNew c s = x) ∨
                (descend c [.lit s] = none ∧ ∃ res kind, litChildOrNew c s = newNode res kind) := by
              rcases descend_single_litChildOrNew c s with hx | ⟨hn, hnew⟩
              · exact Or.inl hx
              · exact Or.inr ⟨hn, _, _, hnew⟩
            rw [List.map_cons, hstep, hl]
            exact label_insertMark_step h rest c _ (.lit s) π hc0 (ih _ π)
          · exact hunch (descend_insertMark_lit_other h s rest c k hk π)
              (by rw [hstep]; exact fun hh => hk (Step.lit.inj hh).symm)
      · have hs' : isStatic s = false := by simpa using hs
        have hstep : stepOf s = .par := by simp [stepOf, hs']
        cases e with
        | lit k =>
          exact hunch (descend_insertMark_lit_param h s rest c hs' k π)
            (by rw [hstep]; exact fun hh => Step.noConfusion hh)
        | par =>
          have hl : label (insertMark h (s :: rest) c) (.par :: π) =
              label (insertMark h rest (parChildOrNew c s)) π := by
            unfold label
            rw [descend_insertMark_par_same h s rest c hs']
          have hc0 : (∃ x, descend c [.par] = some x ∧ parChildOrNew c s = x) ∨
              (descend c [.par] = none ∧ ∃ res kind, parChildOrNew c s = newNode res kind) := by
            rcases descend_single_parChildOrNew c s with hx | ⟨hn, hnew⟩
            · exact Or.inl hx
            · exact Or.inr ⟨hn, _, _, hnew⟩
          rw [List.map_cons, hstep, hl]
          exact label_insertMark_step h rest c _ .par π hc0 (ih _ π)

theorem label_register (h : Option Handler) (segs : List Str) (n : node) (π : List Step) :
    label (register h segs n) π = labelAfter h segs (label n) π := by
  cases segs with
  | cons s rest =>
    rw [register_cons]
    obtain ⟨l1, l2, l3⟩ := label_insertMark h (s :: rest) n π
    simp only [labelAfter, stepsOf_cons]
    by_cases hπ : π = (s :: rest).map stepOf
    · rw [if_pos hπ]
      exact l1 hπ
    · rw [if_neg hπ]
      by_cases hp : π <+: (s :: rest).map stepOf
      · rw [if_pos hp]
        exact l2 hπ hp
      · rw [if_neg hp]
        exact l3 hp
  | nil =>
    simp only [labelAfter]
    cases π with
    | nil =>
      simp only [List.head?_nil]
      rw [if_neg (by simp), if_neg (by simp)]
      rfl
    | cons t π =>
      by_cases ht : t = .lit []
      · subst ht
        have hl : label (register h [] n) (.lit [] :: π) = label (rootLeaf h) π := by
          unfold label
          rw [descend_register_nil_root]
        rw [hl]
        by_cases hπ : π = []
        · subst hπ
          simp [label, descend, rootLeaf]
        · have : label (rootLeaf h) π = none := by
            unfold label
            rw [descend_rootLeaf h π hπ]
          rw [this]
          simp [hπ]
      · have hl : label (register h [] n) (t :: π) = label n (t :: π) :=
          label_of_descend_eq _ _ _
            (descend_register_nil_other h n (t :: π) (by simp) (by simpa using ht))
        rw [hl]
        simp [ht]

theorem labelAfter_target (h : Option Handler) (segs : List Str)
    (ℓ : List Step → Option (Bool × Option Handler)) :
    labelAfter h segs ℓ (stepsOf segs) = some (true, h) := by
  cases segs with
  | nil => simp [labelAfter, stepsOf]
  | cons s rest => simp [labelAfter]

theorem labelAfter_elsewhere (h1 h2 : Option Handler) (segs : List Str)
    (ℓ : List Step → Option (Bool × Option Handler)) (π : List Step) (hπ : π ≠ stepsOf segs) :
    labelAfter h1 segs ℓ π = labelAfter h2 segs ℓ π := by
  cases segs with
  | nil =>
    have : π ≠ [.lit []] := hπ
    simp [labelAfter, this]
  | cons s rest => simp [labelAfter, hπ]

theorem labelOrNew_some (x : Bool × Option Handler) : labelOrNew (some x) = x := rfl

theorem head_of_common_start {α : Type} (π σ : List α) (hp : π <+: σ) (hπ : π ≠ []) :
    π.head? = σ.head? := by
  obtain ⟨t, rfl⟩ := hp
  cases π with
  | nil => exact absurd rfl hπ
  | cons a π => rfl

theorem labelAfter_comm (ha hb : Option Handler) (segsA segsB : List Str)
    (ℓ : List Step → Option (Bool × Option Handler)) (π : List Step)
    (h1 : overwrites segsA (stepsOf segsB) = false)
    (h2 : overwrites segsB (stepsOf segsA) = false) :
    labelAfter hb segsB (labelAfter ha segsA ℓ) π =
      labelAfter ha segsA (labelAfter hb segsB ℓ) π := by
  cases segsA with
  | nil =>
    cases segsB with
    | nil => simp [overwrites, stepsOf] at h1
    | cons b bs =>
      have hhead : (stepsOf (b :: bs)).head? ≠ some (.lit []) := by
        simpa [overwrites] using h1
      have hne : stepsOf (b :: bs) ≠ [.lit []] := by
        intro hh
        rw [hh] at hhead
        exact hhead rfl
      simp only [labelAfter]
      by_cases hπB : π = stepsOf (b :: bs)
      · subst hπB
        simp [hne, hhead]
      · by_cases hp : π <+: stepsOf (b :: bs)
        · have hπ1 : π ≠ [.lit []] := by
            intro hh
            subst hh
            have := head_of_common_start _ _ hp (by simp)
            exact hhead this.symm
          have hπ2 : π.head? ≠ some (.lit []) := by
            intro hh
            have hπne : π ≠ [] := by
              intro h0
              subst h0
              simp at hh
            rw [head_of_common_start _ _ hp hπne] at hh
            exact hhead hh
          simp [hπB, hp, hπ1, hπ2]
        · simp [hπB, hp]
  | cons a as =>
    cases segsB with
    | nil =>
      have hhead : (stepsOf (a :: as)).head? ≠ some (.lit []) := by
        simpa [overwrites] using h2
      have hne : stepsOf (a :: as) ≠ [.lit []] := by
        intro hh
        rw [hh] at hhead
        exact hhead rfl
      simp only [labelAfter]
      by_cases hπA : π = stepsOf (a :: as)
      · subst hπA
        simp [hne, hhead]
      · by_cases hp : π <+: stepsOf (a :: as)
        · have hπ1 : π ≠ [.lit []] := by
            intro hh
            subst hh
            have := head_of_common_start _ _ hp (by simp)
            exact hhead this.symm
          have hπ2 : π.head? ≠ some (.lit []) := by
            intro hh
            have hπne : π ≠ [] := by
              intro h0
              subst h0
              simp at hh
            rw [head_of_common_start _ _ hp hπne] at hh
            exact hhead hh
          simp [hπA, hp, hπ1, hπ2]
        · simp [hπA, hp]
    | cons b bs =>
      have hAB : stepsOf (a :: as) ≠ stepsOf (b :: bs) := by
        simpa [overwrites] using h1
      simp only [labelAfter]
      by_cases hπA : π = stepsOf (a :: as)
      · subst hπA
        by_cases hp : stepsOf (a :: as) <+: stepsOf (b :: bs)
        · simp [hAB, hp, labelOrNew]
        · simp [hAB, hp]
      · by_cases hπB : π = stepsOf (b :: bs)
        · subst hπB
          by_cases hp : stepsOf (b :: bs) <+: stepsOf (a :: as)
          · simp [hπA, hp, labelOrNew]
          · simp [hπA, hp]
        · by_cases hpA : π <+: stepsOf (a :: as)
          · by_cases hpB : π <+: stepsOf (b :: bs)
            · simp [hπA, hπB, hpA, hpB, labelOrNew]
            · simp [hπA, hπB, hpA, hpB]
          · by_cases hpB : π <+: stepsOf (b :: bs)
            · simp [hπA, hπB, hpA, hpB]
            · simp [hπA, hπB, hpA, hpB]

theorem mapSet_mapSet {α : Type} (m : List (Str × α)) (k : Str) (x y : α) :
    mapSet (mapSet m k x) k y = mapSet m k y := by
  induction m with
  | nil => simp [mapSet]
  | cons e m ih =>
    obtain ⟨k0, v⟩ := e
    by_cases hk : k0 = k
    · simp [mapSet, hk]
    · simp [mapSet, hk, ih]

theorem insertMark_twice (h1 h2 : Option Handler) :
    ∀ (segs : List Str) (c : node),
      insertMark h2 segs (insertMark h1 segs c) = insertMark h2 segs c := by
  intro segs
  induction segs with
  | nil =>
    intro c
    simp [insertMark_nil]
  | cons s rest ih =>
    intro c
    by_cases hs : isStatic s = true
    · rw [insertMark_cons_static h1 s rest c hs, insertMark_cons_static h2 s rest _ hs,
        insertMark_cons_static h2 s rest c hs]
      simp only [staticMap, litChildOrNew, litChild, mapGet_mapSet_same, mapSet_mapSet]
      rw [ih]
    · have hs' : isStatic s = false := by simpa using hs
      rw [insertMark_cons_param h1 s rest c hs', insertMark_cons_param h2 s rest _ hs',
        insertMark_cons_param h2 s rest c hs']
      simp only [parChildOrNew]
      rw [ih]

theorem register_twice (h1 h2 : Option Handler) (segs : List Str) (n : node) :
    register h2 segs (register h1 segs n) = register h2 segs n := by
  cases segs with
  | nil => simp [register, staticMap, mapSet_mapSet]
  | cons s rest =>
    rw [register_cons, register_cons, register_cons]
    exact insertMark_twice h1 h2 (s :: rest) n

theorem twin_lit {R : Option Handler → Option Handler → Prop} {n1 n2 : node}
    (ht : Twin R n1 n2) (k : Str) :
    (litChild n1 k = none ∧ litChild n2 k = none) ∨
      ∃ c1 c2, litChild n1 k = some c1 ∧ litChild n2 k = some c2 ∧ Twin R c1 c2 := by
  have h1 := ht [.lit k]
  cases hc1 : litChild n1 k with
  | none =>
    cases hc2 : litChild n2 k with
    | none => exact Or.inl ⟨rfl, rfl⟩
    | some c2 =>
      simp [label, descend, hc1, hc2, LabRel] at h1
  | some c1 =>
    cases hc2 : litChild n2 k with
    | none =>
      simp [label, descend, hc1, hc2, LabRel] at h1
    | some c2 =>
      refine Or.inr ⟨c1, c2, rfl, rfl, ?_⟩
      intro π
      have := ht (.lit k :: π)
      unfold label at this ⊢
      rwa [descend_lit_some n1 c1 k hc1, descend_lit_some n2 c2 k hc2] at this

theorem twin_par {R : Option Handler → Option Handler → Prop} {n1 n2 : node}
    (ht : Twin R n1 n2) :
    (n1.nonstatic = none ∧ n2.nonstatic = none) ∨
      ∃ c1 c2, n1.nonstatic = some c1 ∧ n2.nonstatic = some c2 ∧ Twin R c1 c2 := by
  have h1 := ht [.par]
  cases hc1 : n1.nonstatic with
  | none =>
    cases hc2 : n2.nonstatic with
    | none => exact Or.inl ⟨rfl, rfl⟩
    | some c2 =>
      simp [label, descend, hc1, hc2, LabRel] at h1
  | some c1 =>
    cases hc2 : n2.nonstatic with
    | none =>
      simp [label, descend, hc1, hc2, LabRel] at h1
    | some c2 =>
      refine Or.inr ⟨c1, c2, rfl, rfl, ?_⟩
      intro π
      have := ht (.par :: π)
      unfold label at this ⊢
      rwa [descend_par_some n1 c1 hc1, descend_par_some n2 c2 hc2] at this

theorem twin_here {R : Option Handler → Option Handler → Prop} {n1 n2 : node}
    (ht : Twin R n1 n2) : n1.end_ = n2.end_ ∧ (n1.end_ = true → R n1.handler n2.handler) := by
  have := ht []
  simpa [label, descend, LabRel] using this

theorem twin_childless {R : Option Handler → Option Handler → Prop} {n1 n2 : node}
    (ht : Twin R n1 n2) (hc : Childless n1) : Childless n2 := by
  constructor
  · intro k
    rcases twin_lit ht k with ⟨_, h2⟩ | ⟨c1, c2, h1, _, _⟩
    · exact h2
    · rw [hc.1 k] at h1
      exact Option.noConfusion h1
  · rcases twin_par ht with ⟨_, h2⟩ | ⟨c1, c2, h1, _, _⟩
    · exact h2
    · rw [hc.2] at h1
      exact Option.noConfusion h1

theorem twin_childless_back {R : Option Handler → Option Handler → Prop} {n1 n2 : node}
    (ht : Twin R n1 n2) (hc : Childless n2) : Childless n1 := by
  constructor
  · intro k
    rcases twin_lit ht k with ⟨h1, _⟩ | ⟨c1, c2, _, h2, _⟩
    · exact h1
    · rw [hc.1 k] at h2
      exact Option.noConfusion h2
  · rcases twin_par ht with ⟨h1, _⟩ | ⟨c1, c2, _, h2, _⟩
    · exact h1
    · rw [hc.2] at h2
      exact Option.noConfusion h2

theorem staticChild_of_children (n : node) (res : Str) (nn : Option node)
    (hn : n.nonstatic = none) (hc : ¬ Childless n) : staticChild n res nn = litChild n res := by
  unfold staticChild litChild staticMap
  cases hst : n.static with
  | some m => rfl
  | none =>
    exfalso
    apply hc
    refine ⟨fun k => ?_, hn⟩
    simp [litChild, staticMap, hst, mapGet]

theorem searchLoop_childless (len : Nat) :
    ∀ (toks : List Str) (idx : Nat) (n : node) (nn : Option node) (keys : Option (List Str)),
      Childless n → (nn = none ∨ nn = some n) →
      searchLoop len toks idx n nn keys = .ok (none, false, keys) := by
  intro toks
  induction toks with
  | nil =>
    intro idx n nn keys _ _
    rfl
  | cons res rest ih =>
    intro idx n nn keys hc hnn
    rw [searchLoop_cons, staticReturn_eq_litChild, hc.1 res]
    simp only [hc.2]
    have hsc : staticChild n res nn = none ∨ staticChild n res nn = some n := by
      unfold staticChild
      cases hst : n.static with
      | none => exact hnn
      | some m =>
        left
        have := hc.1 res
        simpa [litChild, staticMap, hst] using this
    rcases hsc with h | h
    · rw [h]
    · rw [h]
      exact ih (idx + 1) n (some n) keys hc (Or.inr rfl)

theorem searchLoop_twin (R : Option Handler → Option Handler → Prop) (len : Nat) :
    ∀ (toks : List Str) (idx : Nat) (n1 n2 : node) (nn1 nn2 : Option node)
      (keys1 keys2 : Option (List Str)),
      Twin R n1 n2 → KeysBorne n1 → KeysBorne n2 →
      keys1.map List.length = keys2.map List.length →
      (nn1 = none ∨ nn1 = some n1) → (nn2 = none ∨ nn2 = some n2) →
      ResRel R (searchLoop len toks idx n1 nn1 keys1) (searchLoop len toks idx n2 nn2 keys2) := by
  intro toks
  induction toks with
  | nil =>
    intro idx n1 n2 nn1 nn2 keys1 keys2 _ _ _ _ _ _
    simp [searchLoop, ResRel]
  | cons res rest ih =>
    intro idx n1 n2 nn1 nn2 keys1 keys2 ht hk1 hk2 hkeys hnn1 hnn2
    by_cases hc1 : Childless n1
    · have hc2 := twin_childless ht hc1
      rw [searchLoop_childless len _ idx n1 nn1 keys1 hc1 hnn1,
        searchLoop_childless len _ idx n2 nn2 keys2 hc2 hnn2]
      simp [ResRel]
    · have hc2 : ¬ Childless n2 := fun h => hc1 (twin_childless_back ht h)
      rw [searchLoop_cons, searchLoop_cons, staticReturn_eq_litChild, staticReturn_eq_litChild]
      -- the part of the loop body after the first block
      have hrest : ResRel R
          (match n1.nonstatic with
            | some p =>
              let ks := match keys1 with
                | none => List.replicate len []
                | some ks => ks
              if idx < ks.length then
                if p.end_ ∧ len = idx + 1 then .ok (p.handler, true, some (ks.set idx p.res))
                else searchLoop len rest (idx + 1) p (some p) (some (ks.set idx p.res))
              else .error .indexOutOfRange
            | none =>
              match staticChild n1 res nn1 with
              | none => .ok (none, false, keys1)
              | some x => searchLoop len rest (idx + 1) x (some x) keys1)
          (match n2.nonstatic with
            | some p =>
              let ks := match keys2 with
                | none => List.replicate len []
                | some ks => ks
              if idx < ks.length then
                if p.end_ ∧ len = idx + 1 then .ok (p.handler, true, some (ks.set idx p.res))
                else searchLoop len rest (idx + 1) p (some p) (some (ks.set idx p.res))
              else .error .indexOutOfRange
            | none =>
              match staticChild n2 res nn2 with
              | none => .ok (none, false, keys2)
              | some x => searchLoop len rest (idx + 1) x (some x) keys2) := by
        rcases twin_par ht with ⟨hp1, hp2⟩ | ⟨p1, p2, hp1, hp2, htp⟩
        · simp only [hp1, hp2]
          rw [staticChild_of_children n1 res nn1 hp1 hc1,
            staticChild_of_children n2 res nn2 hp2 hc2]
          rcases twin_lit ht res with ⟨hl1, hl2⟩ | ⟨c1, c2, hl1, hl2, htc⟩
          · rw [hl1, hl2]
            simp [ResRel]
          · rw [hl1, hl2]
            exact ih (idx + 1) c1 c2 (some c1) (some c2) keys1 keys2 htc
              (keysBorne_shift hk1 (by rw [descend_lit_some n1 c1 res hl1]; rfl))
              (keysBorne_shift hk2 (by rw [descend_lit_some n2 c2 res hl2]; rfl))
              hkeys (Or.inr rfl) (Or.inr rfl)
        · simp only [hp1, hp2]
          have hlen : (match keys1 with
              | none => List.replicate len ([] : Str)
              | some ks => ks).length = (match keys2 with
              | none => List.replicate len ([] : Str)
              | some ks => ks).length := by
            cases keys1 with
            | none =>
              cases keys2 with
              | none => rfl
              | some k2 => simp at hkeys
            | some k1 =>
              cases keys2 with
              | none => simp at hkeys
              | some k2 => simpa using hkeys
          rw [hlen]
          by_cases hidx : idx < (match keys2 with
              | none => List.replicate len ([] : Str)
              | some ks => ks).length
          · rw [if_pos hidx, if_pos hidx]
            obtain ⟨he, hR⟩ := twin_here htp
            by_cases hlast : p1.end_ = true ∧ len = idx + 1
            · have hlast2 : p2.end_ = true ∧ len = idx + 1 := by
                rw [← he]
                exact hlast
              rw [if_pos hlast, if_pos hlast2]
              simp only [ResRel]
              exact ⟨trivial, fun _ => hR hlast.1, fun h => Bool.noConfusion h⟩
            · have hlast2 : ¬ (p2.end_ = true ∧ len = idx + 1) := by
                rw [← he]
                exact hlast
              rw [if_neg hlast, if_neg hlast2]
              refine ih (idx + 1) p1 p2 (some p1) (some p2) _ _ htp
                (keysBorne_shift hk1 (by rw [descend_par_some n1 p1 hp1]; rfl))
                (keysBorne_shift hk2 (by rw [descend_par_some n2 p2 hp2]; rfl))
                ?_ (Or.inr rfl) (Or.inr rfl)
              simp [hlen]
          · rw [if_neg hidx, if_neg hidx]
            simp [ResRel]
      rcases twin_lit ht res with ⟨hl1, hl2⟩ | ⟨c1, c2, hl1, hl2, htc⟩
      · simp only [hl1, hl2]
        exact hrest
      · simp only [hl1, hl2]
        obtain ⟨he, hR⟩ := twin_here htc
        have hr1 : c1.res = res := hk1 [] res c1 (by
          rw [List.nil_append, descend_lit_some n1 c1 res hl1]; rfl)
        have hr2 : c2.res = res := hk2 [] res c2 (by
          rw [List.nil_append, descend_lit_some n2 c2 res hl2]; rfl)
        by_cases hlast : c1.end_ = true ∧ len = idx + 1
        · have hlast2 : c2.end_ = true ∧ len = idx + 1 := by
            rw [← he]
            exact hlast
          rw [if_pos hlast, if_pos hlast2, if_pos hr1, if_pos hr2]
          simp only [ResRel]
          exact ⟨trivial, fun _ => hR hlast.1, fun h => Bool.noConfusion h⟩
        · have hlast2 : ¬ (c2.end_ = true ∧ len = idx + 1) := by
            rw [← he]
            exact hlast
          rw [if_neg hlast, if_neg hlast2]
          exact hrest

theorem Handle_formula (sm : ServeMux) (p : Str) (h : Option Handler) (m : Str)
    (segs : List Str) (hv : (split p).vals = m :: segs)
    (hroot : (methodRoot sm m).static ≠ none) :
    Handle sm p h = .ok (ServeMux.mk (mapSet
      (match mapGet sm.methods m with
        | some _ => sm.methods
        | none => mapSet sm.methods m (newNode m nodeKindMethod))
      m (register h segs (methodRoot sm m)))) := by
  unfold Handle
  rw [hv]
  cases hm : mapGet sm.methods m with
  | some r =>
    have hr : methodRoot sm m = r := by simp [methodRoot, hm]
    rw [hr] at hroot ⊢
    simp only [hm]
    rw [add_eq_register h segs r hroot]
  | none =>
    have hr : methodRoot sm m = newNode m nodeKindMethod := by simp [methodRoot, hm]
    rw [hr] at hroot ⊢
    simp only [hm, mapGet_mapSet_same]
    rw [add_eq_register h segs _ hroot]

theorem split_vals_cons (p : Str) (hp : p ≠ []) : ∃ m segs, (split p).vals = m :: segs := by
  cases hv : (split p).vals with
  | nil =>
    rw [split_of_ne_nil p hp] at hv
    exact absurd hv (stringsSplit_ne_nil '/' _)
  | cons m segs => exact ⟨m, segs, rfl⟩

theorem ServeHTTP_congr (sm1 sm2 : ServeMux) (M path : Str)
    (h : mapGet sm1.methods M = mapGet sm2.methods M) :
    ServeHTTP sm1 M path = ServeHTTP sm2 M path := by
  unfold ServeHTTP
  rw [h]

theorem ServeHTTP_twin (R : Option Handler → Option Handler → Prop) (sm1 sm2 : ServeMux)
    (M path : Str) (r1 r2 : node) (h1 : mapGet sm1.methods M = some r1)
    (h2 : mapGet sm2.methods M = some r2) (ht : Twin R r1 r2) (hk1 : KeysBorne r1)
    (hk2 : KeysBorne r2) :
    ServeHTTP sm1 M path = ServeHTTP sm2 M path ∨
      ∃ u v c1 c2, ServeHTTP sm1 M path = invoke u c1 ∧ ServeHTTP sm2 M path = invoke v c2 ∧
        R u v := by
  unfold ServeHTTP
  simp only [h1, h2]
  unfold search
  by_cases h0 : (split path).len = 0
  · rw [if_pos h0, if_pos h0]
    exact Or.inl rfl
  · rw [if_neg h0, if_neg h0]
    have hrel := searchLoop_twin R (split path).len (split path).vals 0 r1 r2 none none
      (split path).keys (split path).keys ht hk1 hk2 rfl (Or.inl rfl) (Or.inl rfl)
    cases hs1 : searchLoop (split path).len (split path).vals 0 r1 none (split path).keys with
    | error e1 =>
      cases hs2 : searchLoop (split path).len (split path).vals 0 r2 none (split path).keys with
      | error e2 =>
        rw [hs1, hs2] at hrel
        have : e1 = e2 := by simpa [ResRel] using hrel
        subst this
        exact Or.inl rfl
      | ok x2 =>
        rw [hs1, hs2] at hrel
        exact absurd hrel (by simp [ResRel])
    | ok x1 =>
      cases hs2 : searchLoop (split path).len (split path).vals 0 r2 none (split path).keys with
      | error e2 =>
        rw [hs1, hs2] at hrel
        exact absurd hrel (by simp [ResRel])
      | ok x2 =>
        rw [hs1, hs2] at hrel
        obtain ⟨a1, b1, k1⟩ := x1
        obtain ⟨a2, b2, k2⟩ := x2
        simp only [ResRel] at hrel
        obtain ⟨hb, hR, _⟩ := hrel
        subst hb
        cases b1 with
        | false => exact Or.inl rfl
        | true =>
          have hpos : (split path).len > 0 := Nat.pos_of_ne_zero h0
          simp only [Bool.not_true, Bool.false_eq_true, if_false, hpos, if_true]
          exact Or.inr ⟨a1, a2, _, _, rfl, rfl, hR rfl⟩

theorem outcome_invoke (u : Option Handler) (c1 c2 : Option arguments) :
    outcome (invoke u c1) = outcome (invoke u c2) := by
  cases u with
  | none => rfl
  | some a => rfl

theorem methodRoot_congr (sm1 sm2 : ServeMux) (m : Str)
    (h : mapGet sm1.methods m = mapGet sm2.methods m) : methodRoot sm1 m = methodRoot sm2 m := by
  unfold methodRoot
  rw [h]

theorem methodRoot_of_lookup (sm : ServeMux) (m : Str) (r : node)
    (h : mapGet sm.methods m = some r) : methodRoot sm m = r := by
  simp [methodRoot, h]

theorem labRel_refl (R : Option Handler → Option Handler → Prop)
    (x : Option (Bool × Option Handler)) (h : ∀ a, x = some (true, a) → R a a) :
    LabRel R x x := by
  cases x with
  | none => trivial
  | some a =>
    obtain ⟨e, u⟩ := a
    refine ⟨rfl, fun he => ?_⟩
    simp only at he
    subst he
    exact h u rfl

theorem label_register_fun (h : Option Handler) (segs : List Str) (n : node) :
    label (register h segs n) = labelAfter h segs (label n) :=
  funext (label_register h segs n)

theorem label_terminal {n : node} {π : List Step} {a : Option Handler}
    (h : label n π = some (true, a)) : ∃ d, descend n π = some d ∧ d.end_ = true ∧ d.handler = a := by
  unfold label at h
  cases hd : descend n π with
  | none => simp [hd] at h
  | some d =>
    simp only [hd, Option.some.injEq, Prod.mk.injEq] at h
    exact ⟨d, rfl, h.1, h.2⟩

theorem namesAgree_refl : ∀ (segs : List Str), namesAgree segs segs = true := by
  intro segs
  induction segs with
  | nil => rfl
  | cons a as ih => simp [namesAgree, ih]

theorem descend_start_some (n : node) : ∀ (π τ : List Step) (d : node),
    descend n (π ++ τ) = some d → ∃ c, descend n π = some c := by
  intro π τ d hd
  cases hc : descend n π with
  | some c => exact ⟨c, rfl⟩
  | none =>
    exfalso
    induction π generalizing n with
    | nil => simp [descend] at hc
    | cons e π ih =>
      rw [List.cons_append] at hd
      obtain ⟨x, hx, hxd⟩ := descend_cons_some n d e (π ++ τ) hd
      rw [descend_cons n x e hx] at hc
      exact ih x hxd hc

/-- A registration leaves the name of every node that was there, except
below the empty key when it is the root pattern. -/
theorem register_keeps_res (hq : Option Handler) (segsq : List Str) (n : node) (π : List Step)
    (c c' : node) (hπ : π ≠ []) (hroot : segsq = [] → π.head? ≠ some (.lit []))
    (hc : descend n π = some c) (hc' : descend (register hq segsq n) π = some c') :
    c'.res = c.res := by
  cases segsq with
  | nil =>
    rw [descend_register_nil_other hq n π hπ (hroot rfl), hc] at hc'
    rw [Option.some.inj hc']
  | cons s ss =>
    rw [register_cons] at hc'
    obtain ⟨_, hB⟩ := descend_insertMark hq (s :: ss) n π c' hc'
    rcases hB with ⟨d0, hd0, hres, _⟩ | ⟨hnone, _⟩
    · rw [hc] at hd0
      rw [← Option.some.inj hd0] at hres
      exact hres
    · rw [hc] at hnone
      exact Option.noConfusion hnone

theorem names_kept {ops : List (Str × Option Handler)} {sm sm' : ServeMux}
    (hi : RegistryInv ops sm) (q : Str) (hq : Option Handler) (M : Str) (segs : List Str)
    (hno : patMethod q = some M → overwrites (patSegments q) (stepsOf segs) = false)
    (hH : Handle sm q hq = .ok sm')
    (hl : ∃ root d, mapGet sm.methods M = some root ∧ descend root (stepsOf segs) = some d ∧
      NamesBorne root (keySegs segs)) :
    ∃ root d, mapGet sm'.methods M = some root ∧ descend root (stepsOf segs) = some d ∧
      NamesBorne root (keySegs segs) := by
  obtain ⟨root, d, hroot, hd, hn⟩ := hl
  obtain ⟨m, segsq, hv, hm, hother⟩ :=
    Handle_lookup sm sm' q hq (fun M r hr => (hi M r hr).1.static_ne) hH
  by_cases hmM : m = M
  · subst hmM
    obtain ⟨hpm, hps⟩ := patMethod_of_vals q m segsq hv
    have hno' := hno hpm
    rw [hps] at hno'
    have hr : methodRoot sm m = root := by simp [methodRoot, hroot]
    rw [hr] at hm
    obtain ⟨d', hd', _, _⟩ :=
      descend_register_kept hq segsq root (stepsOf segs) d (stepsOf_ne_nil segs) hd hno'
    refine ⟨_, d', hm, hd', ?_⟩
    intro ρ c' seg hpre hc' hseg
    rw [← stepsOf_eq_keySegs] at hpre
    obtain ⟨τ, hτ⟩ := hpre
    obtain ⟨c, hc⟩ := descend_start_some root (ρ ++ [.par]) τ d (by rw [hτ]; exact hd)
    have hres := register_keeps_res hq segsq root (ρ ++ [.par]) c c' (by simp) (fun hnil => by
      subst hnil
      have hhead := head_of_common_start (ρ ++ [.par]) (stepsOf segs) ⟨τ, hτ⟩ (by simp)
      have hne : (stepsOf segs).head? ≠ some (.lit []) := by simpa [overwrites] using hno'
      rw [← hhead] at hne
      exact hne) hc hc'
    rw [hres]
    refine hn ρ c seg ?_ hc hseg
    rw [← stepsOf_eq_keySegs]
    exact ⟨τ, hτ⟩
  · exact ⟨root, d, by rw [hother M hmM]; exact hroot, hd, hn⟩

theorem names_handleAll (M : Str) (segs : List Str) :
    ∀ (post ops0 : List (Str × Option Handler)) (sm0 sm : ServeMux),
      RegistryInv ops0 sm0 → handleAll sm0 post = .ok sm →
      (∀ q ∈ post, patMethod q.1 = some M →
        overwrites (patSegments q.1) (stepsOf segs) = false) →
      (∃ root d, mapGet sm0.methods M = some root ∧ descend root (stepsOf segs) = some d ∧
        NamesBorne root (keySegs segs)) →
      ∃ root d, mapGet sm.methods M = some root ∧ descend root (stepsOf segs) = some d ∧
        NamesBorne root (keySegs segs) := by
  intro post
  induction post with
  | nil =>
    intro ops0 sm0 sm _ hh _ hl
    simp only [handleAll, Except.ok.injEq] at hh
    subst hh
    exact hl
  | cons q post ih =>
    intro ops0 sm0 sm hi hh hno hl
    obtain ⟨p, hp⟩ := q
    simp only [handleAll] at hh
    cases hH : Handle sm0 p hp with
    | error e =>
      rw [hH] at hh
      exact Except.noConfusion hh
    | ok sm1 =>
      rw [hH] at hh
      exact ih (ops0 ++ [(p, hp)]) sm1 sm (registryInv_Handle hi p hp hH) hh
        (fun q hq => hno q (by simp [hq]))
        (names_kept hi p hp M segs (hno (p, hp) (by simp)) hH hl)

/-- The parameterized nodes along a registered pattern bear its names when
the patterns registered before it agree with it on them. -/
theorem names_build (pre post : List (Str × Option Handler)) (p : Str) (h : Option Handler)
    (sm : ServeMux) (hb : build (pre ++ (p, h) :: post) = .ok sm) (M : Str) (segs : List Str)
    (hp : (split p).vals = M :: segs)
    (hlater : ∀ q ∈ post, patMethod q.1 = some M →
      overwrites (patSegments q.1) (stepsOf segs) = false)
    (hnames : ∀ q ∈ pre, patMethod q.1 = some M → namesAgree (patSegments q.1) segs = true) :
    ∃ root d, mapGet sm.methods M = some root ∧ descend root (stepsOf segs) = some d ∧
      NamesBorne root (keySegs segs) := by
  obtain ⟨sm1, h1, h2⟩ := handleAll_append pre ((p, h) :: post) NewServeMux sm hb
  have hi1 : RegistryInv pre sm1 := registryInv_build pre sm1 h1
  simp only [handleAll] at h2
  cases hH : Handle sm1 p h with
  | error e =>
    rw [hH] at h2
    exact Except.noConfusion h2
  | ok sm2 =>
    rw [hH] at h2
    have hi2 := registryInv_Handle hi1 p h hH
    obtain ⟨root, d, hroot, hd, _, _⟩ := live_after_Handle hi1 p h M segs hp hH
    refine names_handleAll M segs post (pre ++ [(p, h)]) sm2 sm hi2 h2 hlater
      ⟨root, d, hroot, hd, namesBorne_of_agree (hi2 M root hroot).1 segs ?_⟩
    intro q hq hqm
    rcases List.mem_append.1 hq with hq | hq
    · exact hnames q hq hqm
    · simp only [List.mem_singleton] at hq
      subst hq
      rw [(patMethod_of_vals p M segs hp).2]
      exact namesAgree_refl segs

theorem litChild_insertMark_same (h : Option Handler) (s : Str) (rest : List Str) (c : node)
    (hs : isStatic s = true) :
    litChild (insertMark h (s :: rest) c) s = some (insertMark h rest (litChildOrNew c s)) := by
  rw [insertMark_cons_static h s rest c hs]
  simp [litChild, staticMap, mapGet_mapSet_same]

theorem litChild_insertMark_param (h : Option Handler) (s : Str) (rest : List Str) (c : node)
    (hs : isStatic s = false) (k : Str) :
    litChild (insertMark h (s :: rest) c) k = litChild c k := by
  rw [insertMark_cons_param h s rest c hs]
  rfl

theorem nonstatic_insertMark_static (h : Option Handler) (s : Str) (rest : List Str) (c : node)
    (hs : isStatic s = true) : (insertMark h (s :: rest) c).nonstatic = c.nonstatic := by
  rw [insertMark_cons_static h s rest c hs]

theorem nonstatic_insertMark_param (h : Option Handler) (s : Str) (rest : List Str) (c : node)
    (hs : isStatic s = false) :
    (insertMark h (s :: rest) c).nonstatic = some (insertMark h rest (parChildOrNew c s)) := by
  rw [insertMark_cons_param h s rest c hs]

/-- A route of the matcher along `segs` is still its route after `segs` is
registered again, and it ends on a terminal node that holds the new
handler. -/
theorem routed_insertMark (h : Option Handler) :
    ∀ (segs toks : List Str) (x d : node), Routed x segs toks d →
      ∃ d', Routed (insertMark h segs x) segs toks d' ∧ d'.end_ = true ∧ d'.handler = h := by
  intro segs
  induction segs with
  | nil => intro toks x d hr; exact absurd hr (by simp [Routed])
  | cons s ss ih =>
    intro toks x d hr
    cases toks with
    | nil => exact absurd hr (by simp [Routed])
    | cons t ts =>
      cases ss with
      | nil =>
        simp only [Routed] at hr ⊢
        obtain ⟨hts, hr⟩ := hr
        subst hts
        by_cases hs : isStatic s = true
        · simp only [hs, if_true] at hr ⊢
          obtain ⟨hts, hc, hres⟩ := hr
          subst hts
          refine ⟨insertMark h [] d, ⟨trivial, rfl, ?_, ?_⟩, ?_, ?_⟩
          · rw [litChild_insertMark_same h t [] x hs, litChildOrNew_of_some x d t hc]
          · rw [(insertMark_res h [] d).1, hres]
          · exact ((insertMark_end h [] d).1 rfl).1
          · exact ((insertMark_end h [] d).1 rfl).2
        · have hs' : isStatic s = false := by simpa using hs
          simp only [hs', Bool.false_eq_true, if_false] at hr ⊢
          obtain ⟨hp, hno⟩ := hr
          refine ⟨insertMark h [] d, ⟨trivial, ?_, ?_⟩, ?_, ?_⟩
          · rw [nonstatic_insertMark_param h s [] x hs', parChildOrNew_of_some x d s hp]
          · intro c hc
            rw [litChild_insertMark_param h s [] x hs'] at hc
            exact hno c hc
          · exact ((insertMark_end h [] d).1 rfl).1
          · exact ((insertMark_end h [] d).1 rfl).2
      | cons s2 ss2 =>
        simp only [Routed] at hr ⊢
        by_cases hs : isStatic s = true
        · simp only [hs, if_true] at hr ⊢
          obtain ⟨hts, hnone, c, hc, hrc⟩ := hr
          subst hts
          obtain ⟨d', hr', he', hh'⟩ := ih ts c d hrc
          refine ⟨d', ⟨rfl, ?_, insertMark h (s2 :: ss2) c, ?_, hr'⟩, he', hh'⟩
          · rw [nonstatic_insertMark_static h t _ x hs]
            exact hnone
          · rw [litChild_insertMark_same h t _ x hs, litChildOrNew_of_some x c t hc]
        · have hs' : isStatic s = false := by simpa using hs
          simp only [hs', Bool.false_eq_true, if_false] at hr ⊢
          obtain ⟨p, hp, hrp⟩ := hr
          obtain ⟨d', hr', he', hh'⟩ := ih ts p d hrp
          refine ⟨d', ⟨insertMark h (s2 :: ss2) p, ?_, hr'⟩, he', hh'⟩
          rw [nonstatic_insertMark_param h s _ x hs', parChildOrNew_of_some x p s hp]

theorem routed_register (h : Option Handler) (segs toks : List Str) (x d : node)
    (hr : Routed x (keySegs segs) toks d) :
    ∃ d', Routed (register h segs x) (keySegs segs) toks d' ∧ d'.end_ = true ∧
      d'.handler = h := by
  cases segs with
  | cons s ss =>
    rw [register_cons]
    exact routed_insertMark h (s :: ss) toks x d hr
  | nil =>
    cases toks with
    | nil => exact absurd hr (by simp [keySegs, Routed])
    | cons t ts =>
      simp only [keySegs, Routed] at hr ⊢
      obtain ⟨hts, hr⟩ := hr
      subst hts
      have hs : isStatic ([] : Str) = true := by decide
      simp only [hs, if_true] at hr ⊢
      obtain ⟨ht, _, _⟩ := hr
      subst ht
      refine ⟨rootLeaf h, ⟨trivial, rfl, ?_, rfl⟩, rfl, rfl⟩
      simp [register, litChild, staticMap, mapGet_mapSet_same]

/-- C1 (as amended). In a registry built by `Handle` calls, let pattern `p`
be registered under method `M` with a non-nil handler `h`, and let the tokens of `path`
be `p`'s segments, with any token in place of each parameter segment (the
single empty token for the root pattern).  Dispatching `M` on `path` invokes
`h`, provided that: no later registration under `M` lands on `p`'s node or,
being the root pattern, replaces an empty first segment of `p`; no pattern
registered under `M` has a parameter where `p` has a literal segment that is
not its last, after the same segments; and, when `p` ends in a parameter, the
last token is not a literal registered under `M` at that place. -/
theorem registered_pattern_dispatch (pre post : List (Str × Option Handler)) (p : Str)
    (h : Option Handler) (hh : h ≠ none) (sm : ServeMux)
    (hb : build (pre ++ (p, h) :: post) = .ok sm)
    (M : Str) (segs : List Str) (hp : (split p).vals = M :: segs) (path : Str)
    (hfit : Fits (stepsOf segs) (split path).vals)
    (hlater : ∀ q ∈ post, patMethod q.1 = some M →
      overwrites (patSegments q.1) (stepsOf segs) = false)
    (hshadow : ∀ q ∈ pre ++ (p, h) :: post, patMethod q.1 = some M →
      shadows (stepsOf (patSegments q.1)) (stepsOf segs) = false)
    (hlit : ∀ q ∈ pre ++ (p, h) :: post, patMethod q.1 = some M →
      some (stepsOf (patSegments q.1)) ≠ literalReading (stepsOf segs) (split path).vals) :
    ∃ ctx, ServeHTTP sm M path = .ok (.served h ctx) := by
  obtain ⟨_, _, _, _, _, hs⟩ :=
    dispatch_routed pre post p h sm hb M segs hp path hfit hlater hshadow hlit
  rw [invoke_of_ne_none h _ hh] at hs
  exact ⟨_, hs⟩

/-- Witness of `registered_pattern_dispatch`: `GET/users/:id`, registered
between `GET/users/cleanup` and `POST/users`, answers `/users/123`. -/
theorem registered_pattern_dispatch_witness :
    ∃ sm, build ([("GET/users/cleanup".toList, some 2)] ++
        ("GET/users/:id".toList, some 1) :: [("POST/users".toList, some 3)]) = .ok sm ∧
      (split "GET/users/:id".toList).vals = "GET".toList :: ["users".toList, ":id".toList] ∧
      Fits (stepsOf ["users".toList, ":id".toList]) (split "/users/123".toList).vals ∧
      ∃ ctx, ServeHTTP sm "GET".toList "/users/123".toList = .ok (.served (some 1) ctx) :=
  ⟨_, rfl, by decide, by decide,
    registered_pattern_dispatch [("GET/users/cleanup".toList, some 2)]
      [("POST/users".toList, some 3)] "GET/users/:id".toList (some 1) (by decide) _ rfl
      "GET".toList
      ["users".toList, ":id".toList] (by decide) "/users/123".toList (by decide) (by decide)
      (by decide) (by decide)⟩

/-- C1, the claim as stated fails.  With `GET/users/cleanup` and
`GET/users/:id` registered, the path `/users/cleanup`, built from
`GET/users/:id` by putting `cleanup` for `:id`, invokes the handler of
`GET/users/cleanup`.  With `GET/a/:x` and then `GET/a/:y` registered, the path
`/a/5`, built from `GET/a/:x`, invokes the handler of `GET/a/:y`. -/
theorem registered_pattern_other_handler :
    (∃ sm ctx, build [("GET/users/cleanup".toList, some 2), ("GET/users/:id".toList, some 1)]
        = .ok sm ∧
      Fits (stepsOf (patSegments "GET/users/:id".toList)) (split "/users/cleanup".toList).vals ∧
      ServeHTTP sm "GET".toList "/users/cleanup".toList = .ok (.served (some 2) ctx)) ∧
    (∃ sm ctx, build [("GET/a/:x".toList, some 1), ("GET/a/:y".toList, some 2)] = .ok sm ∧
      Fits (stepsOf (patSegments "GET/a/:x".toList)) (split "/a/5".toList).vals ∧
      ServeHTTP sm "GET".toList "/a/5".toList = .ok (.served (some 2) ctx)) :=
  ⟨⟨_, _, rfl, by decide, rfl⟩, ⟨_, _, rfl, by decide, rfl⟩⟩

/-- C2 (as amended). In a registry built by `Handle` calls, when `search`
succeeds for method `M` on the tokens of a path, some pattern registered under
`M` with the returned handler either is the root pattern (no path segment)
while the path is the single empty token, or has exactly as many path
segments as the path has tokens, each literal segment equal to the token at
its position. -/
theorem search_found_is_registered (ops : List (Str × Option Handler)) (sm : ServeMux)
    (hb : build ops = .ok sm) (M path : Str) (root : node)
    (hroot : mapGet sm.methods M = some root) (h : Option Handler) (args : arguments)
    (hs : search root (split path) = .ok (h, true, args)) :
    ∃ q ∈ ops, ∃ segs, (split q.1).vals = M :: segs ∧ q.2 = h ∧
      ((segs = [] ∧ (split path).vals = [[]]) ∨
        (segs.length = (split path).vals.length ∧
          ∀ i s t, segs.get? i = some s → (split path).vals.get? i = some t →
            isStatic s = true → s = t)) := by
  have hinv := (registryInv_build ops sm hb M root hroot).1
  have hlen : (split path).len = 0 + (split path).vals.length := by
    by_cases hp : path = []
    · subst hp
      rfl
    · rw [split_of_ne_nil path hp]
      simp
  unfold search at hs
  by_cases h0 : (split path).len = 0
  · rw [if_pos h0] at hs
    simp at hs
  · rw [if_neg h0] at hs
    cases hl : searchLoop (split path).len (split path).vals 0 root none (split path).keys with
    | error e =>
      rw [hl] at hs
      exact Except.noConfusion hs
    | ok r =>
      obtain ⟨h', ok, ks⟩ := r
      rw [hl] at hs
      simp only [Except.ok.injEq, Prod.mk.injEq] at hs
      obtain ⟨rfl, rfl, _⟩ := hs
      obtain ⟨π, d, hd, he, hh, hf⟩ :=
        searchLoop_sound _ _ 0 root none _ h' ks hlen (Or.inl rfl) hl
      obtain ⟨q, hq, segs, hv, hsteps, hq2⟩ := hinv.ends π d hd he
      refine ⟨q, hq, segs, hv, by rw [← hq2, hh], ?_⟩
      subst hsteps
      cases segs with
      | nil =>
        left
        refine ⟨rfl, ?_⟩
        cases hvals : (split path).vals with
        | nil =>
          rw [hvals] at hf
          simp [stepsOf, Fits] at hf
        | cons t ts =>
          rw [hvals] at hf
          cases ts with
          | nil =>
            simp only [stepsOf, Fits, and_true] at hf
            rcases hf with hf | hf
            · exact Step.noConfusion hf
            · rw [← Step.lit.inj hf]
          | cons t2 ts => simp [stepsOf, Fits] at hf
      | cons s ss =>
        right
        rw [stepsOf_cons] at hf
        exact fits_map_stepOf (s :: ss) _ hf

/-- C2, the claim as stated fails for the root pattern: with only `GET`
registered, `search` succeeds on the path `/` (one token, the empty string),
and no registered pattern has one path segment. -/
theorem search_found_root_pattern_has_no_segment :
    ∃ sm root args, build [("GET".toList, some 1)] = .ok sm ∧
      mapGet sm.methods "GET".toList = some root ∧
      search root (split "/".toList) = .ok (some 1, true, args) ∧
      ¬ ∃ q ∈ [("GET".toList, (some 1 : Option Handler))], ∃ segs,
          (split q.1).vals = "GET".toList :: segs ∧
            segs.length = (split "/".toList).vals.length := by
  refine ⟨_, _, _, rfl, rfl, rfl, ?_⟩
  rintro ⟨q, hq, segs, hv, hlen⟩
  simp only [List.mem_singleton] at hq
  subst hq
  have h1 : (split "GET".toList).vals = ["GET".toList] := by decide
  have h2 : (split "/".toList).vals = [[]] := by decide
  rw [h1] at hv
  rw [h2] at hlen
  simp only [List.cons.injEq, true_and] at hv
  subst hv
  simp at hlen

/-- Witness of `search_found_is_registered`: `GET/users/:id` answers the
path `/users/123`. -/
theorem search_found_is_registered_witness :
    ∃ sm root args, build [("GET/users/:id".toList, some 7)] = .ok sm ∧
      mapGet sm.methods "GET".toList = some root ∧
      search root (split "/users/123".toList) = .ok (some 7, true, args) ∧
      ∃ q ∈ [("GET/users/:id".toList, (some 7 : Option Handler))], ∃ segs,
        (split q.1).vals = "GET".toList :: segs ∧ q.2 = some 7 ∧
        ((segs = [] ∧ (split "/users/123".toList).vals = [[]]) ∨
          (segs.length = (split "/users/123".toList).vals.length ∧
            ∀ i s t, segs.get? i = some s → (split "/users/123".toList).vals.get? i = some t →
              isStatic s = true → s = t)) :=
  ⟨_, _, _, rfl, rfl, rfl,
    search_found_is_registered [("GET/users/:id".toList, some 7)] _ rfl "GET".toList
      "/users/123".toList _ rfl (some 7) _ rfl⟩

/-- C3. At the last token, a terminal literal child under the token wins
even when the node also has a parameterized child; with no literal child
under the token, a terminal parameterized child answers.  With
`GET/users/cleanup` and `GET/users/:id` registered in either order with
non-nil handlers, `/users/cleanup` invokes the cleanup handler and
`/users/123` the `:id` handler. -/
theorem literal_child_first (ops : List (Str × Option Handler)) (sm : ServeMux)
    (hb : build ops = .ok sm) (M : Str) (root : node)
    (hroot : mapGet sm.methods M = some root) (π : List Step) (n : node)
    (hn : descend root π = some n) (res : Str) (idx : Nat) (nn : Option node)
    (keys : Option (List Str)) (hkeys : ∀ ks, keys = some ks → ks.length = idx + 1) :
    (∀ m c, n.static = some m → mapGet m res = some c → c.end_ = true →
      searchLoop (idx + 1) [res] idx n nn keys = .ok (c.handler, true, keys)) ∧
    ((∀ m, n.static = some m → mapGet m res = none) →
      ∀ p, n.nonstatic = some p → p.end_ = true →
        searchLoop (idx + 1) [res] idx n nn keys =
          .ok (p.handler, true, some ((match keys with
            | none => List.replicate (idx + 1) []
            | some ks => ks).set idx p.res))) ∧
    (∀ (hA hB : Handler) (sm2 : ServeMux),
      (build [("GET/users/cleanup".toList, some hB), ("GET/users/:id".toList, some hA)]
          = .ok sm2 ∨
        build [("GET/users/:id".toList, some hA), ("GET/users/cleanup".toList, some hB)]
          = .ok sm2) →
      (∃ ctx, ServeHTTP sm2 "GET".toList "/users/cleanup".toList =
        .ok (.served (some hB) ctx)) ∧
      (∃ ctx, ServeHTTP sm2 "GET".toList "/users/123".toList =
        .ok (.served (some hA) ctx))) := by
  have hinv := (registryInv_build ops sm hb M root hroot).1
  refine ⟨?_, ?_, ?_⟩
  · intro m c hst hm he
    have hc : litChild n res = some c := by rw [litChild_eq_of_static n m res hst]; exact hm
    have hd : descend root (π ++ [.lit res]) = some c := by
      rw [descend_append root π _ n hn, descend_lit_some n c res hc]
      rfl
    have hres := trieInv_key hinv π res c hd
    have hsr : staticReturn (idx + 1) idx n res = some (c.handler, true) := by
      simp [staticReturn, hst, hm, he, hres]
    simp [searchLoop_cons, hsr]
  · intro hnone p hp he
    have hsr : staticReturn (idx + 1) idx n res = none := by
      unfold staticReturn
      cases hst : n.static with
      | none => rfl
      | some m => simp [hnone m hst]
    have hklen : idx < (match keys with
        | none => List.replicate (idx + 1) []
        | some ks => ks).length := by
      cases keys with
      | none => simp
      | some ks => simp [hkeys ks rfl]
    rw [searchLoop_cons]
    simp only [hsr, hp]
    rw [if_pos hklen, if_pos ⟨he, trivial⟩]
  · intro hA hB sm2 hsm
    rcases hsm with hsm | hsm
    · have : sm2 = _ := (Except.ok.inj hsm).symm
      subst this
      exact ⟨⟨_, rfl⟩, ⟨_, rfl⟩⟩
    · have : sm2 = _ := (Except.ok.inj hsm).symm
      subst this
      exact ⟨⟨_, rfl⟩, ⟨_, rfl⟩⟩

/-- Witness of `literal_child_first`: under `users`, with both `cleanup` and
`:id` registered, at the last token `cleanup`. -/
theorem literal_child_first_witness :
    ∃ sm root n, build [("GET/users/cleanup".toList, some 2), ("GET/users/:id".toList, some 1)]
        = .ok sm ∧
      mapGet sm.methods "GET".toList = some root ∧
      descend root [.lit "users".toList] = some n ∧
      (∀ m c, n.static = some m → mapGet m "cleanup".toList = some c → c.end_ = true →
        searchLoop 2 ["cleanup".toList] 1 n none none = .ok (c.handler, true, none)) :=
  ⟨_, _, _, rfl, rfl, rfl,
    (literal_child_first
      [("GET/users/cleanup".toList, some 2), ("GET/users/:id".toList, some 1)] _ rfl
      "GET".toList _ rfl [.lit "users".toList] _ rfl "cleanup".toList 1 none none
      (fun _ hks => Option.noConfusion hks)).1⟩

/-- C4 (as amended). In a registry built by `Handle` calls, let pattern `p`
be registered under method `M` with a non-nil handler `h` and let the tokens
of `path` be `p`'s segments with a token in place of each parameter.  Provided
that no later registration takes over `p`'s node, no parameterized sibling
stands beside a literal segment of `p` that is not its last, the token put for
a final parameter is not a literal registered at that place, and every pattern
registered under `M` before `p` gives a parameter it shares with `p` (same
position, same preceding segments) the name `p` gives it: the dispatch invokes
`h`, and in
the carrier `fromContext` builds from the stored arguments every non-empty
name is bound to exactly the path tokens at the positions of that parameter in
`p`, in left-to-right order. -/
theorem registered_pattern_params (pre post : List (Str × Option Handler)) (p : Str)
    (h : Option Handler) (hh : h ≠ none) (sm : ServeMux)
    (hb : build (pre ++ (p, h) :: post) = .ok sm)
    (M : Str) (segs : List Str) (hp : (split p).vals = M :: segs) (path : Str)
    (hfit : Fits (stepsOf segs) (split path).vals)
    (hlater : ∀ q ∈ post, patMethod q.1 = some M →
      overwrites (patSegments q.1) (stepsOf segs) = false)
    (hshadow : ∀ q ∈ pre ++ (p, h) :: post, patMethod q.1 = some M →
      shadows (stepsOf (patSegments q.1)) (stepsOf segs) = false)
    (hlit : ∀ q ∈ pre ++ (p, h) :: post, patMethod q.1 = some M →
      some (stepsOf (patSegments q.1)) ≠ literalReading (stepsOf segs) (split path).vals)
    (hnames : ∀ q ∈ pre, patMethod q.1 = some M →
      namesAgree (patSegments q.1) segs = true) :
    ∃ ctx vals, ServeHTTP sm M path = .ok (.served h ctx) ∧
      fromContext ctx = .ok (some vals) ∧
      ∀ name, name ≠ [] → valuesOf vals name = paramValues name segs (split path).vals := by
  obtain ⟨root, d, hroot, hd, hinv, hs⟩ :=
    dispatch_routed pre post p h sm hb M segs hp path hfit hlater hshadow hlit
  rw [invoke_of_ne_none h _ hh] at hs
  have hσ := stepsOf_eq_keySegs segs
  have hborne : NamesBorne root (keySegs segs) := by
    obtain ⟨root2, _, hroot2, _, hn⟩ := names_build pre post p h sm hb M segs hp hlater hnames
    rw [hroot] at hroot2
    rw [Option.some.inj hroot2]
    exact hn
  have hkeys : routeKeys (split path).len 0 root (keySegs segs) none =
      bindKeys (split path).len 0 (keySegs segs) none :=
    routeKeys_eq_bindKeys _ _ root d 0 none (by rw [← hσ]; exact hd) hborne
  have hlen : (split path).vals.length = (keySegs segs).length := by
    have := Fits_length _ _ hfit
    rw [hσ, List.length_map] at this
    exact this
  rw [hkeys, (split_vals_len path).1] at hs
  obtain ⟨vals, hfc, hvals⟩ := fromContext_bindKeys (keySegs segs) (split path).vals hlen
  refine ⟨_, vals, hs, hfc, ?_⟩
  intro name hname
  rw [hvals name hname, paramValues_keySegs]

/-- Witness of `registered_pattern_params`: the pattern
`GET/applications/:client_id/tokens/:access_token` on the path
`/applications/1/tokens/123456789`. -/
theorem registered_pattern_params_witness :
    ∃ sm, build ([("GET/applications".toList, some 2)] ++
        ("GET/applications/:client_id/tokens/:access_token".toList, some 1) :: []) = .ok sm ∧
      (split "GET/applications/:client_id/tokens/:access_token".toList).vals =
        "GET".toList ::
          ["applications".toList, ":client_id".toList, "tokens".toList,
            ":access_token".toList] ∧
      ∃ ctx vals,
        ServeHTTP sm "GET".toList "/applications/1/tokens/123456789".toList =
          .ok (.served (some 1) ctx) ∧
        fromContext ctx = .ok (some vals) ∧
        ∀ name, name ≠ [] → valuesOf vals name =
          paramValues name
            ["applications".toList, ":client_id".toList, "tokens".toList,
              ":access_token".toList]
            (split "/applications/1/tokens/123456789".toList).vals :=
  ⟨_, rfl, by decide,
    registered_pattern_params [("GET/applications".toList, some 2)] []
      "GET/applications/:client_id/tokens/:access_token".toList (some 1) (by decide) _ rfl
      "GET".toList
      ["applications".toList, ":client_id".toList, "tokens".toList, ":access_token".toList]
      (by decide) "/applications/1/tokens/123456789".toList (by decide) (by decide)
      (by decide) (by decide) (by decide)⟩

/-- C4, the claim as stated fails.  With `GET/users/cleanup` and
`GET/users/:id` registered, the path `/users/cleanup`, built from
`GET/users/:id`, is dispatched with success and the carrier binds nothing to
`id`.  With `GET/a/:x` and then `GET/a/:y` registered, the path `/a/5`, built
from `GET/a/:y`, invokes the handler of `GET/a/:y` and the carrier binds `5`
to `x`, nothing to `y`. -/
theorem registered_pattern_params_unbound :
    (∃ sm h ctx vals,
      build [("GET/users/cleanup".toList, some 2), ("GET/users/:id".toList, some 1)] = .ok sm ∧
      ServeHTTP sm "GET".toList "/users/cleanup".toList = .ok (.served h ctx) ∧
      fromContext ctx = .ok (some vals) ∧
      valuesOf vals "id".toList = [] ∧
      paramValues "id".toList (patSegments "GET/users/:id".toList)
        (split "/users/cleanup".toList).vals = ["cleanup".toList]) ∧
    (∃ sm ctx vals,
      build [("GET/a/:x".toList, some 1), ("GET/a/:y".toList, some 2)] = .ok sm ∧
      ServeHTTP sm "GET".toList "/a/5".toList = .ok (.served (some 2) ctx) ∧
      fromContext ctx = .ok (some vals) ∧
      valuesOf vals "y".toList = [] ∧ valuesOf vals "x".toList = ["5".toList] ∧
      paramValues "y".toList (patSegments "GET/a/:y".toList) (split "/a/5".toList).vals =
        ["5".toList]) :=
  ⟨⟨_, _, _, _, rfl, rfl, rfl, by decide, by decide⟩,
    ⟨_, _, _, rfl, rfl, rfl, by decide, by decide, by decide⟩⟩

/-- C5 (as amended). With `GET/authorizations/:id` registered, dispatching
`GET /authorizations/1` invokes the handler (any handler `h`, which is not
nil), and the carrier `fromContext` builds from the stored arguments binds
`id` to exactly `1` and, besides, the empty name to the literal token
`authorizations`; it has no other key. -/
theorem authorizations_carrier (h : Handler) :
    ∃ sm ctx, build [("GET/authorizations/:id".toList, some h)] = .ok sm ∧
      ServeHTTP sm "GET".toList "/authorizations/1".toList = .ok (.served (some h) ctx) ∧
      fromContext ctx =
        .ok (some [([], ["authorizations".toList]), ("id".toList, ["1".toList])]) :=
  ⟨_, _, rfl, rfl, rfl⟩

/-- C5, the claim as stated fails: the carrier of `GET /authorizations/1`
has a second key, the empty name, bound to `authorizations`. -/
theorem authorizations_carrier_has_empty_key :
    ∃ sm ctx vals, build [("GET/authorizations/:id".toList, some 1)] = .ok sm ∧
      ServeHTTP sm "GET".toList "/authorizations/1".toList = .ok (.served (some 1) ctx) ∧
      fromContext ctx = .ok (some vals) ∧
      mapGet vals "id".toList = some ["1".toList] ∧
      mapGet vals [] = some ["authorizations".toList] :=
  ⟨_, _, _, rfl, rfl, rfl, rfl, rfl⟩

/-- C6. Dispatching a method under which no pattern was ever registered
invokes the not-found handler, whatever the path. -/
theorem unregistered_method_not_found (ops : List (Str × Option Handler)) (sm : ServeMux)
    (hb : build ops = .ok sm) (M : Str)
    (hM : ∀ q ∈ ops, (split q.1).vals.head? ≠ some M) (path : Str) :
    ServeHTTP sm M path = .ok .notFound := by
  have hnone : mapGet sm.methods M = none := by
    cases hm : mapGet sm.methods M with
    | none => rfl
    | some root =>
      obtain ⟨_, q, hq, hqM⟩ := registryInv_build ops sm hb M root hm
      exact absurd hqM (hM q hq)
  unfold ServeHTTP
  simp only [hnone]

/-- Witness of `unregistered_method_not_found`: `HEAD /anything` when only
`GET` routes are registered. -/
theorem unregistered_method_not_found_witness :
    ∃ sm, build [("GET/users".toList, some 1), ("GET/users/:id".toList, some 2)] = .ok sm ∧
      (∀ q ∈ [("GET/users".toList, (some 1 : Option Handler)), ("GET/users/:id".toList, some 2)],
        (split q.1).vals.head? ≠ some "HEAD".toList) ∧
      ServeHTTP sm "HEAD".toList "/anything".toList = .ok .notFound :=
  ⟨_, rfl, by decide,
    unregistered_method_not_found
      [("GET/users".toList, some 1), ("GET/users/:id".toList, some 2)] _ rfl "HEAD".toList
      (by decide) "/anything".toList⟩

/-- C7. In any registry built by `Handle` calls, registering the root
pattern of a method `M` (a pattern whose only token is `M`) with a non-nil
handler `h` succeeds, and right after it dispatching `M` on `/` invokes `h`, whatever
else is registered.  The method alone and the method with a trailing slash
are such patterns, for every non-empty `M` without a slash. -/
theorem root_pattern_dispatch (ops : List (Str × Option Handler)) (sm : ServeMux)
    (hb : build ops = .ok sm) (M : Str) (h : Option Handler) (hh : h ≠ none) :
    (∀ p, (split p).vals = [M] →
      ∃ sm', Handle sm p h = .ok sm' ∧
        ServeHTTP sm' M ['/'] =
          .ok (.served h (some { keys := none, vals := [[]], len := 1 }))) ∧
    (M ≠ [] → '/' ∉ M → (split M).vals = [M] ∧ (split (M ++ ['/'])).vals = [M]) := by
  have hinv := registryInv_build ops sm hb
  have hr := methodRoot_static_ne hinv M
  have hsl : split ['/'] = { keys := none, vals := [[]], len := 1 } := by decide
  constructor
  · intro p hp
    obtain ⟨sm', hH, hget, _⟩ := Handle_eq sm p h M [] hp hr
    refine ⟨sm', hH, ?_⟩
    rw [ServeHTTP_root_leaf sm' M h _ hget _ hsl, invoke_of_ne_none h _ hh]
  · intro hM hslash
    rw [split_token M hM hslash, split_token_slash M hM hslash]
    exact ⟨rfl, rfl⟩

/-- Witness of `root_pattern_dispatch`: the root of `GET`, spelled `GET/`,
registered after a route whose first segment is a parameter. -/
theorem root_pattern_dispatch_witness :
    ∃ sm, build [("GET/:id".toList, some 1)] = .ok sm ∧
      (split "GET/".toList).vals = ["GET".toList] ∧
      (∃ sm', Handle sm "GET/".toList (some 2) = .ok sm' ∧
        ServeHTTP sm' "GET".toList ['/'] =
          .ok (.served (some 2) (some { keys := none, vals := [[]], len := 1 }))) :=
  ⟨_, rfl, by decide,
    (root_pattern_dispatch [("GET/:id".toList, some 1)] _ rfl "GET".toList (some 2)
      (by decide)).1 "GET/".toList (by decide)⟩

/-- C8 (as amended). The tokenizer yields the single empty token for every
non-empty input that is empty after stripping (`/` and `//`), and no token at
all for the empty string.  So right after the root pattern of `M` is
registered with a non-nil handler, dispatching `M` on such an input invokes
the root handler, while
dispatching on the empty path reports not-found, as it does in every
registry. -/
theorem blank_path_dispatch (ops : List (Str × Option Handler)) (sm sm' : ServeMux)
    (hb : build ops = .ok sm) (M p0 : Str) (hp0 : (split p0).vals = [M])
    (h : Option Handler) (hh : h ≠ none) (hH : Handle sm p0 h = .ok sm') :
    (∀ p, p ≠ [] → stripSlashes p = [] →
      split p = { keys := none, vals := [[]], len := 1 } ∧
      ServeHTTP sm' M p = .ok (.served h (some { keys := none, vals := [[]], len := 1 }))) ∧
    split [] = { keys := none, vals := [], len := 0 } ∧
    (∀ (sm0 : ServeMux) (M0 : Str), ServeHTTP sm0 M0 [] = .ok .notFound) := by
  have hinv := registryInv_build ops sm hb
  have hr := methodRoot_static_ne hinv M
  obtain ⟨sm2, hH2, hget, _⟩ := Handle_eq sm p0 h M [] hp0 hr
  rw [hH] at hH2
  have hsm : sm' = sm2 := Except.ok.inj hH2
  subst hsm
  refine ⟨?_, rfl, ?_⟩
  · intro p hp hs
    have hsp := split_blank p hp hs
    refine ⟨hsp, ?_⟩
    rw [ServeHTTP_root_leaf sm' M h _ hget p hsp, invoke_of_ne_none h _ hh]
  · intro sm0 M0
    unfold ServeHTTP
    cases mapGet sm0.methods M0 with
    | none => rfl
    | some root => rfl

/-- Witness of `blank_path_dispatch`: the root of `GET` in the empty
registry. -/
theorem blank_path_dispatch_witness :
    ∃ sm', build [] = .ok NewServeMux ∧ (split "GET".toList).vals = ["GET".toList] ∧
      Handle NewServeMux "GET".toList (some 1) = .ok sm' ∧
      ServeHTTP sm' "GET".toList "//".toList =
        .ok (.served (some 1) (some { keys := none, vals := [[]], len := 1 })) ∧
      ServeHTTP sm' "GET".toList [] = .ok .notFound :=
  ⟨_, rfl, by decide, rfl,
    ((blank_path_dispatch [] NewServeMux _ rfl "GET".toList "GET".toList (by decide) (some 1)
      (by decide) rfl).1 "//".toList (by decide) (by decide)).2,
    (blank_path_dispatch [] NewServeMux _ rfl "GET".toList "GET".toList (by decide) (some 1)
      (by decide) rfl).2.2 _ _⟩

/-- C8, the claim as stated fails: the tokenizer yields no token for the
empty string, and with the root of `GET` registered the empty path is
reported not-found while `/` invokes the root handler. -/
theorem empty_path_not_found :
    (split []).vals ≠ [[]] ∧
    ∃ sm ctx, build [("GET".toList, some 1)] = .ok sm ∧
      ServeHTTP sm "GET".toList "/".toList = .ok (.served (some 1) ctx) ∧
      ServeHTTP sm "GET".toList [] = .ok .notFound :=
  ⟨by decide, _, _, rfl, rfl, rfl⟩

/-- C9. For a non-empty path `p` that does not end in `/`, `split (p + "/")`
equals `split p`; so in every registry and for every method, dispatching
`p + "/"` has the outcome of dispatching `p`: the same response, with the
same handler and the same stored arguments. -/
theorem trailing_slash_dispatch (p : Str) (hp : p ≠ []) (hl : p.getLast? ≠ some '/')
    (sm : ServeMux) (method : Str) :
    split (p ++ ['/']) = split p ∧
      ServeHTTP sm method (p ++ ['/']) = ServeHTTP sm method p := by
  have h : split (p ++ ['/']) = split p := by
    rw [split_of_ne_nil p hp, split_of_ne_nil (p ++ ['/']) (by simp),
      stripSlashes_append_slash p hp hl]
  refine ⟨h, ?_⟩
  unfold ServeHTTP
  rw [h]

/-- Witness of `trailing_slash_dispatch`: `/comments/` against
`GET/comments`. -/
theorem trailing_slash_dispatch_witness :
    ∃ sm, build [("GET/comments".toList, some 1)] = .ok sm ∧
      "/comments".toList ≠ [] ∧ "/comments".toList.getLast? ≠ some '/' ∧
      split ("/comments".toList ++ ['/']) = split "/comments".toList ∧
      ServeHTTP sm "GET".toList ("/comments".toList ++ ['/']) =
        ServeHTTP sm "GET".toList "/comments".toList :=
  ⟨_, rfl, by decide, by decide,
    trailing_slash_dispatch "/comments".toList (by decide) (by decide) _ "GET".toList⟩

/-- C10. For a non-empty string `p`, the tokens of `split p` joined with `/`
give back `p` stripped of one leading and then one trailing `/`; no token
contains `/`; there is at least one token; and `len` is the number of
tokens. -/
theorem split_tokens (p : Str) (hp : p ≠ []) :
    List.intercalate ['/'] (split p).vals = stripSlashes p ∧
      (∀ t ∈ (split p).vals, '/' ∉ t) ∧
      1 ≤ (split p).vals.length ∧
      (split p).len = (split p).vals.length := by
  rw [split_of_ne_nil p hp]
  refine ⟨stringsSplit_join '/' _, stringsSplit_no_sep '/' _, ?_, rfl⟩
  have := stringsSplit_ne_nil '/' (stripSlashes p)
  exact List.length_pos.2 this

/-- Witness of `split_tokens`: the path `/users/123/`. -/
theorem split_tokens_witness :
    "/users/123/".toList ≠ [] ∧
      List.intercalate ['/'] (split "/users/123/".toList).vals = stripSlashes "/users/123/".toList ∧
      (∀ t ∈ (split "/users/123/".toList).vals, '/' ∉ t) ∧
      1 ≤ (split "/users/123/".toList).vals.length ∧
      (split "/users/123/".toList).len = (split "/users/123/".toList).vals.length :=
  ⟨by decide, split_tokens "/users/123/".toList (by decide)⟩

/-- C12. Registering a pattern whose method token is `M` leaves the root of
every other method as it was, so every dispatch under another method has the
same outcome before and after.  With `POST/authorizations`,
`GET/authorizations` and `DELETE/authorizations/:id` registered with non-nil
handlers, each invokes its own handler. -/
theorem other_methods_untouched (sm sm' : ServeMux) (p : Str) (h : Option Handler)
    (hH : Handle sm p h = .ok sm') (M : Str) (hM : (split p).vals.head? ≠ some M) :
    mapGet sm'.methods M = mapGet sm.methods M ∧
    (∀ path, ServeHTTP sm' M path = ServeHTTP sm M path) ∧
    (∀ (h1 h2 h3 : Handler) (sm3 : ServeMux),
      build [("POST/authorizations".toList, some h1), ("GET/authorizations".toList, some h2),
        ("DELETE/authorizations/:id".toList, some h3)] = .ok sm3 →
      (∃ ctx, ServeHTTP sm3 "POST".toList "/authorizations".toList =
        .ok (.served (some h1) ctx)) ∧
      (∃ ctx, ServeHTTP sm3 "GET".toList "/authorizations".toList =
        .ok (.served (some h2) ctx)) ∧
      (∃ ctx, ServeHTTP sm3 "DELETE".toList "/authorizations/1".toList =
        .ok (.served (some h3) ctx))) := by
  have hl := Handle_other_lookup sm sm' p h hH M hM
  refine ⟨hl, ?_, ?_⟩
  · intro path
    unfold ServeHTTP
    rw [hl]
  · intro h1 h2 h3 sm3 hsm
    have : sm3 = _ := (Except.ok.inj hsm).symm
    subst this
    exact ⟨⟨_, rfl⟩, ⟨_, rfl⟩, ⟨_, rfl⟩⟩

/-- Witness of `other_methods_untouched`: registering `POST/authorizations`
leaves the dispatch of `GET /authorizations` as it was. -/
theorem other_methods_untouched_witness :
    ∃ sm sm', build [("GET/authorizations".toList, some 1)] = .ok sm ∧
      Handle sm "POST/authorizations".toList (some 2) = .ok sm' ∧
      (split "POST/authorizations".toList).vals.head? ≠ some "GET".toList ∧
      ServeHTTP sm' "GET".toList "/authorizations".toList =
        ServeHTTP sm "GET".toList "/authorizations".toList := by
  refine ⟨_, _, rfl, rfl, by decide, ?_⟩
  refine (other_methods_untouched _ _ "POST/authorizations".toList (some 2) ?_ "GET".toList
    ?_).2.1 "/authorizations".toList
  · rfl
  · decide

/-- C14. When the first block of the loop body does not return and the
current node has a parameterized child, the traversal goes on in the
parameterized child, whether or not a literal child matches the token, and
binds the token's slot to the parameter's name (returning the child's handler
when the child is terminal and the token is the last).  So with
`GET/users/cleanup/now` and `GET/users/:id/comments` registered, in either
order, `/users/cleanup/now` is not found. -/
theorem param_child_taken (len idx : Nat) (n p : node) (res : Str) (rest : List Str)
    (nn : Option node) (keys : Option (List Str))
    (hsr : staticReturn len idx n res = none) (hp : n.nonstatic = some p)
    (hk : idx < (match keys with
      | none => List.replicate len []
      | some ks => ks).length) :
    searchLoop len (res :: rest) idx n nn keys =
      (if p.end_ ∧ len = idx + 1 then
        .ok (p.handler, true, some ((match keys with
          | none => List.replicate len []
          | some ks => ks).set idx p.res))
      else searchLoop len rest (idx + 1) p (some p) (some ((match keys with
          | none => List.replicate len []
          | some ks => ks).set idx p.res))) ∧
    (∀ (h1 h2 : Option Handler) (sm : ServeMux),
      (build [("GET/users/cleanup/now".toList, h1), ("GET/users/:id/comments".toList, h2)]
          = .ok sm ∨
        build [("GET/users/:id/comments".toList, h2), ("GET/users/cleanup/now".toList, h1)]
          = .ok sm) →
      ServeHTTP sm "GET".toList "/users/cleanup/now".toList = .ok .notFound) := by
  constructor
  · rw [searchLoop_cons]
    simp only [hsr, hp]
    rw [if_pos hk]
  · intro h1 h2 sm hsm
    rcases hsm with hsm | hsm
    · have : sm = _ := (Except.ok.inj hsm).symm
      subst this
      rfl
    · have : sm = _ := (Except.ok.inj hsm).symm
      subst this
      rfl

/-- Witness of `param_child_taken`: under `users`, the token `cleanup` has
a literal child, and the traversal goes on in the child of `:id`. -/
theorem param_child_taken_witness :
    ∃ sm root n p,
      build [("GET/users/cleanup/now".toList, some 1), ("GET/users/:id/comments".toList, some 2)]
        = .ok sm ∧
      mapGet sm.methods "GET".toList = some root ∧
      descend root [.lit "users".toList] = some n ∧
      (∃ c, litChild n "cleanup".toList = some c) ∧
      staticReturn 3 1 n "cleanup".toList = none ∧ n.nonstatic = some p ∧
      searchLoop 3 ["cleanup".toList, "now".toList] 1 n (some n) none =
        (if p.end_ ∧ 3 = 1 + 1 then
          .ok (p.handler, true, some ((List.replicate 3 []).set 1 p.res))
        else searchLoop 3 ["now".toList] (1 + 1) p (some p)
          (some ((List.replicate 3 []).set 1 p.res))) := by
  refine ⟨_, _, _, _, rfl, rfl, rfl, ⟨_, rfl⟩, rfl, rfl, ?_⟩
  refine (param_child_taken 3 1 _ _ "cleanup".toList ["now".toList] _ none ?_ ?_ ?_).1
  · rfl
  · rfl
  · decide

/-- C16. In a registry built by `Handle` calls, every literal child is
stored under a key equal to its own `res`; so the first block of the loop
body of `search` never returns a failure: the `res == token` check never
rejects a terminal literal match. -/
theorem literal_child_bears_key (ops : List (Str × Option Handler)) (sm : ServeMux)
    (hb : build ops = .ok sm) (M : Str) (root : node)
    (hroot : mapGet sm.methods M = some root) (π : List Step) (n : node)
    (hn : descend root π = some n) :
    (∀ m k c, n.static = some m → mapGet m k = some c → c.res = k) ∧
    (∀ len idx tok r, staticReturn len idx n tok = some r → r.2 = true) := by
  have hinv := (registryInv_build ops sm hb M root hroot).1
  have hkey : ∀ k c, litChild n k = some c → c.res = k := by
    intro k c hc
    refine trieInv_key hinv π k c ?_
    rw [descend_append root π _ n hn, descend_lit_some n c k hc]
    rfl
  constructor
  · intro m k c hst hc
    exact hkey k c (by rw [litChild_eq_of_static n m k hst]; exact hc)
  · intro len idx tok r hr
    rw [staticReturn_eq_litChild] at hr
    cases hc : litChild n tok with
    | none =>
      rw [hc] at hr
      exact Option.noConfusion hr
    | some c =>
      rw [hc] at hr
      simp only at hr
      by_cases hcond : c.end_ = true ∧ len = idx + 1
      · rw [if_pos hcond, if_pos (hkey tok c hc)] at hr
        rw [← Option.some.inj hr]
      · rw [if_neg hcond] at hr
        exact Option.noConfusion hr

/-- Witness of `literal_child_bears_key`: the children of `users` when
`GET/users/cleanup` and `GET/users/:id` are registered. -/
theorem literal_child_bears_key_witness :
    ∃ sm root n,
      build [("GET/users/cleanup".toList, some 1), ("GET/users/:id".toList, some 2)] = .ok sm ∧
      mapGet sm.methods "GET".toList = some root ∧
      descend root [.lit "users".toList] = some n ∧
      (∀ m k c, n.static = some m → mapGet m k = some c → c.res = k) :=
  ⟨_, _, _, rfl, rfl, rfl,
    (literal_child_bears_key
      [("GET/users/cleanup".toList, some 1), ("GET/users/:id".toList, some 2)] _ rfl
      "GET".toList _ rfl [.lit "users".toList] _ rfl).1⟩

/-- C17. `fromContext` returns nil when the request context stores no
arguments.  For stored arguments with at least as many values as keys, it
returns a map in which the value list under every name `k` is exactly the
`vals[i]` with `keys[i] = k`, in increasing order of `i`. -/
theorem fromContext_values (v : arguments)
    (hlen : (match v.keys with
      | none => []
      | some ks => ks).length ≤ v.vals.length) :
    fromContext none = .ok none ∧
    ∃ out, fromContext (some v) = .ok (some out) ∧
      ∀ k, valuesOf out k =
        (((match v.keys with
          | none => []
          | some ks => ks).zip v.vals).filter (fun (kv : Str × Str) => kv.1 = k)).map
          Prod.snd := by
  refine ⟨rfl, ?_⟩
  obtain ⟨out, hout, hvals⟩ := fromContextLoop_values v.vals (match v.keys with
    | none => []
    | some ks => ks) 0 [] (by simpa using hlen)
  refine ⟨out, ?_, ?_⟩
  · unfold fromContext
    simp only [hout]
  · intro k
    rw [hvals k, List.drop_zero, pick_eq_zip]
    rfl

/-- Witness of `fromContext_values`: a name bound twice keeps both values,
in the order bound. -/
theorem fromContext_values_witness :
    (["id".toList, [], "id".toList].length ≤ ["1".toList, "x".toList, "2".toList].length) ∧
    ∃ out, fromContext (some (arguments.mk (some ["id".toList, [], "id".toList])
        ["1".toList, "x".toList, "2".toList] 3)) = .ok (some out) ∧
      valuesOf out "id".toList = ["1".toList, "2".toList] := by
  refine ⟨by decide, ?_⟩
  obtain ⟨out, hout, hvals⟩ := (fromContext_values
    (arguments.mk (some ["id".toList, [], "id".toList]) ["1".toList, "x".toList, "2".toList] 3)
    (by decide)).2
  exact ⟨out, hout, by rw [hvals]; decide⟩

/-- C13 (as amended). A registration other than the root pattern of method
`M` reuses the trie of `M` as it is: every node that was there is still there
at the same walk, with the same name, and with the same terminal mark and
handler unless it is the node at which the new pattern ends (which becomes
terminal with the new handler); and a node that was not there lies on the
walk of the new pattern.  So an existing parameterized child is reused with
its whole subtree and keeps the name the first registration gave it.  With
`GET/a/:x` and then `GET/a/:y/b` registered with non-nil handlers,
dispatching `/a/5/b` invokes the second handler and binds `5` to `x`, nothing
to `y`. -/
theorem param_name_kept (ops : List (Str × Option Handler)) (sm sm' : ServeMux)
    (hb : build ops = .ok sm) (p : Str) (h : Option Handler)
    (hH : Handle sm p h = .ok sm') (M : Str) (hnr : (split p).vals ≠ [M]) (root : node)
    (hroot : mapGet sm.methods M = some root) :
    (∃ root', mapGet sm'.methods M = some root' ∧
      (∀ π d, descend root π = some d →
        ∃ d', descend root' π = some d' ∧ d'.res = d.res ∧
          ((∀ segs, (split p).vals = M :: segs → π ≠ stepsOf segs) →
            d'.end_ = d.end_ ∧ d'.handler = d.handler) ∧
          (∀ segs, (split p).vals = M :: segs → π = stepsOf segs →
            d'.end_ = true ∧ d'.handler = h)) ∧
      (∀ π d', descend root' π = some d' →
        (∃ d, descend root π = some d) ∨
          ∃ segs, (split p).vals = M :: segs ∧ π <+: stepsOf segs)) ∧
    (∀ (h1 h2 : Handler) (sm2 : ServeMux),
      build [("GET/a/:x".toList, some h1), ("GET/a/:y/b".toList, some h2)] = .ok sm2 →
      ∃ ctx vals, ServeHTTP sm2 "GET".toList "/a/5/b".toList = .ok (.served (some h2) ctx) ∧
        fromContext ctx = .ok (some vals) ∧
        valuesOf vals "x".toList = ["5".toList] ∧ valuesOf vals "y".toList = []) := by
  constructor
  · have hi := registryInv_build ops sm hb
    obtain ⟨m, segs, hv, hm, hother⟩ :=
      Handle_lookup sm sm' p h (fun M r hr => (hi M r hr).1.static_ne) hH
    by_cases hM : m = M
    · subst hM
      have hr : methodRoot sm m = root := by simp [methodRoot, hroot]
      rw [hr] at hm
      cases segs with
      | nil => exact absurd hv hnr
      | cons s rest =>
        rw [register_cons] at hm
        refine ⟨_, hm, ?_, ?_⟩
        · intro π d hd
          obtain ⟨d', hd'⟩ := descend_insertMark_keeps h (s :: rest) root π d hd
          obtain ⟨hA, hB⟩ := descend_insertMark h (s :: rest) root π d' hd'
          rcases hB with ⟨d0, hd0, hres, hsame⟩ | ⟨hnone, _⟩
          · rw [hd] at hd0
            rw [← Option.some.inj hd0] at hres hsame
            refine ⟨d', hd', hres, ?_, ?_⟩
            · intro hne
              exact hsame (by rw [← stepsOf_cons]; exact hne (s :: rest) hv)
            · intro segs' hv' hπ
              rw [hv] at hv'
              simp only [List.cons.injEq, true_and] at hv'
              rw [← hv', stepsOf_cons] at hπ
              exact hA hπ
          · rw [hd] at hnone
            exact Option.noConfusion hnone
        · intro π d' hd'
          obtain ⟨_, hB⟩ := descend_insertMark h (s :: rest) root π d' hd'
          rcases hB with ⟨d0, hd0, _, _⟩ | ⟨_, _, hpre, _, _⟩
          · exact Or.inl ⟨d0, hd0⟩
          · exact Or.inr ⟨s :: rest, hv, by rw [stepsOf_cons]; exact hpre⟩
    · have hno : ∀ segs', (split p).vals = M :: segs' → False := by
        intro segs' hv'
        rw [hv] at hv'
        simp only [List.cons.injEq] at hv'
        exact hM hv'.1
      refine ⟨root, by rw [hother M hM]; exact hroot, ?_, ?_⟩
      · intro π d hd
        exact ⟨d, hd, rfl, fun _ => ⟨rfl, rfl⟩, fun segs' hv' _ => (hno segs' hv').elim⟩
      · intro π d' hd'
        exact Or.inl ⟨d', hd'⟩
  · intro h1 h2 sm2 hsm
    have : sm2 = _ := (Except.ok.inj hsm).symm
    subst this
    exact ⟨_, _, rfl, rfl, rfl, rfl⟩

/-- Witness of `param_name_kept`: the child of `:x` under `a`, terminal with
its handler, when `GET/a/:y/b` is registered. -/
theorem param_name_kept_witness :
    ∃ sm sm' root c, build [("GET/a/:x".toList, some 1)] = .ok sm ∧
      Handle sm "GET/a/:y/b".toList (some 2) = .ok sm' ∧
      (split "GET/a/:y/b".toList).vals ≠ ["GET".toList] ∧
      mapGet sm.methods "GET".toList = some root ∧
      descend root [.lit "a".toList, .par] = some c ∧ c.res = "x".toList ∧
      ∃ root', mapGet sm'.methods "GET".toList = some root' ∧
        ∀ π d, descend root π = some d →
          ∃ d', descend root' π = some d' ∧ d'.res = d.res ∧
            ((∀ segs, (split "GET/a/:y/b".toList).vals = "GET".toList :: segs →
                π ≠ stepsOf segs) →
              d'.end_ = d.end_ ∧ d'.handler = d.handler) ∧
            (∀ segs, (split "GET/a/:y/b".toList).vals = "GET".toList :: segs →
              π = stepsOf segs → d'.end_ = true ∧ d'.handler = some 2) := by
  refine ⟨_, _, _, _, rfl, rfl, by decide, rfl, rfl, rfl, ?_⟩
  obtain ⟨root', h1, h2, _⟩ := (param_name_kept [("GET/a/:x".toList, some 1)] _ _ rfl
    "GET/a/:y/b".toList (some 2) rfl "GET".toList (by decide) _ rfl).1
  exact ⟨root', h1, h2⟩

/-- C13, the claim as stated fails: with `GET/a/:x` and then `GET/a/:y/b`
registered, the parameterized child under `a` still bears the name `x`, and
the dispatch of `/a/5/b` binds `5` to `x`, nothing to the later name `y`. -/
theorem param_name_not_overwritten :
    ∃ sm root c ctx vals,
      build [("GET/a/:x".toList, some 1), ("GET/a/:y/b".toList, some 2)] = .ok sm ∧
      mapGet sm.methods "GET".toList = some root ∧
      descend root [.lit "a".toList, .par] = some c ∧ c.res = "x".toList ∧
      ServeHTTP sm "GET".toList "/a/5/b".toList = .ok (.served (some 2) ctx) ∧
      fromContext ctx = .ok (some vals) ∧
      valuesOf vals "y".toList = [] ∧ valuesOf vals "x".toList = ["5".toList] :=
  ⟨_, _, _, _, _, rfl, rfl, rfl, rfl, rfl, rfl, by decide, by decide⟩

/-- C15. In a registry built by `Handle` calls with non-nil handlers, every
node of the trie is terminal if and only if it holds a handler; a terminal
node is the node at which a registered pattern of its method ends, with that
pattern's handler; and a method root is never terminal. -/
theorem terminal_iff_handler (ops : List (Str × Option Handler)) (sm : ServeMux)
    (hb : build ops = .ok sm) (hnn : ∀ q ∈ ops, q.2 ≠ none) (M : Str) (root : node)
    (hroot : mapGet sm.methods M = some root) (π : List Step) (d : node)
    (hd : descend root π = some d) :
    (d.end_ = true ↔ d.handler ≠ none) ∧
    (d.end_ = true → ∃ q ∈ ops, ∃ segs, (split q.1).vals = M :: segs ∧
      stepsOf segs = π ∧ d.handler = q.2) ∧
    root.end_ = false := by
  have hinv := (registryInv_build ops sm hb M root hroot).1
  have hat := handlerAtEnd_build ops sm hb M root hroot
  refine ⟨⟨?_, ?_⟩, hinv.ends π d hd, ?_⟩
  · intro he
    obtain ⟨q, hq, _, _, _, hh⟩ := hinv.ends π d hd he
    rw [hh]
    exact hnn q hq
  · intro hh
    cases he : d.end_ with
    | true => rfl
    | false => exact absurd (hat π d hd he) hh
  · cases he : root.end_ with
    | false => rfl
    | true =>
      obtain ⟨_, _, segs, _, hs, _⟩ := hinv.ends [] root rfl he
      exact absurd hs (stepsOf_ne_nil segs)

/-- Witness of `terminal_iff_handler`: the node of `users`, interior to
`GET/users/:id` and not the end of a pattern. -/
theorem terminal_iff_handler_witness :
    ∃ sm root d, build [("GET/users/:id".toList, some 1)] = .ok sm ∧
      (∀ q ∈ [("GET/users/:id".toList, (some 1 : Option Handler))], q.2 ≠ none) ∧
      mapGet sm.methods "GET".toList = some root ∧
      descend root [.lit "users".toList] = some d ∧
      d.end_ = false ∧ (d.end_ = true ↔ d.handler ≠ none) := by
  refine ⟨_, _, _, rfl, by decide, rfl, rfl, rfl, ?_⟩
  refine (terminal_iff_handler [("GET/users/:id".toList, some 1)] ?sm ?hb (by decide)
    "GET".toList ?root ?hroot [.lit "users".toList] _ ?hd).1
  case hb => exact rfl
  case hroot => exact rfl
  case hd => exact rfl

/-- C19 (as amended). Registering the root pattern of a method `M` (a
pattern whose only token is `M`: the method alone, or with a trailing slash)
creates, under the method root, a literal child keyed by the empty string
that is terminal, holds the handler, has an empty `res`, no children, and
kind `nodeKindStatic`. -/
theorem root_pattern_child (ops : List (Str × Option Handler)) (sm sm' : ServeMux)
    (hb : build ops = .ok sm) (M p : Str) (hp : (split p).vals = [M])
    (h : Option Handler) (hH : Handle sm p h = .ok sm') :
    ∃ root m c, mapGet sm'.methods M = some root ∧ root.static = some m ∧
      mapGet m [] = some c ∧ c.end_ = true ∧ c.handler = h ∧ c.kind = nodeKindStatic ∧
      c.res = [] ∧ c.static = none ∧ c.nonstatic = none := by
  have hi := registryInv_build ops sm hb
  obtain ⟨sm2, hH2, hget, _⟩ := Handle_eq sm p h M [] hp (methodRoot_static_ne hi M)
  rw [hH] at hH2
  have hsm : sm' = sm2 := Except.ok.inj hH2
  subst hsm
  refine ⟨_, _, rootLeaf h, hget, rfl, mapGet_mapSet_same _ _ _, rfl, rfl, rfl, rfl, rfl, rfl⟩

/-- Witness of `root_pattern_child`: `GET/` in the empty registry. -/
theorem root_pattern_child_witness :
    ∃ sm' root m c, build [] = .ok NewServeMux ∧
      (split "GET/".toList).vals = ["GET".toList] ∧
      Handle NewServeMux "GET/".toList (some 1) = .ok sm' ∧
      mapGet sm'.methods "GET".toList = some root ∧ root.static = some m ∧
      mapGet m [] = some c ∧ c.end_ = true ∧ c.handler = some 1 ∧ c.kind = nodeKindStatic := by
  obtain ⟨root, m, c, h1, h2, h3, h4, h5, h6, _⟩ :=
    root_pattern_child [] NewServeMux _ rfl "GET".toList "GET/".toList (by decide) (some 1) rfl
  exact ⟨_, root, m, c, rfl, by decide, rfl, h1, h2, h3, h4, h5, h6⟩

/-- C19, the claim as stated fails: the child that `GET` stores under the
empty key has kind `nodeKindStatic`, not `nodeKindComplete`. -/
theorem root_pattern_child_not_complete :
    ∃ sm root m c, build [("GET".toList, some 1)] = .ok sm ∧
      mapGet sm.methods "GET".toList = some root ∧ root.static = some m ∧
      mapGet m [] = some c ∧ c.end_ = true ∧ c.handler = some 1 ∧
      c.kind = nodeKindStatic ∧ c.kind ≠ nodeKindComplete :=
  ⟨_, _, _, _, rfl, rfl, rfl, rfl, rfl, rfl, rfl, by decide⟩

/-- C20. In a registry built by `Handle` calls, `Handle` fails with an
out-of-range access exactly when the pattern is the empty string: then `split`
yields no token and reading token 0 fails.  For a non-empty pattern `split`
yields at least one token and `Handle` returns a registry: no slice index,
no nil-map write fails; and the recursion of `add` always ends. -/
theorem Handle_fails_iff_empty (ops : List (Str × Option Handler)) (sm : ServeMux)
    (hb : build ops = .ok sm) (p : Str) (h : Option Handler) :
    (Handle sm p h = .error .indexOutOfRange ↔ p = []) ∧
    (p = [] → (split p).vals = []) ∧
    (p ≠ [] → 1 ≤ (split p).vals.length ∧ ∃ sm', Handle sm p h = .ok sm') ∧
    (∀ (n : node) (path : List Str) (idx : Nat), add n path h idx ≠ .error .outOfFuel) := by
  have hi := registryInv_build ops sm hb
  have hne : p ≠ [] → 1 ≤ (split p).vals.length ∧ ∃ sm', Handle sm p h = .ok sm' := by
    intro hp
    have hlen : 1 ≤ (split p).vals.length := by
      rw [split_of_ne_nil p hp]
      exact List.length_pos.2 (stringsSplit_ne_nil '/' _)
    refine ⟨hlen, ?_⟩
    cases hv : (split p).vals with
    | nil => simp [hv] at hlen
    | cons m segs =>
      obtain ⟨sm', hH, _⟩ := Handle_eq sm p h m segs hv (methodRoot_static_ne hi m)
      exact ⟨sm', hH⟩
  refine ⟨⟨?_, ?_⟩, ?_, hne, fun n path idx => add_never_out_of_fuel n path h idx⟩
  · intro hf
    by_contra hp
    obtain ⟨_, sm', hH⟩ := hne hp
    rw [hH] at hf
    exact Except.noConfusion hf
  · intro hp
    subst hp
    rfl
  · intro hp
    subst hp
    rfl

/-- Witness of `Handle_fails_iff_empty`: the empty pattern and `GET/users`
in a registry that holds `GET/:id`. -/
theorem Handle_fails_iff_empty_witness :
    ∃ sm, build [("GET/:id".toList, some 1)] = .ok sm ∧
      Handle sm [] (some 2) = .error .indexOutOfRange ∧
      ∃ sm', Handle sm "GET/users".toList (some 2) = .ok sm' := by
  refine ⟨_, rfl, ?_, ?_⟩
  · exact (Handle_fails_iff_empty [("GET/:id".toList, some 1)] _ rfl [] (some 2)).1.2 rfl
  · exact ((Handle_fails_iff_empty [("GET/:id".toList, some 1)] _ rfl "GET/users".toList
      (some 2)).2.2.1 (by decide)).2

/-- C11. In a registry built by `Handle` calls, for a non-empty pattern `p`
(method `m`, segments `segs`) and handlers `h1`, `h2`: `Handle(p, h1)` and
then `Handle(p, h2)` both return, and the registry they leave is the one
`Handle(p, h2)` alone leaves (the same nodes, terminal marks and handlers).
The node at which `p` ends is terminal and holds `h1` after the first call,
`h2` after the second.  The second call changes the answer of a dispatch only
from an invocation of `h1` to an invocation of `h2`; and every path that the
matcher routed along the segments of `p` to the node of `p`, so that the
dispatch invoked `h1`, invokes `h2` afterwards.  With `GET/users` and
`GET/users/:id` registered, registering `GET/users/:id` again with handler `c`
makes `/users/7` invoke `c` and leaves `/users` as it was. -/
theorem reregistration_overwrites (ops : List (Str × Option Handler)) (sm : ServeMux)
    (hb : build ops = .ok sm) (p : Str) (hp : p ≠ []) (h1 h2 : Option Handler) :
    (∃ sm1 sm2, Handle sm p h1 = .ok sm1 ∧ Handle sm1 p h2 = .ok sm2 ∧
      Handle sm p h2 = .ok sm2 ∧
      ∃ m segs root1 root2 d1 d2, (split p).vals = m :: segs ∧
        mapGet sm1.methods m = some root1 ∧ descend root1 (stepsOf segs) = some d1 ∧
        d1.end_ = true ∧ d1.handler = h1 ∧
        mapGet sm2.methods m = some root2 ∧ descend root2 (stepsOf segs) = some d2 ∧
        d2.end_ = true ∧ d2.handler = h2 ∧
        (∀ M path,
          outcome (ServeHTTP sm2 M path) = outcome (ServeHTTP sm1 M path) ∨
            ∃ c1 c2, ServeHTTP sm1 M path = invoke h1 c1 ∧
              ServeHTTP sm2 M path = invoke h2 c2) ∧
        (∀ path, Routed root1 (keySegs segs) (split path).vals d1 →
          ∃ c1 c2, ServeHTTP sm1 m path = invoke h1 c1 ∧
            ServeHTTP sm2 m path = invoke h2 c2)) ∧
    (∀ (a b c : Handler) (s1 s2 : ServeMux),
      build [("GET/users".toList, some a), ("GET/users/:id".toList, some b)] = .ok s1 →
      Handle s1 "GET/users/:id".toList (some c) = .ok s2 →
      (∃ ctx, ServeHTTP s1 "GET".toList "/users/7".toList = .ok (.served (some b) ctx)) ∧
      (∃ ctx, ServeHTTP s2 "GET".toList "/users/7".toList = .ok (.served (some c) ctx)) ∧
      (∃ ctx, ServeHTTP s2 "GET".toList "/users".toList = .ok (.served (some a) ctx))) := by
  refine ⟨?_, ?_⟩
  swap
  · intro a b c s1 s2 hs1 hs2
    have e1 : s1 = _ := (Except.ok.inj hs1).symm
    subst e1
    have e2 : s2 = _ := (Except.ok.inj hs2).symm
    subst e2
    exact ⟨⟨_, rfl⟩, ⟨_, rfl⟩, ⟨_, rfl⟩⟩
  have hi := registryInv_build ops sm hb
  obtain ⟨m, segs, hv⟩ := split_vals_cons p hp
  have hr := methodRoot_static_ne hi m
  obtain ⟨sm1, hH1, hl1, ho1⟩ := Handle_eq sm p h1 m segs hv hr
  obtain ⟨sm2, hH2, hl2, ho2⟩ := Handle_eq sm p h2 m segs hv hr
  have hi1 := registryInv_Handle hi p h1 hH1
  have hi2 := registryInv_Handle hi p h2 hH2
  have hH12 : Handle sm1 p h2 = .ok sm2 := by
    have f1 := Handle_formula sm p h1 m segs hv hr
    have f2 := Handle_formula sm p h2 m segs hv hr
    rw [hH1] at f1
    rw [hH2] at f2
    have e1 := Except.ok.inj f1
    have e2 := Except.ok.inj f2
    have f12 := Handle_formula sm1 p h2 m segs hv (methodRoot_static_ne hi1 m)
    rw [methodRoot_of_lookup sm1 m _ hl1, register_twice] at f12
    simp only [hl1] at f12
    rw [f12, e2]
    conv_lhs => rw [e1]
    simp only [mapSet_mapSet]
  obtain ⟨d1, hd1, he1, hh1⟩ := descend_register_target h1 segs (methodRoot sm m)
  obtain ⟨d2, hd2, he2, hh2⟩ := descend_register_target h2 segs (methodRoot sm m)
  refine ⟨sm1, sm2, hH1, hH12, hH2, m, segs, _, _, d1, d2, hv, hl1, hd1, he1, hh1, hl2, hd2,
    he2, hh2, ?_, ?_⟩
  · intro M path
    by_cases hM : m = M
    · subst hM
      have htw := ServeHTTP_twin (fun a b => a = b ∨ (a = h1 ∧ b = h2)) sm1 sm2 m path _ _
        hl1 hl2 (by
          intro π
          by_cases hπ : π = stepsOf segs
          · subst hπ
            rw [label_register, label_register, labelAfter_target, labelAfter_target]
            exact ⟨rfl, fun _ => Or.inr ⟨rfl, rfl⟩⟩
          · have hsame : label (register h2 segs (methodRoot sm m)) π =
                label (register h1 segs (methodRoot sm m)) π := by
              rw [label_register, label_register]
              exact labelAfter_elsewhere h2 h1 segs _ π hπ
            rw [hsame]
            exact labRel_refl _ _ (fun a _ => Or.inl rfl))
        (keysBorne_of_inv (hi1 m _ hl1).1) (keysBorne_of_inv (hi2 m _ hl2).1)
      rcases htw with heq | ⟨u, v, c1, c2, e1, e2, hR⟩
      · exact Or.inl (by rw [heq])
      · rcases hR with huv | ⟨hu, hv'⟩
        · subst huv
          left
          rw [e1, e2]
          exact outcome_invoke u c2 c1
        · subst hu
          subst hv'
          exact Or.inr ⟨c1, c2, e1, e2⟩
    · left
      rw [ServeHTTP_congr sm2 sm1 M path (by rw [ho1 M hM, ho2 M hM])]
  · intro path hrt
    obtain ⟨d', hr', he', hh'⟩ :=
      routed_register h2 segs (split path).vals (register h1 segs (methodRoot sm m)) d1 hrt
    rw [register_twice] at hr'
    have e1 := ServeHTTP_of_routed sm1 m path _ d1 (keySegs segs) hl1 (keySegs_ne_nil segs)
      hrt he1
    have e2 := ServeHTTP_of_routed sm2 m path _ d' (keySegs segs) hl2 (keySegs_ne_nil segs)
      hr' he'
    rw [hh1] at e1
    rw [hh'] at e2
    exact ⟨_, _, e1, e2⟩

/-- Witness of `reregistration_overwrites`: `GET/users/:id` registered twice
in a registry that holds `GET/users`. -/
theorem reregistration_overwrites_witness :
    ∃ sm, build [("GET/users".toList, some 1)] = .ok sm ∧ "GET/users/:id".toList ≠ [] ∧
      ∃ sm1 sm2, Handle sm "GET/users/:id".toList (some 2) = .ok sm1 ∧
        Handle sm1 "GET/users/:id".toList (some 3) = .ok sm2 ∧
        Handle sm "GET/users/:id".toList (some 3) = .ok sm2 ∧
        ∃ m segs root1 root2 d1 d2, (split "GET/users/:id".toList).vals = m :: segs ∧
          mapGet sm1.methods m = some root1 ∧ descend root1 (stepsOf segs) = some d1 ∧
          d1.end_ = true ∧ d1.handler = some 2 ∧
          mapGet sm2.methods m = some root2 ∧ descend root2 (stepsOf segs) = some d2 ∧
          d2.end_ = true ∧ d2.handler = some 3 ∧
          (∀ M path,
            outcome (ServeHTTP sm2 M path) = outcome (ServeHTTP sm1 M path) ∨
              ∃ c1 c2, ServeHTTP sm1 M path = invoke (some 2) c1 ∧
                ServeHTTP sm2 M path = invoke (some 3) c2) ∧
          (∀ path, Routed root1 (keySegs segs) (split path).vals d1 →
            ∃ c1 c2, ServeHTTP sm1 m path = invoke (some 2) c1 ∧
              ServeHTTP sm2 m path = invoke (some 3) c2) :=
  ⟨_, rfl, by decide,
    (reregistration_overwrites [("GET/users".toList, some 1)] _ rfl "GET/users/:id".toList
      (by decide) (some 2) (some 3)).1⟩

/-- C18 (as amended). In a registry built by `Handle` calls, two
registrations made in either order leave registries that answer every method
and path with the same outcome (fault, not found, or the same handler),
provided that, when both patterns have the same method, neither lands on the
node of the other and neither is the root pattern while the other starts with
an empty segment. -/
theorem registration_order_irrelevant (ops : List (Str × Option Handler)) (sm : ServeMux)
    (hb : build ops = .ok sm) (pa pb : Str) (ha hb' : Option Handler) (Ma Mb : Str)
    (segsA segsB : List Str) (hpa : (split pa).vals = Ma :: segsA)
    (hpb : (split pb).vals = Mb :: segsB)
    (hind : Ma = Mb → overwrites segsA (stepsOf segsB) = false ∧
      overwrites segsB (stepsOf segsA) = false) :
    ∃ smAB smBA, handleAll sm [(pa, ha), (pb, hb')] = .ok smAB ∧
      handleAll sm [(pb, hb'), (pa, ha)] = .ok smBA ∧
      ∀ M path, outcome (ServeHTTP smAB M path) = outcome (ServeHTTP smBA M path) := by
  have hi := registryInv_build ops sm hb
  obtain ⟨sm1, hA, hlA, hoA⟩ := Handle_eq sm pa ha Ma segsA hpa (methodRoot_static_ne hi Ma)
  have hi1 := registryInv_Handle hi pa ha hA
  obtain ⟨smAB, hAB, hlAB, hoAB⟩ :=
    Handle_eq sm1 pb hb' Mb segsB hpb (methodRoot_static_ne hi1 Mb)
  have hiAB := registryInv_Handle hi1 pb hb' hAB
  obtain ⟨sm2, hB, hlB, hoB⟩ := Handle_eq sm pb hb' Mb segsB hpb (methodRoot_static_ne hi Mb)
  have hi2 := registryInv_Handle hi pb hb' hB
  obtain ⟨smBA, hBA, hlBA, hoBA⟩ :=
    Handle_eq sm2 pa ha Ma segsA hpa (methodRoot_static_ne hi2 Ma)
  have hiBA := registryInv_Handle hi2 pa ha hBA
  refine ⟨smAB, smBA, by simp [handleAll, hA, hAB], by simp [handleAll, hB, hBA], ?_⟩
  intro M path
  by_cases hm : Ma = Mb
  · subst hm
    obtain ⟨hab, hba⟩ := hind rfl
    by_cases hM : Ma = M
    · subst hM
      rw [methodRoot_of_lookup sm1 Ma _ hlA] at hlAB
      rw [methodRoot_of_lookup sm2 Ma _ hlB] at hlBA
      have htw := ServeHTTP_twin Eq smAB smBA Ma path _ _ hlAB hlBA (by
          intro π
          rw [label_register, label_register_fun, label_register ha segsA, label_register_fun,
            labelAfter_comm ha hb' segsA segsB _ π hab hba]
          exact labRel_refl _ _ (fun _ _ => rfl))
        (keysBorne_of_inv (hiAB Ma _ hlAB).1) (keysBorne_of_inv (hiBA Ma _ hlBA).1)
      rcases htw with heq | ⟨u, v, c1, c2, e1, e2, huv⟩
      · rw [heq]
      · subst huv
        rw [e1, e2]
        exact outcome_invoke u c1 c2
    · rw [ServeHTTP_congr smAB smBA M path]
      rw [hoAB M hM, hoBA M hM, hoA M hM, hoB M hM]
  · rw [ServeHTTP_congr smAB smBA M path]
    by_cases hMa : Ma = M
    · subst hMa
      rw [hoAB Ma (fun h => hm h.symm), hlA, hlBA,
        methodRoot_congr sm2 sm Ma (hoB Ma (fun h => hm h.symm))]
    · rw [hoBA M hMa]
      by_cases hMb : Mb = M
      · subst hMb
        rw [hlAB, hlB, methodRoot_congr sm1 sm Mb (hoA Mb hMa)]
      · rw [hoAB M hMb, hoA M hMa, hoB M hMb]

/-- Witness of `registration_order_irrelevant`: `GET/users/:id` and
`GET/users/cleanup` in either order, in a registry that holds `POST/users`. -/
theorem registration_order_irrelevant_witness :
    ∃ sm, build [("POST/users".toList, some 1)] = .ok sm ∧
      (split "GET/users/:id".toList).vals = "GET".toList :: ["users".toList, ":id".toList] ∧
      (split "GET/users/cleanup".toList).vals =
        "GET".toList :: ["users".toList, "cleanup".toList] ∧
      ∃ smAB smBA,
        handleAll sm [("GET/users/:id".toList, some 2), ("GET/users/cleanup".toList, some 3)] =
          .ok smAB ∧
        handleAll sm [("GET/users/cleanup".toList, some 3), ("GET/users/:id".toList, some 2)] =
          .ok smBA ∧
        ∀ M path, outcome (ServeHTTP smAB M path) = outcome (ServeHTTP smBA M path) :=
  ⟨_, rfl, by decide, by decide,
    registration_order_irrelevant [("POST/users".toList, some 1)] _ rfl
      "GET/users/:id".toList "GET/users/cleanup".toList (some 2) (some 3) "GET".toList
      "GET".toList ["users".toList, ":id".toList] ["users".toList, "cleanup".toList]
      (by decide) (by decide) (fun _ => ⟨by decide, by decide⟩)⟩

/-- C18, the claim as stated fails.  `GET/a/:x` and `GET/a/:y` are different
patterns that land on the same node: registered in one order the path `/a/5`
is answered by the handler of `GET/a/:y`, in the other order by the handler of
`GET/a/:x`. -/
theorem registration_order_matters :
    "GET/a/:x".toList ≠ "GET/a/:y".toList ∧
    ∃ smAB smBA ctx1 ctx2,
      build [("GET/a/:x".toList, some 1), ("GET/a/:y".toList, some 2)] = .ok smAB ∧
      build [("GET/a/:y".toList, some 2), ("GET/a/:x".toList, some 1)] = .ok smBA ∧
      ServeHTTP smAB "GET".toList "/a/5".toList = .ok (.served (some 2) ctx1) ∧
      ServeHTTP smBA "GET".toList "/a/5".toList = .ok (.served (some 1) ctx2) ∧
      outcome (ServeHTTP smAB "GET".toList "/a/5".toList) ≠
        outcome (ServeHTTP smBA "GET".toList "/a/5".toList) :=
  ⟨by decide, _, _, _, _, rfl, rfl, rfl, rfl, by decide⟩

end Rmux
